import Mathlib

/-!
# Fractal task tree: a shallow embedding of the task-tree consistency engine

This file embeds the task-tree state and the four mutating operations of the
application (`addTask`, `toggleTask`, `deleteTask`, `updateTask` in
`src/App.tsx`) as executable Lean definitions, and proves the specified
properties about them.

The JavaScript task store is a plain object keyed by task id; we model it as an
association list with unique keys (JS object keys are unique), where assigning
an existing key replaces the entry in place and assigning a fresh key appends.
Places where the JavaScript would throw a `TypeError` (reading a field of
`undefined`) or fail to terminate (a corrupted cyclic store) are modelled by
`Option`-valued operations returning `none`; on states satisfying the
invariants every operation is shown to return `some`.
-/

namespace FractalTask

/-- A task record, as in `src/types` / the objects built in `src/App.tsx`:
`id`, `title`, `description`, `completed`, ordered `children` id list,
`parentId` (`none` models JS `null` for roots) and `createdAt`. -/
structure Task where
  id : String
  title : String
  description : String
  completed : Bool
  children : List String
  parentId : Option String
  createdAt : Nat
deriving DecidableEq, Repr

/-- The task store: JS object mapping id to task, modelled as an association
list with unique keys. -/
abbrev TaskMap := List (String × Task)

/-- The whole application state (`AppState` in the source): the task store
plus the ordered list of root task ids. -/
structure AppState where
  tasks : TaskMap
  rootTaskIds : List String
deriving DecidableEq, Repr

/-- JS property read `tasks[k]`: the value at key `k`, or `none` for JS
`undefined`. -/
def findTask : TaskMap → String → Option Task
  | [], _ => none
  | (k', t) :: rest, k => if k = k' then some t else findTask rest k

/-- JS assignment `tasks[k] = v`: replace the entry in place when the key is
present, append otherwise (JS objects keep the original key position on
re-assignment and append fresh keys). -/
def setTask : TaskMap → String → Task → TaskMap
  | [], k, v => [(k, v)]
  | (k', t) :: rest, k, v =>
      if k = k' then (k, v) :: rest else (k', t) :: setTask rest k v

/-- JS `delete tasks[k]`. -/
def eraseTask : TaskMap → String → TaskMap
  | [], _ => []
  | (k', t) :: rest, k =>
      if k = k' then eraseTask rest k else (k', t) :: eraseTask rest k

/-- The keys of the store. -/
def keys (m : TaskMap) : List String := m.map Prod.fst

@[simp] theorem findTask_nil (k : String) : findTask [] k = none := rfl

theorem findTask_cons (k' : String) (t : Task) (rest : TaskMap) (k : String) :
    findTask ((k', t) :: rest) k = if k = k' then some t else findTask rest k := rfl

@[simp] theorem findTask_setTask_self (m : TaskMap) (k : String) (v : Task) :
    findTask (setTask m k v) k = some v := by
  induction m with
  | nil => simp [setTask, findTask]
  | cons p rest ih =>
      obtain ⟨k', t⟩ := p
      by_cases h : k = k' <;> simp [setTask, findTask, h, ih]

theorem findTask_setTask_ne (m : TaskMap) (k k' : String) (v : Task)
    (h : k' ≠ k) : findTask (setTask m k v) k' = findTask m k' := by
  induction m with
  | nil => simp [setTask, findTask, h]
  | cons p rest ih =>
      obtain ⟨k0, t⟩ := p
      by_cases hk : k = k0
      · subst hk
        simp [setTask, findTask, h]
      · by_cases hk' : k' = k0 <;> simp [setTask, findTask, hk, hk', ih]

theorem findTask_setTask (m : TaskMap) (k k' : String) (v : Task) :
    findTask (setTask m k v) k' = if k' = k then some v else findTask m k' := by
  by_cases h : k' = k
  · subst h; simp
  · simp [h, findTask_setTask_ne m k k' v h]

@[simp] theorem keys_nil : keys [] = [] := rfl

@[simp] theorem keys_cons (p : String × Task) (rest : TaskMap) :
    keys (p :: rest) = p.1 :: keys rest := rfl

@[simp] theorem findTask_eraseTask_self (m : TaskMap) (k : String) :
    findTask (eraseTask m k) k = none := by
  induction m with
  | nil => simp [eraseTask]
  | cons p rest ih =>
      obtain ⟨k', t⟩ := p
      by_cases h : k = k'
      · subst h; simpa [eraseTask] using ih
      · simp [eraseTask, findTask, h, ih]

theorem findTask_eraseTask_ne (m : TaskMap) (k k' : String) (h : k' ≠ k) :
    findTask (eraseTask m k) k' = findTask m k' := by
  induction m with
  | nil => simp [eraseTask]
  | cons p rest ih =>
      obtain ⟨k0, t⟩ := p
      by_cases hk : k = k0
      · subst hk
        simp [eraseTask, findTask, h, ih]
      · by_cases hk' : k' = k0 <;> simp [eraseTask, findTask, hk, hk', ih]

theorem findTask_eraseTask (m : TaskMap) (k k' : String) :
    findTask (eraseTask m k) k' = if k' = k then none else findTask m k' := by
  by_cases h : k' = k
  · subst h; simp
  · simp [h, findTask_eraseTask_ne m k k' h]

theorem keys_setTask_of_mem (m : TaskMap) (k : String) (v : Task)
    (h : (findTask m k).isSome) : keys (setTask m k v) = keys m := by
  induction m with
  | nil => simp [findTask] at h
  | cons p rest ih =>
      obtain ⟨k', t⟩ := p
      by_cases hk : k = k'
      · subst hk; simp [setTask, keys]
      · simp [findTask, hk] at h
        simp [setTask, keys, hk] at ih ⊢
        exact ih h

theorem keys_setTask_of_not_mem (m : TaskMap) (k : String) (v : Task)
    (h : findTask m k = none) : keys (setTask m k v) = keys m ++ [k] := by
  induction m with
  | nil => simp [setTask, keys]
  | cons p rest ih =>
      obtain ⟨k', t⟩ := p
      by_cases hk : k = k'
      · subst hk; simp [findTask] at h
      · simp [findTask, hk] at h
        simp [setTask, keys, hk] at ih ⊢
        exact ih h

theorem length_setTask_of_mem (m : TaskMap) (k : String) (v : Task)
    (h : (findTask m k).isSome) : (setTask m k v).length = m.length := by
  have := keys_setTask_of_mem m k v h
  have h1 : (keys (setTask m k v)).length = (keys m).length := by rw [this]
  simpa [keys] using h1

theorem mem_keys_iff_findTask (m : TaskMap) (k : String) :
    k ∈ keys m ↔ (findTask m k).isSome := by
  induction m with
  | nil => simp [findTask]
  | cons p rest ih =>
      obtain ⟨k', t⟩ := p
      by_cases h : k = k'
      · subst h
        simp [findTask]
      · rw [keys_cons, List.mem_cons, findTask_cons, if_neg h]
        constructor
        · rintro (rfl | hm)
          · exact absurd rfl h
          · exact ih.mp hm
        · intro hs; exact Or.inr (ih.mpr hs)

theorem findTask_isSome_of_mem (m : TaskMap) (k : String) (t : Task)
    (h : (k, t) ∈ m) : (findTask m k).isSome := by
  induction m with
  | nil => simp at h
  | cons p rest ih =>
      obtain ⟨k', t'⟩ := p
      rcases List.mem_cons.mp h with heq | hm
      · obtain ⟨rfl, rfl⟩ := Prod.mk.injEq .. |>.mp heq
        simp [findTask]
      · by_cases hk : k = k' <;> simp [findTask, hk, ih hm]

/-! ## The four engine operations (`src/App.tsx`)

Loops are given explicit fuel so that all definitions stay structurally
recursive (and hence evaluate inside the kernel).  Call sites pass
`length + 1` fuel; on states satisfying the invariants this is proven
sufficient.  Fuel exhaustion returns `none`, which also models JavaScript
non-termination on a (corrupted) cyclic store; `none` likewise models the
`TypeError` thrown by reading a field of `undefined`. -/

/-- `children.every(cid => tasksCopy[cid].completed)` — short-circuits at the
first incomplete child; reading `tasksCopy[cid].completed` for a dangling id
throws, which is `none`. -/
def allComplete : TaskMap → List String → Option Bool
  | _, [] => some true
  | m, c :: cs =>
      match findTask m c with
      | none => none
      | some t => if t.completed then allComplete m cs else some false

/-- The upward `while` loop of `addTask` (lines 93–99): walk `parentId`
pointers, breaking at the first not-completed task, setting every completed
task on the way to `completed = false`.  Reading a dangling id throws
(`none`). -/
def bubbleFalse : Nat → TaskMap → Option String → Option TaskMap
  | _, m, none => some m
  | 0, _, some _ => none
  | fuel+1, m, some currId =>
      match findTask m currId with
      | none => none
      | some t =>
          if t.completed then
            bubbleFalse fuel (setTask m currId { t with completed := false }) t.parentId
          else some m

/-- The `const newTask = { ... }` literal of `addTask` (lines 68–76): a fresh
leaf, incomplete, with empty description. -/
def newLeaf (parentId title newId : String) (now : Nat) : Task :=
  { id := newId, title := title, description := "", completed := false,
    children := [], parentId := some parentId, createdAt := now }

/-- The `updatedTasks` object of `addTask` (lines 82–90): the new leaf is
stored and the parent gets the leaf appended to its `children` and its
`completed` cleared. -/
def addTaskMap1 (m : TaskMap) (parentId : String) (parent : Task)
    (title newId : String) (now : Nat) : TaskMap :=
  setTask (setTask m newId (newLeaf parentId title newId now)) parentId
    { parent with children := parent.children ++ [newId], completed := false }

/-- The `some parent` branch of `addTask`: build `updatedTasks`, then run the
upward incomplete-propagation loop from the parent's parent. -/
def addTaskAux (s : AppState) (parentId title newId : String) (now : Nat)
    (parent : Task) : Option AppState :=
  let m1 := addTaskMap1 s.tasks parentId parent title newId now
  (bubbleFalse (m1.length + 1) m1 parent.parentId).map
    (fun m2 => { s with tasks := m2 })

/-- `addTask(parentId, title)` (lines 62–106).  The generated `uuidv4()` id and
`Date.now()` timestamp are passed in as parameters `newId` and `now`.  A
missing parent returns the previous state unchanged (the source's
`if (!parent) return prev`).  Note there is no title validation. -/
def addTask (s : AppState) (parentId title newId : String) (now : Nat) :
    Option AppState :=
  match findTask s.tasks parentId with
  | none => some s
  | some parent => addTaskAux s parentId title newId now parent

/-- `updateDescendants` inside `toggleTask` (lines 124–129): set the task and,
recursively, every task in its `children` lists to `status`.  A missing id is
skipped (`if (!t) return`).  The map is threaded through the sibling
recursions exactly as the mutable `tasksCopy` is. -/
def updateDescendants : Nat → TaskMap → String → Bool → Option TaskMap
  | 0, _, _, _ => none
  | fuel+1, m, id, status =>
      match findTask m id with
      | none => some m
      | some t =>
          t.children.foldlM (fun acc c => updateDescendants fuel acc c status)
            (setTask m id { t with completed := status })

/-- The upward `while` loop of `toggleTask` (lines 137–158).  A missing id
breaks (`if (!parent) break`).  When the toggled value is `true`: if all
children are complete the parent is set complete and the walk continues;
otherwise a completed parent is set incomplete and the walk continues, and an
already-incomplete parent stops it.  When the toggled value is `false`: an
already-incomplete parent stops the walk, otherwise the parent is set
incomplete and the walk continues. -/
def toggleUp : Nat → Bool → TaskMap → Option String → Option TaskMap
  | _, _, m, none => some m
  | 0, _, _, some _ => none
  | fuel+1, newCompleted, m, some currId =>
      match findTask m currId with
      | none => some m
      | some parent =>
          if newCompleted then
            match allComplete m parent.children with
            | none => none
            | some true =>
                toggleUp fuel newCompleted
                  (setTask m currId { parent with completed := true }) parent.parentId
            | some false =>
                if parent.completed then
                  toggleUp fuel newCompleted
                    (setTask m currId { parent with completed := false }) parent.parentId
                else some m
          else
            if parent.completed then
              toggleUp fuel newCompleted
                (setTask m currId { parent with completed := false }) parent.parentId
            else some m

/-- The found-task branch of `toggleTask`: negate the flag, force it on the
whole subtree, and propagate upward from the task's parent. -/
def toggleTaskAux (s : AppState) (taskId : String) (task : Task) :
    Option AppState :=
  let newCompleted := !task.completed
  (updateDescendants (s.tasks.length + 1) s.tasks taskId newCompleted).bind
    (fun m1 => (toggleUp (m1.length + 1) newCompleted m1 task.parentId).map
      (fun m2 => { s with tasks := m2 }))

/-- `toggleTask(taskId)` (lines 108–162): missing id returns the previous
state; otherwise the completion flag is negated, forced onto the whole
subtree, and then propagated upward from the task's parent. -/
def toggleTask (s : AppState) (taskId : String) : Option AppState :=
  match findTask s.tasks taskId with
  | none => some s
  | some task => toggleTaskAux s taskId task

/-- The `collect` helper of `deleteTask` (lines 170–176): gather `taskId` and
every id reachable through `children` lists into the `idsToDelete` set
(`Set.add` keeps first-insertion order and ignores repeats, but the traversal
still recurses into the children of an already-collected id, as the source
does).  A missing id contributes only itself. -/
def collect : Nat → TaskMap → String → List String → Option (List String)
  | 0, _, _, _ => none
  | fuel+1, m, id, acc =>
      let acc1 := if id ∈ acc then acc else acc ++ [id]
      match findTask m id with
      | none => some acc1
      | some t => t.children.foldlM (fun a c => collect fuel m c a) acc1

/-- The promotion `while` loop of `deleteTask` (lines 192–201): while the
current task's children are all complete, mark it complete and move to its
parent; otherwise break.  Note there is no missing-id guard on `p` (reading
`p.children` of `undefined` throws → `none`), and the loop never sets a flag
to `false`. -/
def promoteUp : Nat → TaskMap → Option String → Option TaskMap
  | _, m, none => some m
  | 0, _, some _ => none
  | fuel+1, m, some currId =>
      match findTask m currId with
      | none => none
      | some p =>
          match allComplete m p.children with
          | none => none
          | some true =>
              promoteUp fuel (setTask m currId { p with completed := true }) p.parentId
          | some false => some m

/-- Lines 178–204 of `deleteTask`: remove `taskId` from its parent's
`children` list and, when the remaining children are non-empty and all
complete, run the upward promotion loop from the parent.  A root (or an
unfindable parent) leaves the store untouched at this step. -/
def deleteParentStep (m : TaskMap) (taskId : String) (taskToDelete : Task) :
    Option TaskMap :=
  match taskToDelete.parentId with
  | none => some m
  | some pid =>
      match findTask m pid with
      | none => some m
      | some parent =>
          let m1 := setTask m parent.id
            { parent with
              children := parent.children.filter (fun cid => cid != taskId) }
          let newChildren := parent.children.filter (fun cid => cid != taskId)
          if newChildren.length > 0 then
            match allComplete m1 newChildren with
            | none => none
            | some true => promoteUp (m1.length + 1) m1 (some parent.id)
            | some false => some m1
          else some m1

/-- `deleteTask(taskId)` (lines 164–217): collect the subtree ids; remove
`taskId` from its parent's `children` and, if the remaining children are
non-empty and all complete, run the upward promotion loop from the parent;
finally delete all collected ids and filter `taskId` out of `rootTaskIds`.
On a missing `taskId` the source reads `taskToDelete.parentId` of `undefined`
and throws (`none`). -/
def deleteTask (s : AppState) (taskId : String) : Option AppState :=
  (collect (s.tasks.length + 1) s.tasks taskId []).bind (fun idsToDelete =>
    match findTask s.tasks taskId with
    | none => none
    | some taskToDelete =>
        (deleteParentStep s.tasks taskId taskToDelete).map (fun m2 =>
          { tasks := idsToDelete.foldl (fun mm i => eraseTask mm i) m2,
            rootTaskIds := s.rootTaskIds.filter (fun i => i != taskId) }))

/-- The update argument of `updateTask`.  Every call site in the repository
(`TaskItem.handleSave`, the column-header save handlers) passes an object with
only `title` and/or `description`, matching the spec's `editFields` surface,
so the `Partial<Task>` argument is modelled with exactly those two optional
fields. -/
structure TaskUpdate where
  title : Option String
  description : Option String
deriving DecidableEq, Repr

/-- The object spread `{ ...prev.tasks[id], ...updates }` on an existing
task: fields present in `updates` override the task's. -/
def applyUpdate (t : Task) (u : TaskUpdate) : Task :=
  { t with
    title := u.title.getD t.title,
    description := u.description.getD t.description }

/-- `updateTask(id, updates)` (lines 219–227) in the typed model.  There is no
existence check in the source: on a missing id the spread
`{ ...undefined, ...updates }` succeeds and inserts an object that lacks the
required `Task` fields, which is not representable as a `Task`; that case is
`none` here and is modelled exactly, at the JS-object level, by `updateTaskJ`
below. -/
def updateTask (s : AppState) (id : String) (u : TaskUpdate) : Option AppState :=
  match findTask s.tasks id with
  | some t => some { s with tasks := setTask s.tasks id (applyUpdate t u) }
  | none => none

/-! ### JS-object level model of `updateTask`

A JavaScript object of `Task` shape where any field may be absent
(`undefined`).  `parentId` distinguishes absent (`none`) from present-`null`
(`some none`). -/

/-- A JS object with the fields of `Task`, each possibly absent. -/
structure JSObj where
  id : Option String
  title : Option String
  description : Option String
  completed : Option Bool
  children : Option (List String)
  parentId : Option (Option String)
  createdAt : Option Nat
deriving DecidableEq, Repr

/-- The object `{}`. -/
def emptyObj : JSObj := ⟨none, none, none, none, none, none, none⟩

/-- A fully-populated task object (what a well-formed store contains). -/
def Task.toObj (t : Task) : JSObj :=
  ⟨some t.id, some t.title, some t.description, some t.completed,
   some t.children, some t.parentId, some t.createdAt⟩

/-- Whether a JS object has every required `Task` field present. -/
def isFullRecord (o : JSObj) : Bool :=
  o.id.isSome && o.title.isSome && o.description.isSome && o.completed.isSome
    && o.children.isSome && o.parentId.isSome && o.createdAt.isSome

/-- JS-object store lookup. -/
def findObj : List (String × JSObj) → String → Option JSObj
  | [], _ => none
  | (k', t) :: rest, k => if k = k' then some t else findObj rest k

/-- JS-object store assignment. -/
def setObj : List (String × JSObj) → String → JSObj → List (String × JSObj)
  | [], k, v => [(k, v)]
  | (k', t) :: rest, k, v =>
      if k = k' then (k, v) :: rest else (k', t) :: setObj rest k v

/-- The spread `{ ...base, ...updates }` where `base` may be `undefined`
(spreading `undefined` contributes nothing). -/
def spreadUpdate (base : Option JSObj) (u : TaskUpdate) : JSObj :=
  let b := base.getD emptyObj
  { b with
    title := match u.title with | some s => some s | none => b.title,
    description := match u.description with | some s => some s | none => b.description }

/-- `updateTask(id, updates)` (lines 219–227) at the JS-object level:
`tasks[id] := { ...tasks[id], ...updates }`, with no existence check. -/
def updateTaskJ (m : List (String × JSObj)) (id : String) (u : TaskUpdate) :
    List (String × JSObj) :=
  setObj m id (spreadUpdate (findObj m id) u)

/-! ## The five invariants of §3 -/

/-- AND-reduction of the children's completion flags: `true` iff every id in
`cs` is present in the store and completed. -/
def childrenAllComplete (m : TaskMap) (cs : List String) : Bool :=
  cs.all (fun c => match findTask m c with | some t => t.completed | none => false)

/-- The `parentId` field of the task stored at `c`, if any. -/
def parentIdOf (m : TaskMap) (c : String) : Option (Option String) :=
  (findTask m c).map Task.parentId

/-- The task's parent, when named, exists in the store. -/
def parentOk (m : TaskMap) (t : Task) : Bool :=
  match t.parentId with
  | none => true
  | some q => (findTask m q).isSome

/-- Whether `k` is listed among the children of the task `o` points to
(vacuously true for a root). -/
def childMem (m : TaskMap) (o : Option String) (k : String) : Bool :=
  match o with
  | none => true
  | some q =>
      match findTask m q with
      | none => false
      | some tq => tq.children.contains k

/-- Store well-formedness implicit in "mapping from id to Task (keys
unique)": keys are unique and each task's `id` field equals its key. -/
def WFKeys (m : TaskMap) : Prop :=
  (keys m).Nodup ∧ ∀ p ∈ m, p.2.id = p.1

/-- §3 invariant 1, referential integrity: every id in a `children` list or a
non-`none` `parentId` exists in the store. -/
def RefIntegrity (m : TaskMap) : Prop :=
  ∀ p ∈ m, (∀ c ∈ p.2.children, (findTask m c).isSome) ∧ parentOk m p.2

/-- §3 invariant 2, back-reference consistency: each listed child points back
to its parent, each named parent lists the task among its children, and
children lists have no duplicates. -/
def BackRef (m : TaskMap) : Prop :=
  ∀ p ∈ m,
    (∀ c ∈ p.2.children, parentIdOf m c = some (some p.1))
      ∧ childMem m p.2.parentId p.1 ∧ p.2.children.Nodup

/-- The chain of ids reached by following `parentId` pointers from `o`, if it
reaches a root within `fuel` steps (and without dangling pointers). -/
def chainList : Nat → TaskMap → Option String → Option (List String)
  | _, _, none => some []
  | 0, _, some _ => none
  | fuel+1, m, some k =>
      match findTask m k with
      | none => none
      | some t => (chainList fuel m t.parentId).map (fun l => k :: l)

/-- §3 invariant 3, acyclicity: from every task, following `parentId` reaches
a root in finitely many steps (`length + 1` fuel is enough for any acyclic
store, since an acyclic chain never repeats a key). -/
def Acyclic (m : TaskMap) : Prop :=
  ∀ p ∈ m, (chainList (m.length + 1) m (some p.1)).isSome

/-- §3 invariant 4, the completion invariant: a task with a non-empty
`children` list is completed exactly when all its children are. -/
def CompletionInv (m : TaskMap) : Prop :=
  ∀ p ∈ m, p.2.children ≠ [] → p.2.completed = childrenAllComplete m p.2.children

/-- §3 invariant 5, root set consistency: `rootTaskIds` lists exactly the ids
whose `parentId` is `none`, each once. -/
def RootSet (s : AppState) : Prop :=
  s.rootTaskIds.Nodup
    ∧ (∀ r ∈ s.rootTaskIds, parentIdOf s.tasks r = some none)
    ∧ (∀ p ∈ s.tasks, p.2.parentId = none → p.1 ∈ s.rootTaskIds)

/-- All five §3 invariants (plus key well-formedness of the store). -/
def Inv (s : AppState) : Prop :=
  WFKeys s.tasks ∧ RefIntegrity s.tasks ∧ BackRef s.tasks ∧ Acyclic s.tasks
    ∧ CompletionInv s.tasks ∧ RootSet s

instance (m : TaskMap) : Decidable (WFKeys m) := by
  unfold WFKeys; exact inferInstance

instance (m : TaskMap) : Decidable (RefIntegrity m) := by
  unfold RefIntegrity; exact inferInstance

instance (m : TaskMap) : Decidable (BackRef m) := by
  unfold BackRef; exact inferInstance

instance (m : TaskMap) : Decidable (Acyclic m) := by
  unfold Acyclic; exact inferInstance

instance (m : TaskMap) : Decidable (CompletionInv m) := by
  unfold CompletionInv; exact inferInstance

instance (s : AppState) : Decidable (RootSet s) := by
  unfold RootSet; exact inferInstance

instance (s : AppState) : Decidable (Inv s) := by
  unfold Inv; exact inferInstance

/-- Membership in the subtree of `root`: `root` itself and everything
reachable downward through `children` lists. -/
inductive IsDesc (m : TaskMap) (root : String) : String → Prop
  | refl : IsDesc m root root
  | child {p : String} {t : Task} {c : String} :
      IsDesc m root p → findTask m p = some t → c ∈ t.children → IsDesc m root c

/-! ### UI-layer title guards (for reference against the engine) -/

/-- `handleSave` in `TaskItem` (`src/unnamed/part_000` lines 53–65): trim the
edited title; only a non-empty trimmed title triggers an engine update (with
trimmed fields), otherwise the edit is reverted and no engine call happens. -/
def handleSave (editTitle editDescription : String) : Option TaskUpdate :=
  if editTitle.trim ≠ "" then
    some ⟨some editTitle.trim, some editDescription.trim⟩
  else none

/-- `handleAddTaskSubmit` in `TaskColumn` (`src/unnamed/part_001` lines
62–66): an empty trimmed title returns without calling the engine; otherwise
`addTask` is called with the trimmed title. -/
def handleAddTaskSubmit (newTaskTitle : String) : Option String :=
  if newTaskTitle.trim = "" then none else some newTaskTitle.trim

/-! ## Lemmas about the JS-object store -/

@[simp] theorem findObj_setObj_self (m : List (String × JSObj)) (k : String) (v : JSObj) :
    findObj (setObj m k v) k = some v := by
  induction m with
  | nil => simp [setObj, findObj]
  | cons p rest ih =>
      obtain ⟨k', t⟩ := p
      by_cases h : k = k' <;> simp [setObj, findObj, h, ih]

theorem setObj_of_not_found (m : List (String × JSObj)) (k : String) (v : JSObj)
    (h : findObj m k = none) : setObj m k v = m ++ [(k, v)] := by
  induction m with
  | nil => simp [setObj]
  | cons p rest ih =>
      obtain ⟨k', t⟩ := p
      by_cases hk : k = k'
      · subst hk; simp [findObj] at h
      · simp [findObj, hk] at h
        simp [setObj, hk, ih h]

/-! ## Basic facts about `bubbleFalse` and `updateTask` used by several
claims -/

/-- The upward pass of `addTask` never touches a task that is already
incomplete: it only rewrites records whose `completed` flag is `true`. -/
theorem bubbleFalse_preserves_incomplete
    (fuel : Nat) (m : TaskMap) (o : Option String) (m' : TaskMap)
    (h : bubbleFalse fuel m o = some m') (k : String) (t : Task)
    (hk : findTask m k = some t) (hc : t.completed = false) :
    findTask m' k = some t := by
  induction fuel generalizing m o with
  | zero =>
      cases o with
      | none => simp [bubbleFalse] at h; simpa [← h] using hk
      | some c => simp [bubbleFalse] at h
  | succ fuel ih =>
      cases o with
      | none => simp [bubbleFalse] at h; simpa [← h] using hk
      | some c =>
          simp only [bubbleFalse] at h
          cases hf : findTask m c with
          | none => rw [hf] at h; simp at h
          | some tc =>
              simp only [hf] at h
              by_cases hcc : tc.completed
              · rw [if_pos hcc] at h
                refine ih _ _ h ?_
                rcases eq_or_ne k c with rfl | hne
                · rw [hf] at hk
                  cases hk
                  rw [hcc] at hc; cases hc
                · rw [findTask_setTask_ne _ _ _ _ hne]; exact hk
              · rw [if_neg hcc] at h
                cases h; exact hk

theorem updateTask_of_found (s : AppState) (id : String) (t : Task)
    (u : TaskUpdate) (h : findTask s.tasks id = some t) :
    updateTask s id u
      = some { s with tasks := setTask s.tasks id (applyUpdate t u) } := by
  simp [updateTask, h]

/-! ## Claim C10 — a missing-id `updateTask` silently inserts a partial
record -/

/-- The record `{ ...undefined, ...updates }`: only the supplied update
fields are present. -/
def bareUpdateObj (u : TaskUpdate) : JSObj :=
  ⟨none, u.title, u.description, none, none, none, none⟩

theorem spreadUpdate_none (u : TaskUpdate) :
    spreadUpdate none u = bareUpdateObj u := by
  cases u with
  | mk titleF descF => cases titleF <;> cases descF <;> rfl

theorem updateTaskJ_of_missing (m : List (String × JSObj)) (id : String)
    (u : TaskUpdate) (h : findObj m id = none) :
    updateTaskJ m id u = m ++ [(id, bareUpdateObj u)] := by
  rw [updateTaskJ, h, spreadUpdate_none, setObj_of_not_found m id (bareUpdateObj u) h]

/-- C10: for any id absent from the store, `updateTask` does not leave the
state unchanged and does not fail: it appends a fresh entry under that id
whose present fields are exactly the supplied update fields, every other
`Task` field being absent — a malformed (non-full) task record. -/
theorem C10_missing_id_edit_inserts_partial_record
    (m : List (String × JSObj)) (id : String) (u : TaskUpdate)
    (h : findObj m id = none) :
    updateTaskJ m id u = m ++ [(id, bareUpdateObj u)]
      ∧ updateTaskJ m id u ≠ m
      ∧ findObj (updateTaskJ m id u) id = some (bareUpdateObj u)
      ∧ isFullRecord (bareUpdateObj u) = false := by
  have he := updateTaskJ_of_missing m id u h
  refine ⟨he, ?_, ?_, rfl⟩
  · rw [he]
    intro hcontra
    have : (m ++ [(id, bareUpdateObj u)]).length = m.length := by rw [hcontra]
    simp at this
  · rw [updateTaskJ, h, spreadUpdate_none]; exact findObj_setObj_self ..

/-- Witness for C10 at a concrete store. -/
theorem C10_missing_id_edit_inserts_partial_record_witness :
    findObj [("r", Task.toObj ⟨"r", "Root", "", false, [], none, 0⟩)] "x" = none
      ∧ updateTaskJ [("r", Task.toObj ⟨"r", "Root", "", false, [], none, 0⟩)] "x"
            ⟨some "T", none⟩
          = [("r", Task.toObj ⟨"r", "Root", "", false, [], none, 0⟩)]
              ++ [("x", bareUpdateObj ⟨some "T", none⟩)]
        ∧ updateTaskJ [("r", Task.toObj ⟨"r", "Root", "", false, [], none, 0⟩)] "x"
              ⟨some "T", none⟩
            ≠ [("r", Task.toObj ⟨"r", "Root", "", false, [], none, 0⟩)]
        ∧ findObj (updateTaskJ [("r", Task.toObj ⟨"r", "Root", "", false, [], none, 0⟩)]
              "x" ⟨some "T", none⟩) "x"
            = some (bareUpdateObj ⟨some "T", none⟩)
        ∧ isFullRecord (bareUpdateObj ⟨some "T", none⟩) = false :=
  ⟨by decide,
   C10_missing_id_edit_inserts_partial_record
     [("r", Task.toObj ⟨"r", "Root", "", false, [], none, 0⟩)] "x"
     ⟨some "T", none⟩ (by decide)⟩

/-! ## Claim C9 — `updateTask` on an existing id is a pure field update -/

/-- C9: editing an existing task changes at most that task's `title` and
`description`: its `completed`, `children`, `parentId` and `createdAt` are
untouched, every other task's record is untouched, and `rootTaskIds` is
untouched — no completion recomputation runs. -/
theorem C9_updateTask_frame (s : AppState) (id : String) (t : Task)
    (u : TaskUpdate) (h : findTask s.tasks id = some t) :
    ∃ s', updateTask s id u = some s'
      ∧ s'.rootTaskIds = s.rootTaskIds
      ∧ findTask s'.tasks id = some (applyUpdate t u)
      ∧ (applyUpdate t u).completed = t.completed
      ∧ (applyUpdate t u).children = t.children
      ∧ (applyUpdate t u).parentId = t.parentId
      ∧ (applyUpdate t u).createdAt = t.createdAt
      ∧ ∀ k, k ≠ id → findTask s'.tasks k = findTask s.tasks k := by
  refine ⟨{ s with tasks := setTask s.tasks id (applyUpdate t u) },
    updateTask_of_found s id t u h, rfl, ?_, rfl, rfl, rfl, rfl, ?_⟩
  · exact findTask_setTask_self ..
  · intro k hk
    exact findTask_setTask_ne _ _ _ _ hk

/-- Witness for C9 at a concrete store. -/
theorem C9_updateTask_frame_witness :
    findTask [("r", (⟨"r", "Root", "", false, [], none, 0⟩ : Task))] "r"
        = some ⟨"r", "Root", "", false, [], none, 0⟩
      ∧ ∃ s', updateTask ⟨[("r", ⟨"r", "Root", "", false, [], none, 0⟩)], ["r"]⟩ "r"
            ⟨some "New", some "d"⟩ = some s'
          ∧ s'.rootTaskIds = ["r"]
          ∧ findTask s'.tasks "r"
              = some (applyUpdate ⟨"r", "Root", "", false, [], none, 0⟩
                  ⟨some "New", some "d"⟩)
          ∧ (applyUpdate (⟨"r", "Root", "", false, [], none, 0⟩ : Task)
                ⟨some "New", some "d"⟩).completed = false
          ∧ (applyUpdate (⟨"r", "Root", "", false, [], none, 0⟩ : Task)
                ⟨some "New", some "d"⟩).children = []
          ∧ (applyUpdate (⟨"r", "Root", "", false, [], none, 0⟩ : Task)
                ⟨some "New", some "d"⟩).parentId = none
          ∧ (applyUpdate (⟨"r", "Root", "", false, [], none, 0⟩ : Task)
                ⟨some "New", some "d"⟩).createdAt = 0
          ∧ ∀ k, k ≠ "r"
              → findTask s'.tasks k
                  = findTask [("r", ⟨"r", "Root", "", false, [], none, 0⟩)] k :=
  ⟨by decide,
   C9_updateTask_frame ⟨[("r", ⟨"r", "Root", "", false, [], none, 0⟩)], ["r"]⟩ "r"
     ⟨"r", "Root", "", false, [], none, 0⟩ ⟨some "New", some "d"⟩ (by decide)⟩

/-! ## Claim C7 — behaviour on a missing id (corrected)

No operation returns a `NotFound` failure value: the source has no error
channel at all.  `addTask` and `toggleTask` silently return the previous
state; `deleteTask` reads `taskToDelete.parentId` of `undefined` and throws;
`updateTask` performs the spread anyway and inserts a partial record. -/

/-- Counterexample to C7 as stated: on the concrete one-task store, for the
missing id `"x"`, `editFields` does not fail and leave the tree unchanged —
it mutates the store (inserting a record under `"x"`); `delete` throws
instead of returning a failure value; and `create`/`toggleCompletion` return
the unchanged state as an ordinary success, not a `NotFound` failure. -/
theorem C7_counterexample :
    updateTaskJ [("r", Task.toObj ⟨"r", "Root", "", false, [], none, 0⟩)] "x"
          ⟨some "T", none⟩
        ≠ [("r", Task.toObj ⟨"r", "Root", "", false, [], none, 0⟩)]
      ∧ deleteTask ⟨[("r", ⟨"r", "Root", "", false, [], none, 0⟩)], ["r"]⟩ "x" = none
      ∧ addTask ⟨[("r", ⟨"r", "Root", "", false, [], none, 0⟩)], ["r"]⟩ "x" "T" "n" 9
          = some ⟨[("r", ⟨"r", "Root", "", false, [], none, 0⟩)], ["r"]⟩
      ∧ toggleTask ⟨[("r", ⟨"r", "Root", "", false, [], none, 0⟩)], ["r"]⟩ "x"
          = some ⟨[("r", ⟨"r", "Root", "", false, [], none, 0⟩)], ["r"]⟩ := by
  refine ⟨?_, by decide, by decide, by decide⟩
  decide

/-- C7 as amended: when the given id does not exist, `create` and
`toggleCompletion` return the state unchanged with no failure value,
`delete` throws (reads a field of `undefined`), and `editFields` applies the
update anyway, appending a partial record under the missing id; no operation
returns a `NotFound` failure. -/
theorem C7_missing_id_behaviour (s : AppState) (id title newId : String)
    (now : Nat) (om : List (String × JSObj)) (u : TaskUpdate)
    (h : findTask s.tasks id = none) (ho : findObj om id = none) :
    addTask s id title newId now = some s
      ∧ toggleTask s id = some s
      ∧ deleteTask s id = none
      ∧ updateTaskJ om id u = om ++ [(id, bareUpdateObj u)] := by
  refine ⟨by simp [addTask, h], by simp [toggleTask, h], ?_,
    updateTaskJ_of_missing om id u ho⟩
  simp [deleteTask, collect, h]

/-- Witness for the amended C7 at a concrete store. -/
theorem C7_missing_id_behaviour_witness :
    findTask [("r", (⟨"r", "Root", "", false, [], none, 0⟩ : Task))] "x" = none
      ∧ findObj [("r", Task.toObj ⟨"r", "Root", "", false, [], none, 0⟩)] "x" = none
      ∧ addTask ⟨[("r", ⟨"r", "Root", "", false, [], none, 0⟩)], ["r"]⟩ "x" "T" "n" 9
            = some ⟨[("r", ⟨"r", "Root", "", false, [], none, 0⟩)], ["r"]⟩
        ∧ toggleTask ⟨[("r", ⟨"r", "Root", "", false, [], none, 0⟩)], ["r"]⟩ "x"
            = some ⟨[("r", ⟨"r", "Root", "", false, [], none, 0⟩)], ["r"]⟩
        ∧ deleteTask ⟨[("r", ⟨"r", "Root", "", false, [], none, 0⟩)], ["r"]⟩ "x" = none
        ∧ updateTaskJ [("r", Task.toObj ⟨"r", "Root", "", false, [], none, 0⟩)] "x"
              ⟨some "T", none⟩
            = [("r", Task.toObj ⟨"r", "Root", "", false, [], none, 0⟩)]
                ++ [("x", bareUpdateObj ⟨some "T", none⟩)] :=
  ⟨by decide, by decide,
   C7_missing_id_behaviour ⟨[("r", ⟨"r", "Root", "", false, [], none, 0⟩)], ["r"]⟩
     "x" "T" "n" 9 [("r", Task.toObj ⟨"r", "Root", "", false, [], none, 0⟩)]
     ⟨some "T", none⟩ (by decide) (by decide)⟩

/-! ## Claim C8 — empty-title rejection (corrected)

The engine performs no title validation at all; trimming and the refusal of
empty titles happen exclusively in the UI layer (`handleSave`,
`handleAddTaskSubmit`). -/

/-- Equation for `addTask` on an existing parent. -/
theorem addTask_eq_of_found (s : AppState) (parentId title newId : String)
    (now : Nat) (parent : Task) (hp : findTask s.tasks parentId = some parent) :
    addTask s parentId title newId now
      = addTaskAux s parentId title newId now parent := by
  simp [addTask, hp]

/-- Destructuring a successful `addTask`: a successful bubble pass on the
structurally updated store produced the new task map. -/
theorem addTask_some_elim (s : AppState) (parentId title newId : String)
    (now : Nat) (parent : Task) (s' : AppState)
    (hp : findTask s.tasks parentId = some parent)
    (h : addTask s parentId title newId now = some s') :
    ∃ m2, bubbleFalse ((addTaskMap1 s.tasks parentId parent title newId now).length + 1)
          (addTaskMap1 s.tasks parentId parent title newId now) parent.parentId
        = some m2
      ∧ s' = { s with tasks := m2 } := by
  rw [addTask_eq_of_found s parentId title newId now parent hp, addTaskAux] at h
  rcases Option.map_eq_some'.mp h with ⟨m2, hb, hs'⟩
  exact ⟨m2, hb, hs'.symm⟩

/-- The new leaf is present, with `completed = false`, in the structurally
updated store of `addTask`, provided `newId` is fresh. -/
theorem findTask_addTaskMap1_newId (m : TaskMap) (parentId : String)
    (parent : Task) (title newId : String) (now : Nat)
    (hp : findTask m parentId = some parent)
    (hfresh : findTask m newId = none) :
    findTask (addTaskMap1 m parentId parent title newId now) newId
      = some (newLeaf parentId title newId now) := by
  have hne : parentId ≠ newId := by
    intro e; rw [e, hfresh] at hp; cases hp
  rw [addTaskMap1, findTask_setTask_ne _ _ _ _ (Ne.symm hne)]
  exact findTask_setTask_self ..

/-- Given that `addTask` succeeded, the new leaf is stored under `newId`
with exactly the supplied (unvalidated) title. -/
theorem addTask_inserts_new_leaf (s : AppState) (parentId title newId : String)
    (now : Nat) (parent : Task) (s' : AppState)
    (hp : findTask s.tasks parentId = some parent)
    (hfresh : findTask s.tasks newId = none)
    (h : addTask s parentId title newId now = some s') :
    findTask s'.tasks newId
      = some ⟨newId, title, "", false, [], some parentId, now⟩ := by
  rcases addTask_some_elim s parentId title newId now parent s' hp h with ⟨m2, hb, hs'⟩
  have hm1 := findTask_addTaskMap1_newId s.tasks parentId parent title newId now hp hfresh
  have := bubbleFalse_preserves_incomplete _ _ _ _ hb newId
    (newLeaf parentId title newId now) hm1 rfl
  rw [hs']
  exact this

/-- Counterexample to C8 as stated: on the concrete one-root store, `create`
with the empty title does not fail and leave the tree unchanged — it inserts
a task whose `title` is `""` — and `editFields` with an empty title stores
the empty title rather than rejecting it. -/
theorem C8_counterexample :
    addTask ⟨[("r", ⟨"r", "Root", "", false, [], none, 0⟩)], ["r"]⟩ "r" "" "c" 9
        ≠ some ⟨[("r", ⟨"r", "Root", "", false, [], none, 0⟩)], ["r"]⟩
      ∧ (addTask ⟨[("r", ⟨"r", "Root", "", false, [], none, 0⟩)], ["r"]⟩ "r" "" "c" 9).bind
            (fun s => findTask s.tasks "c")
          = some ⟨"c", "", "", false, [], some "r", 9⟩
      ∧ (updateTask ⟨[("r", ⟨"r", "Root", "", false, [], none, 0⟩)], ["r"]⟩ "r"
            ⟨some "", none⟩).bind (fun s => (findTask s.tasks "r").map Task.title)
          = some "" := by
  refine ⟨by decide, by decide, by decide⟩

/-- C8 as amended: the engine itself performs no title validation — `create`
inserts the new leaf with whatever title it is given (empty included) and
`editFields` stores whatever title it is given — and empty titles are
rejected only by the UI layer, whose handlers refuse to call the engine
exactly when the trimmed title is empty. -/
theorem C8_engine_accepts_any_title_ui_guards (s : AppState)
    (parentId title newId : String) (now : Nat) (parent : Task) (s' : AppState)
    (eid anyTitle : String) (et : Task) (d : Option String)
    (hp : findTask s.tasks parentId = some parent)
    (hfresh : findTask s.tasks newId = none)
    (h : addTask s parentId title newId now = some s')
    (he : findTask s.tasks eid = some et) :
    findTask s'.tasks newId = some ⟨newId, title, "", false, [], some parentId, now⟩
      ∧ (∃ s'', updateTask s eid ⟨some anyTitle, d⟩ = some s''
          ∧ (findTask s''.tasks eid).map Task.title = some anyTitle)
      ∧ (∀ t dd, handleSave t dd = none ↔ t.trim = "")
      ∧ (∀ t, handleAddTaskSubmit t = none ↔ t.trim = "") := by
  refine ⟨addTask_inserts_new_leaf s parentId title newId now parent s' hp hfresh h,
    ⟨{ s with tasks := setTask s.tasks eid (applyUpdate et ⟨some anyTitle, d⟩) },
      updateTask_of_found s eid et ⟨some anyTitle, d⟩ he, ?_⟩, ?_, ?_⟩
  · rw [findTask_setTask_self]
    rfl
  · intro t dd
    by_cases ht : t.trim = "" <;> simp [handleSave, ht]
  · intro t
    by_cases ht : t.trim = "" <;> simp [handleAddTaskSubmit, ht]

/-- Witness for the amended C8 at a concrete store. -/
theorem C8_engine_accepts_any_title_ui_guards_witness :
    findTask [("r", (⟨"r", "Root", "", false, [], none, 0⟩ : Task))] "r"
        = some ⟨"r", "Root", "", false, [], none, 0⟩
      ∧ findTask [("r", (⟨"r", "Root", "", false, [], none, 0⟩ : Task))] "c" = none
      ∧ addTask ⟨[("r", ⟨"r", "Root", "", false, [], none, 0⟩)], ["r"]⟩ "r" "" "c" 9
          = some ⟨[("r", ⟨"r", "Root", "", false, ["c"], none, 0⟩),
                   ("c", ⟨"c", "", "", false, [], some "r", 9⟩)], ["r"]⟩
      ∧ (findTask (⟨[("r", ⟨"r", "Root", "", false, ["c"], none, 0⟩),
              ("c", ⟨"c", "", "", false, [], some "r", 9⟩)], ["r"]⟩ : AppState).tasks "c"
            = some ⟨"c", "", "", false, [], some "r", 9⟩
          ∧ (∃ s'', updateTask ⟨[("r", ⟨"r", "Root", "", false, [], none, 0⟩)], ["r"]⟩
                "r" ⟨some "", none⟩ = some s''
              ∧ (findTask s''.tasks "r").map Task.title = some "")
          ∧ (∀ t dd, handleSave t dd = none ↔ t.trim = "")
          ∧ (∀ t, handleAddTaskSubmit t = none ↔ t.trim = "")) := by
  refine ⟨by decide, by decide, by decide, ?_⟩
  exact C8_engine_accepts_any_title_ui_guards
    ⟨[("r", ⟨"r", "Root", "", false, [], none, 0⟩)], ["r"]⟩ "r" "" "c" 9
    ⟨"r", "Root", "", false, [], none, 0⟩
    ⟨[("r", ⟨"r", "Root", "", false, ["c"], none, 0⟩),
      ("c", ⟨"c", "", "", false, [], some "r", 9⟩)], ["r"]⟩
    "r" "" ⟨"r", "Root", "", false, [], none, 0⟩ none
    (by decide) (by decide) (by decide) (by decide)

/-! ## Structure-preservation: the relation "equal up to `completed` flags"

All four upward/downward passes only rewrite `completed` flags; every
invariant except the completion invariant depends only on the remaining
structure, so it transfers across such passes. -/

/-- Forget the `completed` flag. -/
def stripC (t : Task) : Task := { t with completed := false }

/-- Forget every `completed` flag in the store. -/
def strip (m : TaskMap) : TaskMap := m.map (fun p => (p.1, stripC p.2))

/-- Two stores with the same tasks up to `completed` flags. -/
def sameStruct (m m' : TaskMap) : Prop := strip m = strip m'

theorem sameStruct_refl (m : TaskMap) : sameStruct m m := rfl

theorem sameStruct_symm {m m' : TaskMap} (h : sameStruct m m') : sameStruct m' m :=
  h.symm

theorem sameStruct_trans {a b c : TaskMap} (h1 : sameStruct a b)
    (h2 : sameStruct b c) : sameStruct a c := h1.trans h2

theorem stripC_children {a b : Task} (h : stripC a = stripC b) :
    a.children = b.children := by
  have := congrArg Task.children h
  simpa [stripC] using this

theorem stripC_parentId {a b : Task} (h : stripC a = stripC b) :
    a.parentId = b.parentId := by
  have := congrArg Task.parentId h
  simpa [stripC] using this

theorem stripC_id {a b : Task} (h : stripC a = stripC b) : a.id = b.id := by
  have := congrArg Task.id h
  simpa [stripC] using this

@[simp] theorem childMem_none (m : TaskMap) (k : String) :
    childMem m none k = true := rfl

theorem childMem_some {m : TaskMap} {q : String} {tq : Task} (k : String)
    (h : findTask m q = some tq) :
    childMem m (some q) k = tq.children.contains k := by
  show (match findTask m q with
    | none => false
    | some tq => tq.children.contains k) = tq.children.contains k
  rw [h]

theorem childMem_dangling {m : TaskMap} {q : String} (k : String)
    (h : findTask m q = none) : childMem m (some q) k = false := by
  show (match findTask m q with
    | none => false
    | some tq => tq.children.contains k) = false
  rw [h]

theorem parentOk_none {m : TaskMap} {t : Task} (h : t.parentId = none) :
    parentOk m t = true := by
  unfold parentOk; rw [h]

theorem parentOk_some {m : TaskMap} {t : Task} {q : String}
    (h : t.parentId = some q) : parentOk m t = (findTask m q).isSome := by
  unfold parentOk; rw [h]

theorem findTask_strip (m : TaskMap) (k : String) :
    findTask (strip m) k = (findTask m k).map stripC := by
  induction m with
  | nil => simp [strip]
  | cons p rest ih =>
      obtain ⟨k', t⟩ := p
      by_cases h : k = k' <;> simp [strip, findTask, h] <;> simpa [strip] using ih

theorem sameStruct_find {m m' : TaskMap} (h : sameStruct m m') (k : String) :
    (findTask m' k).map stripC = (findTask m k).map stripC := by
  rw [← findTask_strip, ← findTask_strip, h]

theorem sameStruct_isSome {m m' : TaskMap} (h : sameStruct m m') (k : String) :
    (findTask m' k).isSome = (findTask m k).isSome := by
  have := sameStruct_find h k
  cases h1 : findTask m k <;> cases h2 : findTask m' k <;>
    rw [h1, h2] at this <;> simp_all

theorem sameStruct_find_some {m m' : TaskMap} (h : sameStruct m m') {k : String}
    {t : Task} (hf : findTask m k = some t) :
    ∃ t', findTask m' k = some t' ∧ stripC t' = stripC t := by
  have := sameStruct_find h k
  cases h2 : findTask m' k with
  | none => rw [h2, hf] at this; simp at this
  | some t' =>
      rw [h2, hf] at this
      simp at this
      exact ⟨t', rfl, this⟩

theorem sameStruct_parentIdOf {m m' : TaskMap} (h : sameStruct m m') (k : String) :
    parentIdOf m' k = parentIdOf m k := by
  have := sameStruct_find h k
  cases h1 : findTask m k <;> cases h2 : findTask m' k <;>
    rw [h1, h2] at this <;> simp_all [parentIdOf]
  exact stripC_parentId this

theorem keys_strip (m : TaskMap) : keys (strip m) = keys m := by
  induction m with
  | nil => rfl
  | cons p rest ih => simpa [strip, keys] using ih

theorem sameStruct_keys {m m' : TaskMap} (h : sameStruct m m') :
    keys m' = keys m := by
  rw [← keys_strip m, ← keys_strip m', h]

theorem sameStruct_length {m m' : TaskMap} (h : sameStruct m m') :
    m'.length = m.length := by
  have := sameStruct_keys h
  have h1 : (keys m').length = (keys m).length := by rw [this]
  simpa [keys] using h1

theorem sameStruct_setTask {m : TaskMap} {k : String} {t t' : Task}
    (hf : findTask m k = some t) (hs : stripC t' = stripC t) :
    sameStruct m (setTask m k t') := by
  induction m with
  | nil => simp [findTask] at hf
  | cons p rest ih =>
      obtain ⟨k0, t0⟩ := p
      by_cases h : k = k0
      · subst h
        rw [findTask_cons, if_pos rfl] at hf
        cases hf
        show strip ((k, t) :: rest) = strip (setTask ((k, t) :: rest) k t')
        rw [setTask, if_pos rfl]
        simp only [strip, List.map_cons]
        rw [hs]
      · rw [findTask_cons, if_neg h] at hf
        have := ih hf
        show strip ((k0, t0) :: rest) = strip (setTask ((k0, t0) :: rest) k t')
        rw [setTask, if_neg h]
        simp only [strip, List.map_cons]
        exact congrArg (List.cons (k0, stripC t0)) this

theorem mem_of_sameStruct {m m' : TaskMap} (h : sameStruct m m') {k : String}
    {t' : Task} (hm : (k, t') ∈ m') :
    ∃ t, (k, t) ∈ m ∧ stripC t = stripC t' := by
  have h1 : (k, stripC t') ∈ strip m' := by
    simp only [strip, List.mem_map]
    exact ⟨(k, t'), hm, rfl⟩
  rw [← h] at h1
  simp only [strip, List.mem_map] at h1
  obtain ⟨⟨k2, t2⟩, hmem, heq⟩ := h1
  obtain ⟨h2, h3⟩ := Prod.mk.injEq .. |>.mp heq
  exact ⟨t2, h2 ▸ hmem, h3⟩

theorem RefIntegrity_of_sameStruct {m m' : TaskMap} (h : sameStruct m m')
    (hr : RefIntegrity m) : RefIntegrity m' := by
  intro p hp
  obtain ⟨k, t'⟩ := p
  obtain ⟨t, hmem, hst⟩ := mem_of_sameStruct h hp
  obtain ⟨hc, hpo⟩ := hr (k, t) hmem
  constructor
  · intro c hcc
    rw [sameStruct_isSome h c]
    exact hc c ((stripC_children hst).symm ▸ hcc)
  · show parentOk m' t'
    have hpid : t'.parentId = t.parentId := (stripC_parentId hst).symm
    cases hq : t.parentId with
    | none => rw [parentOk_none (hpid.trans hq)]
    | some q =>
        rw [parentOk_some (hpid.trans hq), sameStruct_isSome h q]
        rw [parentOk_some hq] at hpo
        exact hpo

theorem childMem_of_sameStruct {m m' : TaskMap} (h : sameStruct m m')
    {o : Option String} {k : String} (hc : childMem m o k) : childMem m' o k := by
  cases o with
  | none => rfl
  | some q =>
      cases hq : findTask m q with
      | none => rw [childMem_dangling k hq] at hc; cases hc
      | some tq =>
          rw [childMem_some k hq] at hc
          obtain ⟨tq', hq', hst⟩ := sameStruct_find_some h hq
          rw [childMem_some k hq', stripC_children hst]
          exact hc

theorem BackRef_of_sameStruct {m m' : TaskMap} (h : sameStruct m m')
    (hb : BackRef m) : BackRef m' := by
  intro p hp
  obtain ⟨k, t'⟩ := p
  obtain ⟨t, hmem, hst⟩ := mem_of_sameStruct h hp
  obtain ⟨h1, h2, h3⟩ := hb (k, t) hmem
  refine ⟨?_, ?_, ?_⟩
  · intro c hcc
    rw [sameStruct_parentIdOf h c]
    exact h1 c ((stripC_children hst).symm ▸ hcc)
  · show childMem m' t'.parentId k
    rw [← stripC_parentId hst]
    exact childMem_of_sameStruct h h2
  · rw [← stripC_children hst]
    exact h3

theorem chainList_congr {m m' : TaskMap}
    (hp : ∀ k, parentIdOf m' k = parentIdOf m k) :
    ∀ (f : Nat) (o : Option String), chainList f m' o = chainList f m o := by
  intro f
  induction f with
  | zero => intro o; cases o <;> rfl
  | succ f ih =>
      intro o
      cases o with
      | none => rfl
      | some k =>
          have := hp k
          unfold parentIdOf at this
          cases h1 : findTask m k with
          | none =>
              rw [h1] at this
              simp only [Option.map_none'] at this
              cases h2 : findTask m' k with
              | none => simp [chainList, h1, h2]
              | some t' => rw [h2] at this; simp at this
          | some t =>
              rw [h1] at this
              cases h2 : findTask m' k with
              | none => rw [h2] at this; simp at this
              | some t' =>
                  rw [h2] at this
                  simp only [Option.map_some', Option.some.injEq] at this
                  simp only [chainList, h1, h2, this, ih]

theorem sameStruct_chainList {m m' : TaskMap} (h : sameStruct m m')
    (f : Nat) (o : Option String) : chainList f m' o = chainList f m o :=
  chainList_congr (sameStruct_parentIdOf h) f o

theorem mem_keys_of_mem {m : TaskMap} {p : String × Task} (hp : p ∈ m) :
    p.1 ∈ keys m := List.mem_map_of_mem Prod.fst hp

theorem exists_mem_of_mem_keys {m : TaskMap} {k : String} (hk : k ∈ keys m) :
    ∃ t, (k, t) ∈ m := by
  simp only [keys, List.mem_map] at hk
  obtain ⟨⟨k', t⟩, hm, he⟩ := hk
  cases he
  exact ⟨t, hm⟩

theorem Acyclic_iff_keys (m : TaskMap) :
    Acyclic m ↔ ∀ k ∈ keys m, (chainList (m.length + 1) m (some k)).isSome := by
  constructor
  · intro h k hk
    obtain ⟨t, hm⟩ := exists_mem_of_mem_keys hk
    exact h (k, t) hm
  · intro h p hp
    exact h p.1 (mem_keys_of_mem hp)

theorem Acyclic_of_parent_congr {m m' : TaskMap}
    (hp : ∀ k, parentIdOf m' k = parentIdOf m k) (hk : keys m' = keys m)
    (ha : Acyclic m) : Acyclic m' := by
  rw [Acyclic_iff_keys] at ha ⊢
  have hl : m'.length = m.length := by
    have : (keys m').length = (keys m).length := by rw [hk]
    simpa [keys] using this
  intro k hkk
  rw [hl, chainList_congr hp]
  exact ha k (hk ▸ hkk)

theorem Acyclic_of_sameStruct {m m' : TaskMap} (h : sameStruct m m')
    (ha : Acyclic m) : Acyclic m' :=
  Acyclic_of_parent_congr (sameStruct_parentIdOf h) (sameStruct_keys h) ha

theorem WFKeys_of_sameStruct {m m' : TaskMap} (h : sameStruct m m')
    (hw : WFKeys m) : WFKeys m' := by
  obtain ⟨hnd, hid⟩ := hw
  refine ⟨(sameStruct_keys h).symm ▸ hnd, ?_⟩
  intro p hp
  obtain ⟨k, t'⟩ := p
  obtain ⟨t, hmem, hst⟩ := mem_of_sameStruct h hp
  have := hid (k, t) hmem
  simpa using (stripC_id hst) ▸ this

theorem RootSet_of_sameStruct {s : AppState} {m' : TaskMap}
    (h : sameStruct s.tasks m') (hr : RootSet s) :
    RootSet { s with tasks := m' } := by
  obtain ⟨hnd, h1, h2⟩ := hr
  refine ⟨hnd, ?_, ?_⟩
  · intro r hrr
    show parentIdOf m' r = some none
    rw [sameStruct_parentIdOf h r]
    exact h1 r hrr
  · intro p hp hroot
    obtain ⟨k, t'⟩ := p
    obtain ⟨t, hmem, hst⟩ := mem_of_sameStruct h hp
    have hpid : t.parentId = none := by
      rw [stripC_parentId hst]; exact hroot
    exact h2 (k, t) hmem hpid

/-! ## Parent-chain machinery

Facts about `chainList`: a successful chain is unique (independent of fuel),
repeats no key, stays inside the store's keys, and therefore has length at
most the store size — which is what makes the `length + 1` fuel of the
upward loops sufficient on acyclic stores. -/

theorem findTask_some_mem {m : TaskMap} {k : String} {t : Task}
    (h : findTask m k = some t) : (k, t) ∈ m := by
  induction m with
  | nil => simp [findTask] at h
  | cons p rest ih =>
      obtain ⟨k', t'⟩ := p
      rw [findTask_cons] at h
      by_cases hk : k = k'
      · rw [if_pos hk] at h
        cases h
        subst hk
        exact List.mem_cons_self _ _
      · rw [if_neg hk] at h
        exact List.mem_cons_of_mem _ (ih h)

theorem chainList_none (f : Nat) (m : TaskMap) :
    chainList f m none = some [] := by
  cases f <;> rfl

theorem chainList_some_cons {f : Nat} {m : TaskMap} {k : String} {l : List String}
    (h : chainList (f + 1) m (some k) = some l) :
    ∃ t l1, findTask m k = some t ∧ chainList f m t.parentId = some l1
      ∧ l = k :: l1 := by
  simp only [chainList] at h
  cases hf : findTask m k with
  | none => rw [hf] at h; simp at h
  | some t =>
      simp only [hf] at h
      rcases Option.map_eq_some'.mp h with ⟨l1, hc, hl⟩
      exact ⟨t, l1, rfl, hc, hl.symm⟩

theorem chainList_cons_of {f : Nat} {m : TaskMap} {k : String} {t : Task}
    {l1 : List String} (hf : findTask m k = some t)
    (hc : chainList f m t.parentId = some l1) :
    chainList (f + 1) m (some k) = some (k :: l1) := by
  simp only [chainList, hf, hc, Option.map_some']

theorem chainList_zero_some {m : TaskMap} {k : String} {l : List String}
    (h : chainList 0 m (some k) = some l) : False := by
  simp [chainList] at h

theorem chainList_unique {m : TaskMap} :
    ∀ (f f' : Nat) (o : Option String) (l l' : List String),
      chainList f m o = some l → chainList f' m o = some l' → l = l' := by
  intro f
  induction f with
  | zero =>
      intro f' o l l' h h'
      cases o with
      | none =>
          rw [chainList_none] at h h'
          cases h; cases h'; rfl
      | some k => exact absurd h (by simp [chainList])
  | succ f ih =>
      intro f' o l l' h h'
      cases o with
      | none =>
          rw [chainList_none] at h h'
          cases h; cases h'; rfl
      | some k =>
          obtain ⟨t, l1, hf, hc, rfl⟩ := chainList_some_cons h
          cases f' with
          | zero => exact absurd h' (chainList_zero_some)
          | succ f' =>
              obtain ⟨t2, l2, hf2, hc2, rfl⟩ := chainList_some_cons h'
              rw [hf] at hf2
              cases hf2
              rw [ih f' t.parentId l1 l2 hc hc2]

theorem chainList_fuel_ge {m : TaskMap} :
    ∀ (f g : Nat) (o : Option String) (l : List String), f ≤ g →
      chainList f m o = some l → chainList g m o = some l := by
  intro f
  induction f with
  | zero =>
      intro g o l _ h
      cases o with
      | none => rw [chainList_none] at h ⊢; exact h
      | some k => exact absurd h (by simp [chainList])
  | succ f ih =>
      intro g o l hg h
      cases o with
      | none => rw [chainList_none] at h ⊢; exact h
      | some k =>
          obtain ⟨t, l1, hf, hc, rfl⟩ := chainList_some_cons h
          cases g with
          | zero => exact absurd hg (by simp)
          | succ g =>
              exact chainList_cons_of hf
                (ih g t.parentId l1 (Nat.succ_le_succ_iff.mp hg) hc)

theorem chainList_mem_keys {m : TaskMap} :
    ∀ (f : Nat) (o : Option String) (l : List String),
      chainList f m o = some l → ∀ x ∈ l, x ∈ keys m := by
  intro f
  induction f with
  | zero =>
      intro o l h x hx
      cases o with
      | none => rw [chainList_none] at h; cases h; simp at hx
      | some k => exact absurd h (by simp [chainList])
  | succ f ih =>
      intro o l h x hx
      cases o with
      | none => rw [chainList_none] at h; cases h; simp at hx
      | some k =>
          obtain ⟨t, l1, hf, hc, rfl⟩ := chainList_some_cons h
          rcases List.mem_cons.mp hx with rfl | hx1
          · exact mem_keys_of_mem (findTask_some_mem hf)
          · exact ih t.parentId l1 hc x hx1

theorem chainList_suffix {m : TaskMap} :
    ∀ (f : Nat) (o : Option String) (l : List String),
      chainList f m o = some l →
      ∀ (pre post : List String) (x : String), l = pre ++ x :: post →
      ∃ g, chainList g m (some x) = some (x :: post) := by
  intro f
  induction f with
  | zero =>
      intro o l h pre post x hl
      cases o with
      | none =>
          rw [chainList_none] at h; cases h
          exact absurd hl.symm (by simp)
      | some k => exact absurd h (by simp [chainList])
  | succ f ih =>
      intro o l h pre post x hl
      cases o with
      | none =>
          rw [chainList_none] at h; cases h
          exact absurd hl.symm (by simp)
      | some k =>
          obtain ⟨t, l1, hf, hc, rfl⟩ := chainList_some_cons h
          cases pre with
          | nil =>
              simp only [List.nil_append, List.cons.injEq] at hl
              obtain ⟨rfl, rfl⟩ := hl
              exact ⟨f + 1, h⟩
          | cons p0 pre' =>
              simp only [List.cons_append, List.cons.injEq] at hl
              obtain ⟨rfl, hl1⟩ := hl
              exact ih t.parentId l1 hc pre' post x hl1

theorem chainList_nodup {m : TaskMap} :
    ∀ (f : Nat) (o : Option String) (l : List String),
      chainList f m o = some l → l.Nodup := by
  intro f
  induction f with
  | zero =>
      intro o l h
      cases o with
      | none => rw [chainList_none] at h; cases h; exact List.nodup_nil
      | some k => exact absurd h (by simp [chainList])
  | succ f ih =>
      intro o l h
      cases o with
      | none => rw [chainList_none] at h; cases h; exact List.nodup_nil
      | some k =>
          obtain ⟨t, l1, hf, hc, rfl⟩ := chainList_some_cons h
          refine List.nodup_cons.mpr ⟨?_, ih t.parentId l1 hc⟩
          intro hk
          obtain ⟨pre, post, hdecomp⟩ := List.append_of_mem hk
          obtain ⟨g, hg⟩ := chainList_suffix f t.parentId l1 hc pre post k hdecomp
          have heq : k :: post = k :: l1 := chainList_unique g (f + 1) (some k) _ _ hg h
          have hlen : l1.length = pre.length + 1 + post.length := by
            rw [hdecomp]; simp [List.length_append]; omega
          have : post = l1 := by simpa using heq
          rw [this] at hlen
          omega

theorem chainList_length_le {m : TaskMap} {f : Nat} {k : String}
    {l : List String} (h : chainList f m (some k) = some l) :
    l.length ≤ m.length := by
  have hnd := chainList_nodup f (some k) l h
  have hsub : l ⊆ keys m := fun x hx => chainList_mem_keys f (some k) l h x hx
  have := (List.subperm_of_subset hnd hsub).length_le
  simpa [keys] using this

theorem chainList_min_fuel {m : TaskMap} :
    ∀ (f : Nat) (o : Option String) (l : List String),
      chainList f m o = some l → chainList l.length m o = some l := by
  intro f
  induction f with
  | zero =>
      intro o l h
      cases o with
      | none => rw [chainList_none] at h ⊢; exact h
      | some k => exact absurd h (by simp [chainList])
  | succ f ih =>
      intro o l h
      cases o with
      | none => rw [chainList_none] at h ⊢; exact h
      | some k =>
          obtain ⟨t, l1, hf, hc, rfl⟩ := chainList_some_cons h
          exact chainList_cons_of hf (ih t.parentId l1 hc)

/-- Any successful chain also succeeds with the standard `length + 1` fuel. -/
theorem chainList_std_fuel {m : TaskMap} {f : Nat} {o : Option String}
    {l : List String} (h : chainList f m o = some l) :
    chainList (m.length + 1) m o = some l := by
  have hmin := chainList_min_fuel f o l h
  refine chainList_fuel_ge l.length (m.length + 1) o l ?_ hmin
  cases o with
  | none =>
      rw [chainList_none] at h
      cases h; simp
  | some k => have := chainList_length_le h; omega

/-! ## The upward passes succeed on acyclic stores and preserve structure -/

theorem allComplete_isSome {m : TaskMap} {cs : List String}
    (h : ∀ c ∈ cs, (findTask m c).isSome) : (allComplete m cs).isSome := by
  induction cs with
  | nil => simp [allComplete]
  | cons c cs ih =>
      have hc := h c (List.mem_cons_self c cs)
      cases hf : findTask m c with
      | none => rw [hf] at hc; simp at hc
      | some t =>
          by_cases ht : t.completed <;>
            simp [allComplete, hf, ht, ih (fun x hx => h x (List.mem_cons_of_mem c hx))]

/-- The upward pass of `addTask` terminates within the standard fuel along
any rooted parent chain, and only rewrites `completed` flags. -/
theorem bubbleFalse_spec :
    ∀ (l : List String) (fuel : Nat) (m : TaskMap) (o : Option String) (g : Nat),
      chainList g m o = some l → l.length < fuel →
      ∃ m', bubbleFalse fuel m o = some m' ∧ sameStruct m m' := by
  intro l
  induction l with
  | nil =>
      intro fuel m o g hc _
      cases o with
      | none => exact ⟨m, by cases fuel <;> rfl, sameStruct_refl m⟩
      | some k =>
          cases g with
          | zero => exact absurd hc (by simp [chainList])
          | succ g => obtain ⟨t, l1, _, _, h⟩ := chainList_some_cons hc; cases h
  | cons k l1 ih =>
      intro fuel m o g hc hfuel
      cases o with
      | none => rw [chainList_none] at hc; cases hc
      | some k0 =>
          cases g with
          | zero => exact absurd hc (by simp [chainList])
          | succ g =>
              obtain ⟨t, l2, hf, hcp, heq⟩ := chainList_some_cons hc
              injection heq with hk12 hl12
              subst hk12
              subst hl12
              cases fuel with
              | zero => simp at hfuel
              | succ fuel =>
                  by_cases ht : t.completed
                  · have hstr : sameStruct m
                        (setTask m k { t with completed := false }) :=
                      sameStruct_setTask hf rfl
                    have hcp' : chainList g
                        (setTask m k { t with completed := false }) t.parentId
                        = some l1 := by
                      rw [sameStruct_chainList hstr]; exact hcp
                    obtain ⟨m', hm', hstr'⟩ := ih fuel _ t.parentId g hcp'
                      (by simpa using hfuel)
                    refine ⟨m', ?_, sameStruct_trans hstr hstr'⟩
                    simp only [bubbleFalse, hf, if_pos ht]
                    exact hm'
                  · refine ⟨m, ?_, sameStruct_refl m⟩
                    simp only [bubbleFalse, hf, if_neg ht]

/-- The upward pass of `toggleTask` terminates within the standard fuel along
any rooted parent chain of a referentially intact store, and only rewrites
`completed` flags. -/
theorem toggleUp_spec :
    ∀ (l : List String) (fuel : Nat) (nc : Bool) (m : TaskMap)
      (o : Option String) (g : Nat),
      RefIntegrity m → chainList g m o = some l → l.length < fuel →
      ∃ m', toggleUp fuel nc m o = some m' ∧ sameStruct m m' := by
  intro l
  induction l with
  | nil =>
      intro fuel nc m o g _ hc _
      cases o with
      | none => exact ⟨m, by cases fuel <;> rfl, sameStruct_refl m⟩
      | some k =>
          cases g with
          | zero => exact absurd hc (by simp [chainList])
          | succ g => obtain ⟨t, l1, _, _, h⟩ := chainList_some_cons hc; cases h
  | cons k l1 ih =>
      intro fuel nc m o g hri hc hfuel
      cases o with
      | none => rw [chainList_none] at hc; cases hc
      | some k0 =>
          cases g with
          | zero => exact absurd hc (by simp [chainList])
          | succ g =>
              obtain ⟨t, l2, hf, hcp, heq⟩ := chainList_some_cons hc
              injection heq with hk12 hl12
              subst hk12
              subst hl12
              cases fuel with
              | zero => simp at hfuel
              | succ fuel =>
                  have hkids : ∀ c ∈ t.children, (findTask m c).isSome :=
                    (hri (k, t) (findTask_some_mem hf)).1
                  have hac := allComplete_isSome hkids
                  cases hav : allComplete m t.children with
                  | none => rw [hav] at hac; simp at hac
                  | some b =>
                      have step : ∀ (v : Bool),
                          ∃ m', toggleUp fuel nc
                              (setTask m k { t with completed := v }) t.parentId
                            = some m'
                          ∧ sameStruct m m' := by
                        intro v
                        have hstr : sameStruct m
                            (setTask m k { t with completed := v }) :=
                          sameStruct_setTask hf rfl
                        have hcp' : chainList g
                            (setTask m k { t with completed := v }) t.parentId
                            = some l1 := by
                          rw [sameStruct_chainList hstr]; exact hcp
                        obtain ⟨m', hm', hstr'⟩ := ih fuel nc _ t.parentId g
                          (RefIntegrity_of_sameStruct hstr hri) hcp'
                          (by simpa using hfuel)
                        exact ⟨m', hm', sameStruct_trans hstr hstr'⟩
                      by_cases hnc : nc
                      · cases b with
                        | true =>
                            obtain ⟨m', hm', hstr⟩ := step true
                            refine ⟨m', ?_, hstr⟩
                            simp only [toggleUp, hf, hav, if_pos hnc]
                            exact hm'
                        | false =>
                            by_cases ht : t.completed
                            · obtain ⟨m', hm', hstr⟩ := step false
                              refine ⟨m', ?_, hstr⟩
                              simp only [toggleUp, hf, hav, if_pos hnc, if_pos ht]
                              exact hm'
                            · refine ⟨m, ?_, sameStruct_refl m⟩
                              simp only [toggleUp, hf, hav, if_pos hnc, if_neg ht]
                      · by_cases ht : t.completed
                        · obtain ⟨m', hm', hstr⟩ := step false
                          refine ⟨m', ?_, hstr⟩
                          simp only [toggleUp, hf, if_neg hnc, if_pos ht]
                          exact hm'
                        · refine ⟨m, ?_, sameStruct_refl m⟩
                          simp only [toggleUp, hf, if_neg hnc, if_neg ht]

/-- The promotion pass of `deleteTask` terminates within the standard fuel
along any rooted parent chain of a referentially intact store, and only
rewrites `completed` flags. -/
theorem promoteUp_spec :
    ∀ (l : List String) (fuel : Nat) (m : TaskMap) (o : Option String) (g : Nat),
      RefIntegrity m → chainList g m o = some l → l.length < fuel →
      ∃ m', promoteUp fuel m o = some m' ∧ sameStruct m m' := by
  intro l
  induction l with
  | nil =>
      intro fuel m o g _ hc _
      cases o with
      | none => exact ⟨m, by cases fuel <;> rfl, sameStruct_refl m⟩
      | some k =>
          cases g with
          | zero => exact absurd hc (by simp [chainList])
          | succ g => obtain ⟨t, l1, _, _, h⟩ := chainList_some_cons hc; cases h
  | cons k l1 ih =>
      intro fuel m o g hri hc hfuel
      cases o with
      | none => rw [chainList_none] at hc; cases hc
      | some k0 =>
          cases g with
          | zero => exact absurd hc (by simp [chainList])
          | succ g =>
              obtain ⟨t, l2, hf, hcp, heq⟩ := chainList_some_cons hc
              injection heq with hk12 hl12
              subst hk12
              subst hl12
              cases fuel with
              | zero => simp at hfuel
              | succ fuel =>
                  have hkids : ∀ c ∈ t.children, (findTask m c).isSome :=
                    (hri (k, t) (findTask_some_mem hf)).1
                  have hac := allComplete_isSome hkids
                  cases hav : allComplete m t.children with
                  | none => rw [hav] at hac; simp at hac
                  | some b =>
                      cases b with
                      | true =>
                          have hstr : sameStruct m
                              (setTask m k { t with completed := true }) :=
                            sameStruct_setTask hf rfl
                          have hcp' : chainList g
                              (setTask m k { t with completed := true }) t.parentId
                              = some l1 := by
                            rw [sameStruct_chainList hstr]; exact hcp
                          obtain ⟨m', hm', hstr'⟩ := ih fuel _ t.parentId g
                            (RefIntegrity_of_sameStruct hstr hri) hcp'
                            (by simpa using hfuel)
                          refine ⟨m', ?_, sameStruct_trans hstr hstr'⟩
                          simp only [promoteUp, hf, hav]
                          exact hm'
                      | false =>
                          refine ⟨m, ?_, sameStruct_refl m⟩
                          simp only [promoteUp, hf, hav]

/-! ## The downward pass and the subtree collection -/

theorem updateDescendants_zero (m : TaskMap) (id : String) (status : Bool) :
    updateDescendants 0 m id status = none := rfl

theorem updateDescendants_succ (fuel : Nat) (m : TaskMap) (id : String)
    (status : Bool) :
    updateDescendants (fuel + 1) m id status
      = match findTask m id with
        | none => some m
        | some t =>
            t.children.foldlM (fun acc c => updateDescendants fuel acc c status)
              (setTask m id { t with completed := status }) := rfl

theorem foldDesc_sameStruct {fuel : Nat} {status : Bool}
    (ih : ∀ (m : TaskMap) (id : String) (m' : TaskMap),
      updateDescendants fuel m id status = some m' → sameStruct m m') :
    ∀ (cs : List String) (m0 m' : TaskMap),
      cs.foldlM (fun acc c => updateDescendants fuel acc c status) m0 = some m' →
      sameStruct m0 m' := by
  intro cs
  induction cs with
  | nil =>
      intro m0 m' h
      rw [List.foldlM_nil] at h
      cases h
      exact sameStruct_refl _
  | cons c cs ihc =>
      intro m0 m' h
      rw [List.foldlM_cons] at h
      cases h1 : updateDescendants fuel m0 c status with
      | none => rw [h1] at h; simp at h
      | some m1 =>
          rw [h1] at h
          exact sameStruct_trans (ih m0 c m1 h1) (ihc m1 m' h)

theorem updateDescendants_sameStruct :
    ∀ (fuel : Nat) (m : TaskMap) (id : String) (status : Bool) (m' : TaskMap),
      updateDescendants fuel m id status = some m' → sameStruct m m' := by
  intro fuel
  induction fuel with
  | zero =>
      intro m id status m' h
      rw [updateDescendants_zero] at h
      exact Option.noConfusion h
  | succ fuel ih =>
      intro m id status m' h
      rw [updateDescendants_succ] at h
      cases hf : findTask m id with
      | none =>
          rw [hf] at h
          cases h
          exact sameStruct_refl m
      | some t =>
          simp only [hf] at h
          have hstr : sameStruct m (setTask m id { t with completed := status }) :=
            sameStruct_setTask hf rfl
          exact sameStruct_trans hstr
            (foldDesc_sameStruct (fun m1 id1 m1' hh => ih m1 id1 status m1' hh)
              t.children _ m' h)

/-- Fuel budget for a downward traversal rooted at `c`: the deeper the node
(the longer its parent chain), the less fuel is needed. -/
def chainBudget (fuel : Nat) (m : TaskMap) (c : String) : Prop :=
  ∃ g l, chainList g m (some c) = some l ∧ m.length + 2 ≤ fuel + l.length

theorem chainBudget_of_sameStruct {m m' : TaskMap} (h : sameStruct m m')
    {fuel : Nat} {c : String} (hb : chainBudget fuel m c) :
    chainBudget fuel m' c := by
  obtain ⟨g, l, hc, hlen⟩ := hb
  exact ⟨g, l, by rw [sameStruct_chainList h]; exact hc,
    by rw [sameStruct_length h]; exact hlen⟩

theorem child_chain {m : TaskMap} {id : String} {t : Task} {c : String}
    {g : Nat} {l : List String} (hb : BackRef m) (hf : findTask m id = some t)
    (hc : c ∈ t.children) (hch : chainList g m (some id) = some l) :
    chainList (g + 1) m (some c) = some (c :: l) := by
  have h1 := (hb (id, t) (findTask_some_mem hf)).1 c hc
  unfold parentIdOf at h1
  cases hfc : findTask m c with
  | none => rw [hfc] at h1; simp at h1
  | some tc =>
      rw [hfc] at h1
      simp only [Option.map_some', Option.some.injEq] at h1
      exact chainList_cons_of hfc (h1 ▸ hch)

/-- Record-level effect of a downward force: every key either keeps its
record or has exactly its `completed` flag set to `v`. -/
def ForcedSub (m m' : TaskMap) (v : Bool) : Prop :=
  ∀ k, findTask m' k = findTask m k
    ∨ ∃ t0, findTask m k = some t0
        ∧ findTask m' k = some { t0 with completed := v }

theorem ForcedSub_refl (m : TaskMap) (v : Bool) : ForcedSub m m v :=
  fun _ => Or.inl rfl

theorem ForcedSub_trans {m a b : TaskMap} {v : Bool} (h1 : ForcedSub m a v)
    (h2 : ForcedSub a b v) : ForcedSub m b v := by
  intro k
  rcases h2 k with hsame | ⟨t1, ha, hb⟩
  · rw [hsame]
    exact h1 k
  · rcases h1 k with hsame1 | ⟨t0, hm, ha1⟩
    · rw [hsame1] at ha
      exact Or.inr ⟨t1, ha, hb⟩
    · rw [ha1] at ha
      cases ha
      exact Or.inr ⟨t0, hm, hb⟩

theorem IsDesc_of_sameStruct {m m' : TaskMap} (h : sameStruct m m') {r x : String}
    (hd : IsDesc m r x) : IsDesc m' r x := by
  induction hd with
  | refl => exact IsDesc.refl
  | child _ hf hc ih =>
      obtain ⟨t', hf', hst⟩ := sameStruct_find_some h hf
      exact IsDesc.child ih hf' ((stripC_children hst) ▸ hc)

theorem IsDesc_trans {m : TaskMap} {a b c : String} (h1 : IsDesc m a b)
    (h2 : IsDesc m b c) : IsDesc m a c := by
  induction h2 with
  | refl => exact h1
  | child _ hf hc ih => exact IsDesc.child ih hf hc

theorem IsDesc_first_step {m : TaskMap} {r x : String} (h : IsDesc m r x) :
    x = r ∨ ∃ t c, findTask m r = some t ∧ c ∈ t.children ∧ IsDesc m c x := by
  induction h with
  | refl => exact Or.inl rfl
  | child hp hf hc ih =>
      rcases ih with rfl | ⟨t0, c0, hf0, hc0, hd0⟩
      · exact Or.inr ⟨_, _, hf, hc, IsDesc.refl⟩
      · exact Or.inr ⟨t0, c0, hf0, hc0, IsDesc.child hd0 hf hc⟩

theorem foldDesc_spec {fuel : Nat} {status : Bool}
    (ih : ∀ (m : TaskMap) (id : String) (l : List String) (g : Nat),
      BackRef m → chainList g m (some id) = some l →
      m.length + 2 ≤ fuel + l.length →
      ∃ m', updateDescendants fuel m id status = some m'
        ∧ sameStruct m m'
        ∧ ForcedSub m m' status
        ∧ (∀ x, IsDesc m id x → ∀ tx, findTask m x = some tx →
            findTask m' x = some { tx with completed := status })
        ∧ (∀ x, ¬ IsDesc m id x → findTask m' x = findTask m x)) :
    ∀ (cs : List String) (m0 : TaskMap), BackRef m0 →
      (∀ c ∈ cs, chainBudget fuel m0 c) →
      ∃ m', cs.foldlM (fun acc c => updateDescendants fuel acc c status) m0
          = some m'
        ∧ sameStruct m0 m'
        ∧ ForcedSub m0 m' status
        ∧ (∀ c ∈ cs, ∀ x, IsDesc m0 c x → ∀ tx, findTask m0 x = some tx →
            findTask m' x = some { tx with completed := status })
        ∧ (∀ x, (∀ c ∈ cs, ¬ IsDesc m0 c x) → findTask m' x = findTask m0 x) := by
  intro cs
  induction cs with
  | nil =>
      intro m0 _ _
      exact ⟨m0, by rw [List.foldlM_nil]; rfl, sameStruct_refl _,
        ForcedSub_refl m0 status, by simp, fun x _ => rfl⟩
  | cons c cs ihc =>
      intro m0 hb hbud
      obtain ⟨g, l, hch, hlen⟩ := hbud c (List.mem_cons_self c cs)
      obtain ⟨m1, h1, hstr1, hforce1, hcomp1, hframe1⟩ := ih m0 c l g hb hch hlen
      obtain ⟨m', h2, hstr2, hforce2, hcomp2, hframe2⟩ := ihc m1
        (BackRef_of_sameStruct hstr1 hb)
        (fun x hx => chainBudget_of_sameStruct hstr1
          (hbud x (List.mem_cons_of_mem c hx)))
      refine ⟨m', ?_, sameStruct_trans hstr1 hstr2,
        ForcedSub_trans hforce1 hforce2, ?_, ?_⟩
      · rw [List.foldlM_cons, h1]
        simpa using h2
      · intro c' hc' x hdx tx htx
        rcases List.mem_cons.mp hc' with rfl | hc1
        · have hm1x := hcomp1 x hdx tx htx
          rcases hforce2 x with hsame | ⟨t1, ha, hbx⟩
          · rw [hsame]
            exact hm1x
          · rw [hm1x] at ha
            cases ha
            rw [hbx]
        · have hdx1 : IsDesc m1 c' x := IsDesc_of_sameStruct hstr1 hdx
          rcases hforce1 x with hsame | ⟨t0, hm, ha1⟩
          · exact hcomp2 c' hc1 x hdx1 tx (by rw [hsame]; exact htx)
          · rw [htx] at hm
            cases hm
            have := hcomp2 c' hc1 x hdx1 { tx with completed := status } ha1
            exact this
      · intro x hnd
        have h1x := hframe1 x (hnd c (List.mem_cons_self c cs))
        have h2x := hframe2 x (fun c' hc' hcon =>
          hnd c' (List.mem_cons_of_mem c hc')
            (by
              have := IsDesc_of_sameStruct (sameStruct_symm hstr1) hcon
              exact this))
        rw [h2x, h1x]

theorem updateDescendants_spec :
    ∀ (fuel : Nat) (m : TaskMap) (id : String) (status : Bool)
      (l : List String) (g : Nat),
      BackRef m → chainList g m (some id) = some l →
      m.length + 2 ≤ fuel + l.length →
      ∃ m', updateDescendants fuel m id status = some m'
        ∧ sameStruct m m'
        ∧ ForcedSub m m' status
        ∧ (∀ x, IsDesc m id x → ∀ tx, findTask m x = some tx →
            findTask m' x = some { tx with completed := status })
        ∧ (∀ x, ¬ IsDesc m id x → findTask m' x = findTask m x) := by
  intro fuel
  induction fuel with
  | zero =>
      intro m id status l g _ hch hlen
      have := chainList_length_le hch
      omega
  | succ fuel ih =>
      intro m id status l g hb hch hlen
      cases g with
      | zero => exact absurd hch (by simp [chainList])
      | succ g =>
          obtain ⟨t, l1, hf, hcp, rfl⟩ := chainList_some_cons hch
          have hstr : sameStruct m (setTask m id { t with completed := status }) :=
            sameStruct_setTask hf rfl
          have hbud : ∀ c ∈ t.children,
              chainBudget fuel (setTask m id { t with completed := status }) c := by
            intro c hc
            refine chainBudget_of_sameStruct hstr ⟨g + 1 + 1, c :: id :: l1, ?_, ?_⟩
            · exact child_chain hb hf hc hch
            · simp only [List.length_cons] at hlen ⊢
              omega
          obtain ⟨m', hfold, hstr2, hforce2, hcomp2, hframe2⟩ := foldDesc_spec
            (fun m2 id2 l2 g2 hb2 hc2 hl2 => ih m2 id2 status l2 g2 hb2 hc2 hl2)
            t.children _ (BackRef_of_sameStruct hstr hb) hbud
          have hforceset : ForcedSub m (setTask m id { t with completed := status })
              status := by
            intro k
            rw [findTask_setTask]
            by_cases hk : k = id
            · subst hk
              exact Or.inr ⟨t, hf, by rw [if_pos rfl]⟩
            · rw [if_neg hk]
              exact Or.inl rfl
          refine ⟨m', ?_, sameStruct_trans hstr hstr2,
            ForcedSub_trans hforceset hforce2, ?_, ?_⟩
          · rw [updateDescendants_succ]
            simp only [hf]
            exact hfold
          · intro x hdx tx htx
            rcases IsDesc_first_step hdx with rfl | ⟨t2, c2, hf2, hc2, hd2⟩
            · rw [hf] at htx
              cases htx
              have hm1x : findTask (setTask m x { t with completed := status }) x
                  = some { t with completed := status } := findTask_setTask_self ..
              rcases hforce2 x with hsame | ⟨t1, ha, hbx⟩
              · rw [hsame]
                exact hm1x
              · rw [hm1x] at ha
                cases ha
                exact hbx
            · rw [hf] at hf2
              cases hf2
              have hd2' : IsDesc (setTask m id { t with completed := status }) c2 x :=
                IsDesc_of_sameStruct hstr hd2
              have hm1x : findTask (setTask m id { t with completed := status }) x
                  = some tx ∨
                  findTask (setTask m id { t with completed := status }) x
                  = some { tx with completed := status } := by
                rw [findTask_setTask]
                by_cases hk : x = id
                · subst hk
                  rw [hf] at htx
                  cases htx
                  exact Or.inr (by rw [if_pos rfl])
                · rw [if_neg hk]
                  exact Or.inl htx
              rcases hm1x with hsame | hforced
              · exact hcomp2 c2 hc2 x hd2' tx hsame
              · have := hcomp2 c2 hc2 x hd2' { tx with completed := status } hforced
                exact this
          · intro x hnd
            have hxid : x ≠ id := fun hcon => hnd (hcon ▸ IsDesc.refl)
            have hframe := hframe2 x (fun c' hc' hcon => by
              refine hnd ?_
              have := IsDesc_of_sameStruct (sameStruct_symm hstr) hcon
              exact IsDesc_trans (IsDesc.child IsDesc.refl hf hc') this)
            rw [hframe, findTask_setTask, if_neg hxid]

/-! ### Subtree membership and the `collect` traversal -/

theorem collect_zero (m : TaskMap) (id : String) (acc : List String) :
    collect 0 m id acc = none := rfl

theorem collect_succ (fuel : Nat) (m : TaskMap) (id : String)
    (acc : List String) :
    collect (fuel + 1) m id acc
      = (match findTask m id with
        | none => some (if id ∈ acc then acc else acc ++ [id])
        | some t =>
            t.children.foldlM (fun a c => collect fuel m c a)
              (if id ∈ acc then acc else acc ++ [id])) := by
  rfl

theorem foldCollect_sub {fuel : Nat} {m : TaskMap}
    (ih : ∀ (id : String) (acc out : List String),
      collect fuel m id acc = some out → ∀ x ∈ acc, x ∈ out) :
    ∀ (cs : List String) (acc out : List String),
      cs.foldlM (fun a c => collect fuel m c a) acc = some out →
      ∀ x ∈ acc, x ∈ out := by
  intro cs
  induction cs with
  | nil =>
      intro acc out h
      rw [List.foldlM_nil] at h
      cases h
      exact fun x hx => hx
  | cons c cs ihc =>
      intro acc out h
      rw [List.foldlM_cons] at h
      cases h1 : collect fuel m c acc with
      | none => rw [h1] at h; simp at h
      | some a1 =>
          rw [h1] at h
          exact fun x hx => ihc a1 out h x (ih c acc a1 h1 x hx)

theorem collect_sub :
    ∀ (fuel : Nat) (m : TaskMap) (id : String) (acc out : List String),
      collect fuel m id acc = some out → ∀ x ∈ acc, x ∈ out := by
  intro fuel
  induction fuel with
  | zero =>
      intro m id acc out h
      rw [collect_zero] at h
      exact Option.noConfusion h
  | succ fuel ih =>
      intro m id acc out h x hx
      rw [collect_succ] at h
      have hacc1 : x ∈ (if id ∈ acc then acc else acc ++ [id]) := by
        by_cases hmem : id ∈ acc <;> simp [hmem, hx]
      cases hf : findTask m id with
      | none =>
          rw [hf] at h
          cases h
          exact hacc1
      | some t =>
          simp only [hf] at h
          exact foldCollect_sub (fun id2 acc2 out2 hh => ih m id2 acc2 out2 hh)
            t.children _ out h x hacc1

theorem collect_self_mem {fuel : Nat} {m : TaskMap} {id : String}
    {acc out : List String} (h : collect fuel m id acc = some out) :
    id ∈ out := by
  cases fuel with
  | zero => simp [collect_zero] at h
  | succ fuel =>
      rw [collect_succ] at h
      have hacc1 : id ∈ (if id ∈ acc then acc else acc ++ [id]) := by
        by_cases hmem : id ∈ acc <;> simp [hmem]
      cases hf : findTask m id with
      | none =>
          rw [hf] at h
          cases h
          exact hacc1
      | some t =>
          simp only [hf] at h
          exact foldCollect_sub
            (fun id2 acc2 out2 hh => collect_sub fuel m id2 acc2 out2 hh)
            t.children _ out h id hacc1

theorem foldCollect_sound {fuel : Nat} {m : TaskMap}
    (ih : ∀ (id : String) (acc out : List String),
      collect fuel m id acc = some out → ∀ x ∈ out, x ∈ acc ∨ IsDesc m id x) :
    ∀ (cs : List String) (acc out : List String) (root : String),
      (∀ c ∈ cs, IsDesc m root c) →
      cs.foldlM (fun a c => collect fuel m c a) acc = some out →
      ∀ x ∈ out, x ∈ acc ∨ IsDesc m root x := by
  intro cs
  induction cs with
  | nil =>
      intro acc out root _ h x hx
      rw [List.foldlM_nil] at h
      cases h
      exact Or.inl hx
  | cons c cs ihc =>
      intro acc out root hdesc h x hx
      rw [List.foldlM_cons] at h
      cases h1 : collect fuel m c acc with
      | none => rw [h1] at h; simp at h
      | some a1 =>
          rw [h1] at h
          rcases ihc a1 out root
              (fun y hy => hdesc y (List.mem_cons_of_mem c hy)) h x hx with
            hx1 | hdx
          · rcases ih c acc a1 h1 x hx1 with hxa | hdc
            · exact Or.inl hxa
            · exact Or.inr (IsDesc_trans (hdesc c (List.mem_cons_self c cs)) hdc)
          · exact Or.inr hdx

theorem collect_sound :
    ∀ (fuel : Nat) (m : TaskMap) (id : String) (acc out : List String),
      collect fuel m id acc = some out → ∀ x ∈ out, x ∈ acc ∨ IsDesc m id x := by
  intro fuel
  induction fuel with
  | zero =>
      intro m id acc out h
      rw [collect_zero] at h
      exact Option.noConfusion h
  | succ fuel ih =>
      intro m id acc out h x hx
      rw [collect_succ] at h
      have hacc1 : ∀ y, y ∈ (if id ∈ acc then acc else acc ++ [id]) →
          y ∈ acc ∨ IsDesc m id y := by
        intro y hy
        by_cases hmem : id ∈ acc
        · rw [if_pos hmem] at hy; exact Or.inl hy
        · rw [if_neg hmem] at hy
          rcases List.mem_append.mp hy with hya | hyid
          · exact Or.inl hya
          · simp at hyid
            exact Or.inr (hyid ▸ IsDesc.refl)
      cases hf : findTask m id with
      | none =>
          rw [hf] at h
          cases h
          exact hacc1 x hx
      | some t =>
          simp only [hf] at h
          have hchild : ∀ c ∈ t.children, IsDesc m id c :=
            fun c hc => IsDesc.child IsDesc.refl hf hc
          rcases foldCollect_sound (fun id2 acc2 out2 hh => ih m id2 acc2 out2 hh)
              t.children _ out id hchild h x hx with hx1 | hdx
          · exact hacc1 x hx1
          · exact Or.inr hdx

theorem foldCollect_spec {fuel : Nat} {m : TaskMap}
    (ih : ∀ (id : String) (acc : List String) (l : List String) (g : Nat),
      BackRef m → chainList g m (some id) = some l →
      m.length + 2 ≤ fuel + l.length →
      ∃ out, collect fuel m id acc = some out ∧ ∀ x, IsDesc m id x → x ∈ out) :
    ∀ (cs : List String) (acc : List String), BackRef m →
      (∀ c ∈ cs, chainBudget fuel m c) →
      ∃ out, cs.foldlM (fun a c => collect fuel m c a) acc = some out
        ∧ ∀ c ∈ cs, ∀ x, IsDesc m c x → x ∈ out := by
  intro cs
  induction cs with
  | nil =>
      intro acc _ _
      exact ⟨acc, by rw [List.foldlM_nil]; rfl, by simp⟩
  | cons c cs ihc =>
      intro acc hb hbud
      obtain ⟨g, l, hch, hlen⟩ := hbud c (List.mem_cons_self c cs)
      obtain ⟨out1, h1, hcomp1⟩ := ih c acc l g hb hch hlen
      obtain ⟨out, h2, hcomp2⟩ := ihc out1 hb
        (fun y hy => hbud y (List.mem_cons_of_mem c hy))
      refine ⟨out, ?_, ?_⟩
      · rw [List.foldlM_cons, h1]
        simpa using h2
      · intro c' hc' x hdx
        rcases List.mem_cons.mp hc' with rfl | hc1
        · exact foldCollect_sub
            (fun id2 acc2 out2 hh => collect_sub fuel m id2 acc2 out2 hh)
            cs out1 out h2 x (hcomp1 x hdx)
        · exact hcomp2 c' hc1 x hdx

theorem collect_spec :
    ∀ (fuel : Nat) (m : TaskMap) (id : String) (acc : List String)
      (l : List String) (g : Nat),
      BackRef m → chainList g m (some id) = some l →
      m.length + 2 ≤ fuel + l.length →
      ∃ out, collect fuel m id acc = some out
        ∧ ∀ x, IsDesc m id x → x ∈ out := by
  intro fuel
  induction fuel with
  | zero =>
      intro m id acc l g _ hch hlen
      have := chainList_length_le hch
      omega
  | succ fuel ih =>
      intro m id acc l g hb hch hlen
      cases g with
      | zero => exact absurd hch (by simp [chainList])
      | succ g =>
          obtain ⟨t, l1, hf, hcp, rfl⟩ := chainList_some_cons hch
          have hbud2 : ∀ c ∈ t.children, chainBudget fuel m c := by
            intro c hc
            refine ⟨g + 1 + 1, c :: id :: l1, ?_, ?_⟩
            · exact child_chain hb hf hc hch
            · simp only [List.length_cons] at hlen ⊢
              omega
          obtain ⟨out, hfold, hcomp⟩ := foldCollect_spec
            (fun id2 acc2 l2 g2 hb2 hc2 hl2 => ih m id2 acc2 l2 g2 hb2 hc2 hl2)
            t.children (if id ∈ acc then acc else acc ++ [id]) hb hbud2
          refine ⟨out, ?_, ?_⟩
          · rw [collect_succ]
            simp only [hf]
            exact hfold
          · intro x hdx
            rcases IsDesc_first_step hdx with rfl | ⟨t2, c2, hf2, hc2, hd2⟩
            · have hacc1 : x ∈ (if x ∈ acc then acc else acc ++ [x]) := by
                by_cases hmem : x ∈ acc <;> simp [hmem]
              exact foldCollect_sub
                (fun id2 acc2 out2 hh => collect_sub fuel m id2 acc2 out2 hh)
                t.children _ out hfold x hacc1
            · rw [hf] at hf2
              cases hf2
              exact hcomp c2 hc2 x hd2

/-! ## Deletion machinery -/

theorem findTask_foldl_erase :
    ∀ (ids : List String) (m : TaskMap) (k : String),
      findTask (ids.foldl (fun mm i => eraseTask mm i) m) k
        = if k ∈ ids then none else findTask m k := by
  intro ids
  induction ids with
  | nil => intro m k; simp
  | cons i ids ih =>
      intro m k
      rw [List.foldl_cons, ih]
      by_cases hk : k ∈ ids
      · simp [hk]
      · by_cases hki : k = i
        · subst hki
          simp [hk, findTask_eraseTask]
        · simp [hk, hki, findTask_eraseTask_ne m i k hki]

/-- The promotion loop of `deleteTask` never demotes: every surviving record
either keeps its `completed` flag or has it set to `true`. -/
theorem promoteUp_only_promotes :
    ∀ (fuel : Nat) (m : TaskMap) (o : Option String) (m' : TaskMap),
      promoteUp fuel m o = some m' →
      ∀ (k : String) (t' : Task), findTask m' k = some t' →
        ∃ t, findTask m k = some t
          ∧ (t' = t ∨ t' = { t with completed := true }) := by
  intro fuel
  induction fuel with
  | zero =>
      intro m o m' h k t' hk
      cases o with
      | none => cases h; exact ⟨t', hk, Or.inl rfl⟩
      | some c => exact Option.noConfusion h
  | succ fuel ih =>
      intro m o m' h k t' hk
      cases o with
      | none => cases h; exact ⟨t', hk, Or.inl rfl⟩
      | some currId =>
          simp only [promoteUp] at h
          cases hf : findTask m currId with
          | none => rw [hf] at h; exact Option.noConfusion h
          | some p =>
              simp only [hf] at h
              cases hav : allComplete m p.children with
              | none => rw [hav] at h; exact Option.noConfusion h
              | some b =>
                  rw [hav] at h
                  cases b with
                  | false =>
                      cases h
                      exact ⟨t', hk, Or.inl rfl⟩
                  | true =>
                      obtain ⟨t1, hk1, hcase⟩ := ih _ _ _ h k t' hk
                      by_cases hkc : k = currId
                      · subst hkc
                        rw [findTask_setTask_self] at hk1
                        cases hk1
                        refine ⟨p, hf, ?_⟩
                        rcases hcase with rfl | rfl
                        · exact Or.inr rfl
                        · exact Or.inr rfl
                      · rw [findTask_setTask_ne _ _ _ _ hkc] at hk1
                        exact ⟨t1, hk1, hcase⟩

/-- The promotion loop touches only tasks on the parent chain it walks. -/
theorem promoteUp_frame_chain :
    ∀ (l : List String) (fuel : Nat) (m : TaskMap) (o : Option String)
      (g : Nat) (m' : TaskMap),
      chainList g m o = some l → promoteUp fuel m o = some m' →
      ∀ k ∉ l, findTask m' k = findTask m k := by
  intro l
  induction l with
  | nil =>
      intro fuel m o g m' hc h k _
      cases o with
      | none =>
          cases fuel <;> cases h <;> rfl
      | some c =>
          cases g with
          | zero => exact absurd hc (by simp [chainList])
          | succ g => obtain ⟨_, _, _, _, heq⟩ := chainList_some_cons hc; cases heq
  | cons k0 l1 ih =>
      intro fuel m o g m' hc h k hk
      cases o with
      | none => rw [chainList_none] at hc; cases hc
      | some currId =>
          cases g with
          | zero => exact absurd hc (by simp [chainList])
          | succ g =>
              obtain ⟨t, l2, hf, hcp, heq⟩ := chainList_some_cons hc
              injection heq with hk12 hl12
              subst hk12
              subst hl12
              cases fuel with
              | zero => exact Option.noConfusion h
              | succ fuel =>
                  simp only [promoteUp, hf] at h
                  cases hav : allComplete m t.children with
                  | none => rw [hav] at h; exact Option.noConfusion h
                  | some b =>
                      rw [hav] at h
                      cases b with
                      | false =>
                          cases h
                          rfl
                      | true =>
                          have hne : k ≠ k0 := fun hcon =>
                            hk (hcon ▸ List.mem_cons_self k0 l1)
                          have hstr : sameStruct m
                              (setTask m k0 { t with completed := true }) :=
                            sameStruct_setTask hf rfl
                          have hcp' : chainList g
                              (setTask m k0 { t with completed := true }) t.parentId
                              = some l1 := by
                            rw [sameStruct_chainList hstr]; exact hcp
                          have := ih fuel _ t.parentId g m' hcp' h k
                            (fun hcon => hk (List.mem_cons_of_mem k0 hcon))
                          rw [this, findTask_setTask_ne _ _ _ _ hne]

/-- Within the subtree of `r`, every node's parent chain passes through `r`. -/
theorem desc_chain_mem {m : TaskMap} (hb : BackRef m) {r x : String}
    (hd : IsDesc m r x) :
    ∀ (g : Nat) (l : List String), chainList g m (some x) = some l → r ∈ l := by
  induction hd with
  | refl =>
      intro g l hc
      cases g with
      | zero => exact absurd hc (by simp [chainList])
      | succ g =>
          obtain ⟨t, l1, _, _, rfl⟩ := chainList_some_cons hc
          exact List.mem_cons_self _ _
  | child hp hf hc ih =>
      rename_i p t c
      intro g l hcl
      cases g with
      | zero => exact absurd hcl (by simp [chainList])
      | succ g =>
          obtain ⟨tc, l1, hfc, hcp, rfl⟩ := chainList_some_cons hcl
          have h1 := (hb (p, t) (findTask_some_mem hf)).1 c hc
          unfold parentIdOf at h1
          rw [hfc] at h1
          simp only [Option.map_some', Option.some.injEq] at h1
          rw [h1] at hcp
          exact List.mem_cons_of_mem _ (ih g l1 hcp)

/-- A task's parent is never inside the task's own subtree. -/
theorem parent_not_desc {m : TaskMap} (hb : BackRef m) {taskId pid : String}
    {t : Task} (hf : findTask m taskId = some t) (hp : t.parentId = some pid)
    {g : Nat} {l : List String} (hc : chainList g m (some taskId) = some l) :
    ¬ IsDesc m taskId pid := by
  intro hd
  cases g with
  | zero => exact absurd hc (by simp [chainList])
  | succ g =>
      obtain ⟨t2, l1, hf2, hcp, rfl⟩ := chainList_some_cons hc
      rw [hf] at hf2
      cases hf2
      rw [hp] at hcp
      have hmem := desc_chain_mem hb hd g l1 hcp
      have hnd := chainList_nodup (g + 1) (some taskId) _ hc
      exact (List.nodup_cons.mp hnd).1 hmem

theorem mem_setTask :
    ∀ (m : TaskMap) (k : String) (v : Task) (p : String × Task),
      p ∈ setTask m k v → p = (k, v) ∨ p ∈ m := by
  intro m
  induction m with
  | nil =>
      intro k v p hp
      simp [setTask] at hp
      exact Or.inl (by simp [hp])
  | cons q rest ih =>
      intro k v p hp
      obtain ⟨k0, t0⟩ := q
      by_cases hk : k = k0
      · subst hk
        rw [setTask, if_pos rfl] at hp
        rcases List.mem_cons.mp hp with rfl | hrest
        · exact Or.inl rfl
        · exact Or.inr (List.mem_cons_of_mem _ hrest)
      · rw [setTask, if_neg hk] at hp
        rcases List.mem_cons.mp hp with rfl | hrest
        · exact Or.inr (List.mem_cons_self _ _)
        · rcases ih k v p hrest with h1 | h1
          · exact Or.inl h1
          · exact Or.inr (List.mem_cons_of_mem _ h1)

theorem parentIdOf_setTask (m : TaskMap) (k x : String) (v : Task) :
    parentIdOf (setTask m k v) x
      = if x = k then some v.parentId else parentIdOf m x := by
  unfold parentIdOf
  rw [findTask_setTask]
  by_cases h : x = k <;> simp [h]

theorem id_of_WFKeys {m : TaskMap} (hw : WFKeys m) {k : String} {t : Task}
    (hf : findTask m k = some t) : t.id = k :=
  hw.2 (k, t) (findTask_some_mem hf)

theorem RefIntegrity_setTask_sub {m : TaskMap} {k : String} {t t' : Task}
    (hri : RefIntegrity m) (hf : findTask m k = some t)
    (hsub : ∀ c ∈ t'.children, c ∈ t.children) (hpid : t'.parentId = t.parentId) :
    RefIntegrity (setTask m k t') := by
  have hpres : ∀ x, (findTask m x).isSome → (findTask (setTask m k t') x).isSome := by
    intro x hx
    rw [findTask_setTask]
    by_cases h : x = k <;> simp [h, hx]
  intro p hp
  rcases mem_setTask m k t' p hp with rfl | hpm
  · obtain ⟨hc, hpo⟩ := hri (k, t) (findTask_some_mem hf)
    constructor
    · intro c hcc
      exact hpres c (hc c (hsub c hcc))
    · show parentOk (setTask m k t') t'
      cases hq : t'.parentId with
      | none => rw [parentOk_none hq]
      | some q =>
          rw [parentOk_some hq]
          rw [hq] at hpid
          rw [parentOk_some hpid.symm] at hpo
          exact hpres q hpo
  · obtain ⟨hc, hpo⟩ := hri p hpm
    constructor
    · intro c hcc
      exact hpres c (hc c hcc)
    · show parentOk (setTask m k t') p.2
      cases hq : p.2.parentId with
      | none => rw [parentOk_none hq]
      | some q =>
          rw [parentOk_some hq]
          rw [parentOk_some hq] at hpo
          exact hpres q hpo

/-- Master specification of a successful `deleteTask` under the invariants:
the collected set is exactly the subtree, the operation succeeds, and the
parent step is the children filter followed by a completion-only rewrite. -/
theorem deleteTask_spec (s : AppState) (taskId : String) (t : Task)
    (hInv : Inv s) (ht : findTask s.tasks taskId = some t) :
    ∃ out m2,
      collect (s.tasks.length + 1) s.tasks taskId [] = some out
      ∧ deleteParentStep s.tasks taskId t = some m2
      ∧ deleteTask s taskId
          = some ⟨out.foldl (fun mm i => eraseTask mm i) m2,
              s.rootTaskIds.filter (fun i => i != taskId)⟩
      ∧ (∀ x, IsDesc s.tasks taskId x → x ∈ out)
      ∧ (∀ x ∈ out, IsDesc s.tasks taskId x)
      ∧ ((t.parentId = none ∧ m2 = s.tasks)
          ∨ ∃ pid parent, t.parentId = some pid
              ∧ findTask s.tasks pid = some parent
              ∧ sameStruct
                  (setTask s.tasks pid
                    { parent with
                      children := parent.children.filter (fun cid => cid != taskId) })
                  m2) := by
  obtain ⟨hwf, hri, hbr, hac, hci, hrs⟩ := hInv
  have hchain : (chainList (s.tasks.length + 1) s.tasks (some taskId)).isSome :=
    hac (taskId, t) (findTask_some_mem ht)
  cases hch : chainList (s.tasks.length + 1) s.tasks (some taskId) with
  | none => rw [hch] at hchain; simp at hchain
  | some L =>
      have hLlen : 1 ≤ L.length := by
        obtain ⟨t2, l1, _, _, rfl⟩ := chainList_some_cons hch
        simp
      obtain ⟨out, hcollect, hcomplete⟩ := collect_spec (s.tasks.length + 1)
        s.tasks taskId [] L (s.tasks.length + 1) hbr hch (by omega)
      have hsound : ∀ x ∈ out, IsDesc s.tasks taskId x := by
        intro x hx
        rcases collect_sound _ _ _ _ _ hcollect x hx with hemp | hd
        · simp at hemp
        · exact hd
      -- the parent step
      have hstep : ∃ m2, deleteParentStep s.tasks taskId t = some m2
          ∧ ((t.parentId = none ∧ m2 = s.tasks)
            ∨ ∃ pid parent, t.parentId = some pid
                ∧ findTask s.tasks pid = some parent
                ∧ sameStruct
                    (setTask s.tasks pid
                      { parent with
                        children := parent.children.filter (fun cid => cid != taskId) })
                    m2) := by
        cases hpid : t.parentId with
        | none =>
            refine ⟨s.tasks, ?_, Or.inl ⟨rfl, rfl⟩⟩
            simp [deleteParentStep, hpid]
        | some pid =>
            have hpo := (hri (taskId, t) (findTask_some_mem ht)).2
            rw [parentOk_some hpid] at hpo
            cases hfp : findTask s.tasks pid with
            | none => rw [hfp] at hpo; simp at hpo
            | some parent =>
                have hid : parent.id = pid := id_of_WFKeys hwf hfp
                subst hid
                have hm1len : (setTask s.tasks parent.id
                    { parent with
                      children := parent.children.filter (fun cid => cid != taskId) }).length
                    = s.tasks.length :=
                  length_setTask_of_mem _ _ _ (by rw [hfp]; rfl)
                have hpar_cong : ∀ x, parentIdOf (setTask s.tasks parent.id
                    { parent with
                      children := parent.children.filter (fun cid => cid != taskId) }) x
                    = parentIdOf s.tasks x := by
                  intro x
                  rw [parentIdOf_setTask]
                  by_cases hx : x = parent.id
                  · subst hx
                    rw [if_pos rfl]
                    unfold parentIdOf
                    rw [hfp]
                    rfl
                  · rw [if_neg hx]
                have hri1 : RefIntegrity (setTask s.tasks parent.id
                    { parent with
                      children := parent.children.filter (fun cid => cid != taskId) }) := by
                  refine RefIntegrity_setTask_sub hri hfp ?_ rfl
                  intro c hcc
                  exact (List.mem_filter.mp hcc).1
                have hchp : (chainList (s.tasks.length + 1) s.tasks
                    (some parent.id)).isSome :=
                  hac (parent.id, parent) (findTask_some_mem hfp)
                cases hchp2 : chainList (s.tasks.length + 1) s.tasks (some parent.id) with
                | none => rw [hchp2] at hchp; simp at hchp
                | some Lp =>
                    have hch1 : chainList (s.tasks.length + 1) (setTask s.tasks parent.id
                        { parent with
                          children := parent.children.filter (fun cid => cid != taskId) })
                        (some parent.id) = some Lp := by
                      rw [chainList_congr hpar_cong]
                      exact hchp2
                    have hLp : Lp.length ≤ s.tasks.length := by
                      have := chainList_length_le hchp2
                      omega
                    by_cases hempty :
                        (parent.children.filter (fun cid => cid != taskId)).length > 0
                    · have hkids1 : ∀ c ∈ parent.children.filter
                          (fun cid => cid != taskId),
                          (findTask (setTask s.tasks parent.id
                            { parent with
                              children := parent.children.filter
                                (fun cid => cid != taskId) }) c).isSome := by
                        intro c hcc
                        have hc0 : c ∈ parent.children := (List.mem_filter.mp hcc).1
                        have := (hri (parent.id, parent) (findTask_some_mem hfp)).1 c hc0
                        rw [findTask_setTask]
                        by_cases hx : c = parent.id <;> simp [hx, this]
                      have hacs := allComplete_isSome hkids1
                      cases hav : allComplete (setTask s.tasks parent.id
                          { parent with
                            children := parent.children.filter (fun cid => cid != taskId) })
                          (parent.children.filter (fun cid => cid != taskId)) with
                      | none => rw [hav] at hacs; simp at hacs
                      | some b =>
                          cases b with
                          | false =>
                              refine ⟨_, ?_, Or.inr ⟨parent.id, parent, rfl, hfp,
                                sameStruct_refl _⟩⟩
                              simp only [deleteParentStep, hpid, hfp]
                              rw [if_pos hempty, hav]
                          | true =>
                              obtain ⟨m2, hprom, hstr⟩ := promoteUp_spec Lp
                                ((setTask s.tasks parent.id
                                  { parent with
                                    children := parent.children.filter
                                      (fun cid => cid != taskId) }).length + 1)
                                _ (some parent.id) (s.tasks.length + 1)
                                hri1 hch1 (by omega)
                              refine ⟨m2, ?_, Or.inr ⟨parent.id, parent, rfl, hfp, hstr⟩⟩
                              simp only [deleteParentStep, hpid, hfp]
                              rw [if_pos hempty, hav]
                              exact hprom
                    · refine ⟨_, ?_, Or.inr ⟨parent.id, parent, rfl, hfp,
                        sameStruct_refl _⟩⟩
                      simp only [deleteParentStep, hpid, hfp]
                      rw [if_neg hempty]
      obtain ⟨m2, hstep2, hcase⟩ := hstep
      refine ⟨out, m2, hcollect, hstep2, ?_, hcomplete, hsound, hcase⟩
      simp only [deleteTask, hcollect, Option.some_bind, ht, hstep2, Option.map_some']

/-! ## Claim C4 — deletion removes exactly the subtree -/

/-- C4: after a successful `deleteTask(id)` on an invariant-satisfying state,
neither `id` nor any former descendant of `id` remains a key of the store,
the former parent's `children` list is the old list with `id` filtered out
(all other entries kept in order), and `id` is removed from `rootTaskIds`. -/
theorem C4_delete_removes_subtree (s : AppState) (taskId : String) (t : Task)
    (hInv : Inv s) (ht : findTask s.tasks taskId = some t) :
    ∃ s', deleteTask s taskId = some s'
      ∧ findTask s'.tasks taskId = none
      ∧ (∀ k, IsDesc s.tasks taskId k → findTask s'.tasks k = none)
      ∧ (∀ pid parent, t.parentId = some pid →
          findTask s.tasks pid = some parent →
          ∃ p', findTask s'.tasks pid = some p'
            ∧ p'.children = parent.children.filter (fun c => c != taskId))
      ∧ s'.rootTaskIds = s.rootTaskIds.filter (fun i => i != taskId)
      ∧ taskId ∉ s'.rootTaskIds := by
  obtain ⟨out, m2, hcollect, hstep, heq, hcomplete, hsound, hcase⟩ :=
    deleteTask_spec s taskId t hInv ht
  obtain ⟨hwf, hri, hbr, hac, hci, hrs⟩ := hInv
  refine ⟨_, heq, ?_, ?_, ?_, rfl, ?_⟩
  · show findTask (out.foldl (fun mm i => eraseTask mm i) m2) taskId = none
    rw [findTask_foldl_erase]
    rw [if_pos (hcomplete taskId IsDesc.refl)]
  · intro k hk
    show findTask (out.foldl (fun mm i => eraseTask mm i) m2) k = none
    rw [findTask_foldl_erase]
    rw [if_pos (hcomplete k hk)]
  · intro pid parent hpid hfp
    rcases hcase with ⟨hnone, _⟩ | ⟨pid2, parent2, hpid2, hfp2, hstr⟩
    · rw [hpid] at hnone; cases hnone
    · rw [hpid] at hpid2
      injection hpid2 with hpe
      subst hpe
      rw [hfp] at hfp2
      cases hfp2
      have hnotdesc : ¬ IsDesc s.tasks taskId pid := by
        have hchain := hac (taskId, t) (findTask_some_mem ht)
        cases hch : chainList (s.tasks.length + 1) s.tasks (some taskId) with
        | none => rw [hch] at hchain; simp at hchain
        | some L => exact parent_not_desc hbr ht hpid hch
      have hnotin : pid ∉ out := fun hcon => hnotdesc (hsound pid hcon)
      have hm1 : findTask (setTask s.tasks pid
          { parent with
            children := parent.children.filter (fun cid => cid != taskId) }) pid
          = some { parent with
            children := parent.children.filter (fun cid => cid != taskId) } :=
        findTask_setTask_self ..
      obtain ⟨p', hp', hstp⟩ := sameStruct_find_some hstr hm1
      refine ⟨p', ?_, ?_⟩
      · show findTask (out.foldl (fun mm i => eraseTask mm i) m2) pid = some p'
        rw [findTask_foldl_erase, if_neg hnotin]
        exact hp'
      · have := stripC_children hstp
        simpa using this
  · show taskId ∉ s.rootTaskIds.filter (fun i => i != taskId)
    intro hcon
    have := (List.mem_filter.mp hcon).2
    simp at this

/-- Witness for C4 at a concrete three-task forest (root `"r"` with an
incomplete leaf `"a"` and a complete leaf `"b"`; delete `"a"`). -/
theorem C4_delete_removes_subtree_witness :
    Inv ⟨[("r", ⟨"r", "R", "", false, ["a", "b"], none, 0⟩),
          ("a", ⟨"a", "A", "", false, [], some "r", 1⟩),
          ("b", ⟨"b", "B", "", true, [], some "r", 2⟩)], ["r"]⟩
      ∧ findTask [("r", ⟨"r", "R", "", false, ["a", "b"], none, 0⟩),
          ("a", ⟨"a", "A", "", false, [], some "r", 1⟩),
          ("b", ⟨"b", "B", "", true, [], some "r", 2⟩)] "a"
          = some ⟨"a", "A", "", false, [], some "r", 1⟩
      ∧ ∃ s', deleteTask ⟨[("r", ⟨"r", "R", "", false, ["a", "b"], none, 0⟩),
            ("a", ⟨"a", "A", "", false, [], some "r", 1⟩),
            ("b", ⟨"b", "B", "", true, [], some "r", 2⟩)], ["r"]⟩ "a" = some s'
          ∧ findTask s'.tasks "a" = none
          ∧ (∀ k, IsDesc [("r", ⟨"r", "R", "", false, ["a", "b"], none, 0⟩),
              ("a", ⟨"a", "A", "", false, [], some "r", 1⟩),
              ("b", ⟨"b", "B", "", true, [], some "r", 2⟩)] "a" k
              → findTask s'.tasks k = none)
          ∧ (∀ pid parent,
              (⟨"a", "A", "", false, [], some "r", 1⟩ : Task).parentId = some pid →
              findTask [("r", ⟨"r", "R", "", false, ["a", "b"], none, 0⟩),
                ("a", ⟨"a", "A", "", false, [], some "r", 1⟩),
                ("b", ⟨"b", "B", "", true, [], some "r", 2⟩)] pid = some parent →
              ∃ p', findTask s'.tasks pid = some p'
                ∧ p'.children = parent.children.filter (fun c => c != "a"))
          ∧ s'.rootTaskIds = ["r"].filter (fun i => i != "a")
          ∧ "a" ∉ s'.rootTaskIds :=
  ⟨by decide, by decide,
   C4_delete_removes_subtree
     ⟨[("r", ⟨"r", "R", "", false, ["a", "b"], none, 0⟩),
       ("a", ⟨"a", "A", "", false, [], some "r", 1⟩),
       ("b", ⟨"b", "B", "", true, [], some "r", 2⟩)], ["r"]⟩ "a"
     ⟨"a", "A", "", false, [], some "r", 1⟩ (by decide) (by decide)⟩

/-! ## Completion-flag bookkeeping helpers -/

/-- The JS truthiness of `tasksCopy[c].completed`. -/
def completedAt (m : TaskMap) (c : String) : Bool :=
  match findTask m c with
  | some t => t.completed
  | none => false

theorem completedAt_some {m : TaskMap} {c : String} {t : Task}
    (h : findTask m c = some t) : completedAt m c = t.completed := by
  unfold completedAt; rw [h]

theorem childrenAllComplete_eq_all (m : TaskMap) (cs : List String) :
    childrenAllComplete m cs = cs.all (completedAt m) := rfl

theorem completedAt_setTask (m : TaskMap) (k x : String) (v : Task) :
    completedAt (setTask m k v) x = if x = k then v.completed else completedAt m x := by
  unfold completedAt
  rw [findTask_setTask]
  by_cases h : x = k <;> simp [h]

theorem childrenAllComplete_congr {m m' : TaskMap} {cs : List String}
    (h : ∀ c ∈ cs, completedAt m' c = completedAt m c) :
    childrenAllComplete m' cs = childrenAllComplete m cs := by
  rw [childrenAllComplete_eq_all, childrenAllComplete_eq_all]
  induction cs with
  | nil => rfl
  | cons c cs ih =>
      rw [List.all_cons, List.all_cons, h c (List.mem_cons_self c cs),
        ih (fun x hx => h x (List.mem_cons_of_mem c hx))]

theorem childrenAllComplete_false_of_mem {m : TaskMap} {cs : List String}
    {c : String} (hc : c ∈ cs) (hf : completedAt m c = false) :
    childrenAllComplete m cs = false := by
  rw [childrenAllComplete_eq_all]
  cases hall : cs.all (completedAt m) with
  | false => rfl
  | true =>
      have := List.all_eq_true.mp hall c hc
      rw [hf] at this
      cases this

theorem allComplete_eq_childrenAllComplete {m : TaskMap} :
    ∀ (cs : List String) (b : Bool), allComplete m cs = some b →
      childrenAllComplete m cs = b := by
  intro cs
  induction cs with
  | nil =>
      intro b h
      rw [allComplete] at h
      cases h
      rfl
  | cons c cs ih =>
      intro b h
      rw [allComplete] at h
      cases hf : findTask m c with
      | none => rw [hf] at h; exact Option.noConfusion h
      | some t =>
          simp only [hf] at h
          by_cases ht : t.completed
          · rw [if_pos ht] at h
            have := ih b h
            rw [childrenAllComplete_eq_all] at this ⊢
            rw [List.all_cons, completedAt_some hf, ht, this]
            simp
          · rw [if_neg ht] at h
            cases h
            exact childrenAllComplete_false_of_mem (List.mem_cons_self c cs)
              (by rw [completedAt_some hf]; simpa using ht)

/-- The first half of back-reference consistency: every listed child points
back to the parent that lists it. -/
def Pointback (m : TaskMap) : Prop :=
  ∀ p ∈ m, ∀ c ∈ p.2.children, parentIdOf m c = some (some p.1)

theorem Pointback_of_BackRef {m : TaskMap} (h : BackRef m) : Pointback m :=
  fun p hp c hc => (h p hp).1 c hc

theorem Pointback_of_sameStruct {m m' : TaskMap} (h : sameStruct m m')
    (hp : Pointback m) : Pointback m' := by
  intro p hpm c hc
  obtain ⟨t, hmem, hst⟩ := mem_of_sameStruct h hpm
  rw [sameStruct_parentIdOf h c]
  exact hp (p.1, t) hmem c ((stripC_children hst).symm ▸ hc)

/-- Under pointback, a task is in the children list of at most one parent. -/
theorem Pointback_unique_parent {m : TaskMap} (hp : Pointback m) {k1 k2 c : String}
    {t1 t2 : Task} (h1 : findTask m k1 = some t1) (h2 : findTask m k2 = some t2)
    (hc1 : c ∈ t1.children) (hc2 : c ∈ t2.children) : k1 = k2 := by
  have e1 := hp (k1, t1) (findTask_some_mem h1) c hc1
  have e2 := hp (k2, t2) (findTask_some_mem h2) c hc2
  rw [e1] at e2
  have := e2.symm
  simpa using this.symm

/-- Under pointback, a task whose parent chain is rooted never lists itself
among its own children. -/
theorem no_self_child {m : TaskMap} (hp : Pointback m) {c : String} {t : Task}
    (hf : findTask m c = some t) (hc : c ∈ t.children) {g : Nat}
    {l : List String} (hch : chainList g m (some c) = some l) : False := by
  have hpid := hp (c, t) (findTask_some_mem hf) c hc
  unfold parentIdOf at hpid
  rw [hf] at hpid
  simp only [Option.map_some', Option.some.injEq] at hpid
  cases g with
  | zero => exact absurd hch (by simp [chainList])
  | succ g =>
      obtain ⟨t2, l1, hf2, hcp, rfl⟩ := chainList_some_cons hch
      rw [hf] at hf2
      cases hf2
      rw [hpid] at hcp
      have := chainList_unique g (g + 1) (some c) l1 (c :: l1) hcp hch
      have hlen : l1.length = l1.length + 1 := by
        conv_lhs => rw [this]
        simp
      omega

/-- Under the completion invariant, incompleteness propagates up the whole
parent chain: if a task is incomplete, every ancestor is incomplete. -/
theorem chain_false_upward {m : TaskMap} (hci : CompletionInv m) (hbr : BackRef m) :
    ∀ (l : List String) (g : Nat) (k : String) (t : Task),
      findTask m k = some t → t.completed = false →
      chainList g m t.parentId = some l → ∀ x ∈ l, completedAt m x = false := by
  intro l
  induction l with
  | nil => intro g k t _ _ _ x hx; simp at hx
  | cons p l1 ih =>
      intro g k t hf hcomp hch x hx
      cases hpid : t.parentId with
      | none =>
          rw [hpid, chainList_none] at hch
          cases hch
      | some p0 =>
          rw [hpid] at hch
          cases g with
          | zero => exact absurd hch (by simp [chainList])
          | succ g =>
              obtain ⟨tp, l2, hfp, hcp, heq⟩ := chainList_some_cons hch
              injection heq with hk12 hl12
              subst hk12
              subst hl12
              have hmem := (hbr (k, t) (findTask_some_mem hf)).2.1
              rw [hpid] at hmem
              rw [childMem_some k hfp] at hmem
              have hkc : k ∈ tp.children := by
                simpa [List.contains_iff_exists_mem_beq] using hmem
              have hall : childrenAllComplete m tp.children = false :=
                childrenAllComplete_false_of_mem hkc
                  (by rw [completedAt_some hf]; exact hcomp)
              have hne : tp.children ≠ [] := by
                intro hcon; rw [hcon] at hkc; simp at hkc
              have hpc : tp.completed = false := by
                have := hci (p, tp) (findTask_some_mem hfp) hne
                rw [this, hall]
              rcases List.mem_cons.mp hx with rfl | hx1
              · rw [completedAt_some hfp]; exact hpc
              · exact ih g p tp hfp hpc hcp x hx1

/-- No strict ancestor of a task is inside the task's subtree. -/
theorem anc_not_desc {m : TaskMap} (hbr : BackRef m) {k : String}
    {l : List String} {g : Nat} (hch : chainList g m (some k) = some (k :: l)) :
    ∀ a ∈ l, ¬ IsDesc m k a := by
  intro a ha hd
  obtain ⟨pre, post, hdecomp⟩ := List.append_of_mem ha
  have hdecomp2 : k :: l = (k :: pre) ++ a :: post := by
    rw [hdecomp]; rfl
  obtain ⟨g2, hch2⟩ := chainList_suffix g (some k) (k :: l) hch (k :: pre) post a
    hdecomp2
  have hkin := desc_chain_mem hbr hd g2 (a :: post) hch2
  have hnd := chainList_nodup g (some k) (k :: l) hch
  have hknotl : k ∉ l := (List.nodup_cons.mp hnd).1
  rcases List.mem_cons.mp hkin with rfl | hkpost
  · exact hknotl ha
  · refine hknotl ?_
    rw [hdecomp]
    exact List.mem_append_right pre (List.mem_cons_of_mem a hkpost)

/-- A task whose parent chain is rooted is not its own parent. -/
theorem no_self_parent {m : TaskMap} {c : String} {t : Task}
    (hf : findTask m c = some t) (hp : t.parentId = some c) {g : Nat}
    {l : List String} (hch : chainList g m (some c) = some l) : False := by
  cases g with
  | zero => exact absurd hch (by simp [chainList])
  | succ g =>
      obtain ⟨t2, l1, hf2, hcp, rfl⟩ := chainList_some_cons hch
      rw [hf] at hf2
      cases hf2
      rw [hp] at hcp
      have := chainList_unique g (g + 1) (some c) l1 (c :: l1) hcp hch
      have hlen : l1.length = l1.length + 1 := by
        conv_lhs => rw [this]
        simp
      omega

theorem findTask_eq_of_mem_nodup {m : TaskMap} (hnd : (keys m).Nodup)
    {k : String} {t : Task} (hm : (k, t) ∈ m) : findTask m k = some t := by
  induction m with
  | nil => simp at hm
  | cons p rest ih =>
      obtain ⟨k0, t0⟩ := p
      rcases List.mem_cons.mp hm with heq | hrest
      · obtain ⟨rfl, rfl⟩ := Prod.mk.injEq .. |>.mp heq
        simp [findTask]
      · rw [keys_cons, List.nodup_cons] at hnd
        have hk : k ≠ k0 := by
          intro hcon
          subst hcon
          exact hnd.1 (mem_keys_of_mem (p := (k, t)) hrest)
        rw [findTask_cons, if_neg hk]
        exact ih hnd.2 hrest

theorem CompletionInv_of_find {m : TaskMap}
    (h : ∀ (k : String) (t : Task), findTask m k = some t → t.children ≠ [] →
      t.completed = childrenAllComplete m t.children)
    (hnd : (keys m).Nodup) : CompletionInv m := by
  intro p hp hne
  exact h p.1 p.2 (findTask_eq_of_mem_nodup hnd hp) hne

/-- Completion-invariant restoration by the upward pass of `toggleTask`: if
the invariant holds everywhere except possibly at the walk's current task,
and (when the forced value is `false`) the current task has an incomplete
child, the walk ends in a store satisfying the full completion invariant. -/
theorem toggleUp_completion :
    ∀ (l : List String) (fuel : Nat) (nc : Bool) (m : TaskMap)
      (o : Option String) (g : Nat),
      WFKeys m → RefIntegrity m → BackRef m →
      chainList g m o = some l → l.length < fuel →
      (∀ (k : String) (tk : Task), findTask m k = some tk → o ≠ some k →
        tk.children ≠ [] → tk.completed = childrenAllComplete m tk.children) →
      (nc = false → ∀ c, o = some c → ∀ tc, findTask m c = some tc →
        childrenAllComplete m tc.children = false) →
      ∃ m', toggleUp fuel nc m o = some m' ∧ CompletionInv m' ∧ sameStruct m m' := by
  intro l
  induction l with
  | nil =>
      intro fuel nc m o g hwf _ _ hch _ hHC _
      cases o with
      | none =>
          refine ⟨m, by cases fuel <;> rfl, ?_, sameStruct_refl m⟩
          exact CompletionInv_of_find
            (fun k tk hk hne => hHC k tk hk (by simp) hne) hwf.1
      | some k =>
          cases g with
          | zero => exact absurd hch (by simp [chainList])
          | succ g => obtain ⟨_, _, _, _, h⟩ := chainList_some_cons hch; cases h
  | cons c l1 ih =>
      intro fuel nc m o g hwf hri hbr hch hfuel hHC hHW
      cases o with
      | none => rw [chainList_none] at hch; cases hch
      | some c0 =>
          cases g with
          | zero => exact absurd hch (by simp [chainList])
          | succ g =>
              obtain ⟨tc, l2, hf, hcp, heq⟩ := chainList_some_cons hch
              injection heq with hk12 hl12
              subst hk12
              subst hl12
              cases fuel with
              | zero => simp at hfuel
              | succ fuel =>
                  have hpb : Pointback m := Pointback_of_BackRef hbr
                  have hnotself : c ∉ tc.children := fun hcon =>
                    no_self_child hpb hf hcon hch
                  have hkids : ∀ x ∈ tc.children, (findTask m x).isSome :=
                    (hri (c, tc) (findTask_some_mem hf)).1
                  have hacs := allComplete_isSome hkids
                  cases hav : allComplete m tc.children with
                  | none => rw [hav] at hacs; simp at hacs
                  | some b =>
                      have hcab := allComplete_eq_childrenAllComplete tc.children b hav
                      -- common recursion step after setting the flag to v
                      have step : ∀ (v : Bool),
                          childrenAllComplete m tc.children = v →
                          (nc = false → childrenAllComplete m tc.children = false) →
                          ∃ m', toggleUp fuel nc
                              (setTask m c { tc with completed := v }) tc.parentId
                              = some m'
                            ∧ CompletionInv m'
                            ∧ sameStruct m m' := by
                        intro v hv hvnc
                        have hstr : sameStruct m (setTask m c { tc with completed := v }) :=
                          sameStruct_setTask hf rfl
                        have hcab2 : ∀ cs : List String, c ∉ cs →
                            childrenAllComplete (setTask m c { tc with completed := v }) cs
                              = childrenAllComplete m cs := by
                          intro cs hcs
                          refine childrenAllComplete_congr ?_
                          intro x hx
                          rw [completedAt_setTask]
                          have hxc : ¬ x = c := fun hcon => hcs (hcon ▸ hx)
                          rw [if_neg hxc]
                        have hHC2 : ∀ (k : String) (tk : Task),
                            findTask (setTask m c { tc with completed := v }) k = some tk →
                            tc.parentId ≠ some k → tk.children ≠ [] →
                            tk.completed
                              = childrenAllComplete
                                  (setTask m c { tc with completed := v }) tk.children := by
                          intro k tk hk hne hnonempty
                          rw [findTask_setTask] at hk
                          by_cases hkc : k = c
                          · rw [if_pos hkc] at hk
                            cases hk
                            rw [hcab2 tc.children hnotself, hv]
                          · rw [if_neg hkc] at hk
                            have hnoc : c ∉ tk.children := by
                              intro hcon
                              have := hpb (k, tk) (findTask_some_mem hk) c hcon
                              unfold parentIdOf at this
                              rw [hf] at this
                              simp only [Option.map_some', Option.some.injEq] at this
                              exact hne (by rw [this])
                            rw [hcab2 tk.children hnoc]
                            exact hHC k tk hk (fun hcon => hkc (by injection hcon with hh; exact hh.symm))
                              hnonempty
                        have hHW2 : nc = false → ∀ c', tc.parentId = some c' →
                            ∀ tc', findTask (setTask m c { tc with completed := v }) c'
                              = some tc' →
                            childrenAllComplete (setTask m c { tc with completed := v })
                              tc'.children = false := by
                          intro hnc c' hpc tc' htc'
                          have hvfalse := hvnc hnc
                          have hmem := (hbr (c, tc) (findTask_some_mem hf)).2.1
                          rw [hpc] at hmem
                          have hcc' : findTask m c' = some tc' := by
                            rw [findTask_setTask] at htc'
                            by_cases hcc : c' = c
                            · exfalso
                              subst hcc
                              exact no_self_parent hf hpc hch
                            · rw [if_neg hcc] at htc'
                              exact htc'
                          rw [childMem_some c hcc'] at hmem
                          have hcin : c ∈ tc'.children := by
                            simpa [List.contains_iff_exists_mem_beq] using hmem
                          refine childrenAllComplete_false_of_mem hcin ?_
                          rw [completedAt_setTask, if_pos rfl]
                          show v = false
                          rw [← hv]
                          exact hvfalse
                        obtain ⟨m', hm', hci', hstr'⟩ := ih fuel nc _ tc.parentId g
                          (WFKeys_of_sameStruct hstr hwf)
                          (RefIntegrity_of_sameStruct hstr hri)
                          (BackRef_of_sameStruct hstr hbr)
                          (by rw [sameStruct_chainList hstr]; exact hcp)
                          (by simpa using hfuel) hHC2 hHW2
                        exact ⟨m', hm', hci', sameStruct_trans hstr hstr'⟩
                      by_cases hnc : nc
                      · cases b with
                        | true =>
                            obtain ⟨m', hm', hci', hstr'⟩ := step true hcab
                              (fun hcon => absurd hnc (by rw [hcon]; simp))
                            refine ⟨m', ?_, hci', hstr'⟩
                            simp only [toggleUp, hf, hav, if_pos hnc]
                            exact hm'
                        | false =>
                            by_cases ht : tc.completed
                            · obtain ⟨m', hm', hci', hstr'⟩ := step false hcab
                                (fun _ => hcab)
                              refine ⟨m', ?_, hci', hstr'⟩
                              simp only [toggleUp, hf, hav, if_pos hnc, if_pos ht]
                              exact hm'
                            · refine ⟨m, ?_, ?_, sameStruct_refl m⟩
                              · simp only [toggleUp, hf, hav, if_pos hnc, if_neg ht]
                              · refine CompletionInv_of_find ?_ hwf.1
                                intro k tk hk hne
                                by_cases hkc : k = c
                                · subst hkc
                                  rw [hf] at hk
                                  cases hk
                                  rw [hcab]
                                  simpa using ht
                                · exact hHC k tk hk
                                    (fun hcon => hkc (by injection hcon with hh; exact hh.symm)) hne
                      · by_cases ht : tc.completed
                        · have hnc' : nc = false := by
                            cases nc
                            · rfl
                            · exact absurd rfl hnc
                          obtain ⟨m', hm', hci', hstr'⟩ := step false
                            (hHW hnc' c rfl tc hf) (fun _ => hHW hnc' c rfl tc hf)
                          refine ⟨m', ?_, hci', hstr'⟩
                          simp only [toggleUp, hf, if_neg hnc, if_pos ht]
                          exact hm'
                        · have hnc' : nc = false := by
                            cases nc
                            · rfl
                            · exact absurd rfl hnc
                          refine ⟨m, ?_, ?_, sameStruct_refl m⟩
                          · simp only [toggleUp, hf, if_neg hnc, if_neg ht]
                          · refine CompletionInv_of_find ?_ hwf.1
                            intro k tk hk hne
                            by_cases hkc : k = c
                            · subst hkc
                              rw [hf] at hk
                              cases hk
                              rw [hHW hnc' k rfl tc hf]
                              simpa using ht
                            · exact hHC k tk hk
                                (fun hcon => hkc (by injection hcon with hh; exact hh.symm)) hne

/-- The upward pass of `toggleTask` touches only tasks on the parent chain it
walks. -/
theorem toggleUp_frame_chain :
    ∀ (l : List String) (fuel : Nat) (nc : Bool) (m : TaskMap)
      (o : Option String) (g : Nat) (m' : TaskMap),
      chainList g m o = some l → toggleUp fuel nc m o = some m' →
      ∀ k ∉ l, findTask m' k = findTask m k := by
  intro l
  induction l with
  | nil =>
      intro fuel nc m o g m' hc h k _
      cases o with
      | none => cases fuel <;> cases h <;> rfl
      | some c =>
          cases g with
          | zero => exact absurd hc (by simp [chainList])
          | succ g => obtain ⟨_, _, _, _, heq⟩ := chainList_some_cons hc; cases heq
  | cons k0 l1 ih =>
      intro fuel nc m o g m' hc h k hk
      cases o with
      | none => rw [chainList_none] at hc; cases hc
      | some currId =>
          cases g with
          | zero => exact absurd hc (by simp [chainList])
          | succ g =>
              obtain ⟨t, l2, hf, hcp, heq⟩ := chainList_some_cons hc
              injection heq with hk12 hl12
              subst hk12
              subst hl12
              cases fuel with
              | zero => exact Option.noConfusion h
              | succ fuel =>
                  have hne : k ≠ k0 := fun hcon =>
                    hk (hcon ▸ List.mem_cons_self k0 l1)
                  have hk1 : k ∉ l1 := fun hcon => hk (List.mem_cons_of_mem k0 hcon)
                  have step : ∀ (v : Bool),
                      toggleUp fuel nc (setTask m k0 { t with completed := v })
                          t.parentId = some m' →
                      findTask m' k = findTask m k := by
                    intro v hrec
                    have hstr : sameStruct m (setTask m k0 { t with completed := v }) :=
                      sameStruct_setTask hf rfl
                    have hcp' : chainList g (setTask m k0 { t with completed := v })
                        t.parentId = some l1 := by
                      rw [sameStruct_chainList hstr]; exact hcp
                    have := ih fuel nc _ t.parentId g m' hcp' hrec k hk1
                    rw [this, findTask_setTask_ne _ _ _ _ hne]
                  simp only [toggleUp, hf] at h
                  cases hav : allComplete m t.children with
                  | none =>
                      rw [hav] at h
                      by_cases hnc : nc
                      · rw [if_pos hnc] at h; exact Option.noConfusion h
                      · rw [if_neg hnc] at h
                        by_cases hcmp : t.completed
                        · rw [if_pos hcmp] at h
                          exact step false h
                        · rw [if_neg hcmp] at h
                          cases h
                          rfl
                  | some b =>
                      rw [hav] at h
                      by_cases hnc : nc
                      · rw [if_pos hnc] at h
                        cases b with
                        | true => exact step true h
                        | false =>
                            by_cases hcmp : t.completed
                            · rw [if_pos hcmp] at h
                              exact step false h
                            · rw [if_neg hcmp] at h
                              cases h
                              rfl
                      · rw [if_neg hnc] at h
                        by_cases hcmp : t.completed
                        · rw [if_pos hcmp] at h
                          exact step false h
                        · rw [if_neg hcmp] at h
                          cases h
                          rfl

/-- Master specification of a successful `toggleTask` under the invariants:
the operation succeeds, preserves every invariant, forces the whole subtree
to the negated flag, and touches nothing outside the subtree and the parent
chain. -/
theorem toggleTask_spec (s : AppState) (taskId : String) (task : Task)
    (hInv : Inv s) (ht : findTask s.tasks taskId = some task) :
    ∃ s' lanc g, toggleTask s taskId = some s'
      ∧ Inv s'
      ∧ s'.rootTaskIds = s.rootTaskIds
      ∧ sameStruct s.tasks s'.tasks
      ∧ chainList g s.tasks task.parentId = some lanc
      ∧ (∀ x, IsDesc s.tasks taskId x → ∀ tx, findTask s.tasks x = some tx →
          findTask s'.tasks x = some { tx with completed := !task.completed })
      ∧ (∀ x, ¬ IsDesc s.tasks taskId x → x ∉ lanc →
          findTask s'.tasks x = findTask s.tasks x) := by
  obtain ⟨hwf, hri, hbr, hac, hci, hrs⟩ := hInv
  have hchain : (chainList (s.tasks.length + 1) s.tasks (some taskId)).isSome :=
    hac (taskId, task) (findTask_some_mem ht)
  cases hch : chainList (s.tasks.length + 1) s.tasks (some taskId) with
  | none => rw [hch] at hchain; simp at hchain
  | some L =>
      obtain ⟨task2, Lp, hf2, hcp, rfl⟩ := chainList_some_cons hch
      rw [ht] at hf2
      cases hf2
      have hLlen : (taskId :: Lp).length ≤ s.tasks.length := chainList_length_le hch
      obtain ⟨m1, hupd, hstr1, hforce1, hcomp1, hframe1⟩ :=
        updateDescendants_spec (s.tasks.length + 1) s.tasks taskId (!task.completed)
          (taskId :: Lp) (s.tasks.length + 1) hbr hch (by simp; omega)
      have hm1len : m1.length = s.tasks.length := sameStruct_length hstr1
      have hcpStd : chainList (s.tasks.length + 1) s.tasks task.parentId = some Lp :=
        chainList_std_fuel hcp
      have hcp1 : chainList (s.tasks.length + 1) m1 task.parentId = some Lp := by
        rw [sameStruct_chainList hstr1]
        exact hcpStd
      have hanc : ∀ a ∈ Lp, ¬ IsDesc s.tasks taskId a := anc_not_desc hbr hch
      have hpnotdesc : ∀ c', task.parentId = some c' → ¬ IsDesc s.tasks taskId c' := by
        intro c' hc' hd
        cases hpc : task.parentId with
        | none => rw [hpc] at hc'; cases hc'
        | some p0 =>
            rw [hpc] at hc'
            injection hc' with he
            subst he
            exact parent_not_desc hbr ht hpc hch hd
      -- the completion invariant holds in m1 except possibly at the parent
      have hHC : ∀ (k : String) (tk : Task), findTask m1 k = some tk →
          task.parentId ≠ some k → tk.children ≠ [] →
          tk.completed = childrenAllComplete m1 tk.children := by
        intro k tk hk hne hnonempty
        by_cases hdesc : IsDesc s.tasks taskId k
        · cases hk0 : findTask s.tasks k with
          | none =>
              have := hframe1 k
              rcases hforce1 k with hsame | ⟨t0, hm0, _⟩
              · rw [hk0] at hsame; rw [hsame] at hk; cases hk
              · rw [hk0] at hm0; cases hm0
          | some tk0 =>
              have hforced := hcomp1 k hdesc tk0 hk0
              rw [hforced] at hk
              cases hk
              have hchk : ∀ c ∈ tk0.children, completedAt m1 c = !task.completed := by
                intro c hcc
                have hcdesc : IsDesc s.tasks taskId c :=
                  IsDesc.child hdesc hk0 hcc
                have hcis := (hri (k, tk0) (findTask_some_mem hk0)).1 c hcc
                cases hfc : findTask s.tasks c with
                | none => rw [hfc] at hcis; simp at hcis
                | some tcc =>
                    have := hcomp1 c hcdesc tcc hfc
                    rw [completedAt_some this]
              show (!task.completed) = childrenAllComplete m1 tk0.children
              cases hv : !task.completed with
              | true =>
                  rw [childrenAllComplete_eq_all]
                  have : ∀ c ∈ tk0.children, completedAt m1 c = true := by
                    intro c hcc
                    rw [hchk c hcc, hv]
                  exact (List.all_eq_true.mpr this).symm
              | false =>
                  cases hcs : tk0.children with
                  | nil =>
                      exfalso
                      exact hnonempty (by simpa using hcs)
                  | cons c0 cs =>
                      have hc0 : completedAt m1 c0 = false := by
                        have := hchk c0 (by rw [hcs]; exact List.mem_cons_self c0 cs)
                        rw [this, hv]
                      rw [← hcs]
                      exact (childrenAllComplete_false_of_mem
                        (by rw [hcs]; exact List.mem_cons_self c0 cs) hc0).symm
        · have hsame := hframe1 k hdesc
          rw [hsame] at hk
          have horig := hci (k, tk) (findTask_some_mem hk) hnonempty
          rw [horig]
          refine (childrenAllComplete_congr ?_).symm
          intro c hcc
          unfold completedAt
          have hcnotdesc : ¬ IsDesc s.tasks taskId c := by
            intro hcd
            cases hcd with
            | refl =>
                -- c = taskId : then k is taskId's parent, contradicting hne
                have := Pointback_of_BackRef hbr (k, tk) (findTask_some_mem hk)
                  taskId hcc
                unfold parentIdOf at this
                rw [ht] at this
                simp only [Option.map_some', Option.some.injEq] at this
                exact hne (by rw [this])
            | child hp hfp hcp2 =>
                -- c's unique parent is both k and a subtree node
                have heqk := Pointback_unique_parent (Pointback_of_BackRef hbr)
                  hk hfp hcc hcp2
                exact hdesc (heqk ▸ hp)
          rw [hframe1 c hcnotdesc]
      have hHW : (!task.completed) = false → ∀ c', task.parentId = some c' →
          ∀ tc', findTask m1 c' = some tc' →
          childrenAllComplete m1 tc'.children = false := by
        intro hv c' hpc tc' htc'
        have hpnd := hpnotdesc c' hpc
        have hsame := hframe1 c' hpnd
        rw [hsame] at htc'
        have hmem := (hbr (taskId, task) (findTask_some_mem ht)).2.1
        rw [hpc, childMem_some taskId htc'] at hmem
        have htin : taskId ∈ tc'.children := by
          simpa [List.contains_iff_exists_mem_beq] using hmem
        refine childrenAllComplete_false_of_mem htin ?_
        have := hcomp1 taskId IsDesc.refl task ht
        rw [completedAt_some this, hv]
      obtain ⟨m2, htog, hci2, hstr2⟩ := toggleUp_completion Lp (m1.length + 1)
        (!task.completed) m1 task.parentId (s.tasks.length + 1)
        (WFKeys_of_sameStruct hstr1 hwf) (RefIntegrity_of_sameStruct hstr1 hri)
        (BackRef_of_sameStruct hstr1 hbr) hcp1
        (by simp at hLlen ⊢; omega) hHC hHW
      have hstr12 : sameStruct s.tasks m2 := sameStruct_trans hstr1 hstr2
      refine ⟨{ s with tasks := m2 }, Lp, s.tasks.length + 1, ?_, ?_, rfl, hstr12,
        hcpStd, ?_, ?_⟩
      · rw [hm1len] at htog
        simp only [toggleTask, ht, toggleTaskAux, hupd, Option.some_bind, hm1len,
          htog, Option.map_some']
      · exact ⟨WFKeys_of_sameStruct hstr12 hwf,
          RefIntegrity_of_sameStruct hstr12 hri,
          BackRef_of_sameStruct hstr12 hbr,
          Acyclic_of_sameStruct hstr12 hac, hci2,
          RootSet_of_sameStruct hstr12 hrs⟩
      · intro x hdx tx htx
        have hm1x := hcomp1 x hdx tx htx
        have hxnot : x ∉ Lp := fun hcon => hanc x hcon hdx
        have := toggleUp_frame_chain Lp (m1.length + 1) (!task.completed) m1
          task.parentId (s.tasks.length + 1) m2 hcp1 htog x hxnot
        show findTask m2 x = some { tx with completed := !task.completed }
        rw [this]
        exact hm1x
      · intro x hnd hnl
        have h1 := hframe1 x hnd
        have := toggleUp_frame_chain Lp (m1.length + 1) (!task.completed) m1
          task.parentId (s.tasks.length + 1) m2 hcp1 htog x hnl
        show findTask m2 x = findTask s.tasks x
        rw [this, h1]

theorem IsDesc_findTask_isSome {m : TaskMap} (hri : RefIntegrity m)
    {r x : String} (hd : IsDesc m r x) (hr : (findTask m r).isSome) :
    (findTask m x).isSome := by
  induction hd with
  | refl => exact hr
  | child hp hf hc ih => exact (hri (_, _) (findTask_some_mem hf)).1 _ hc

/-! ## Claim C2 — downward force correctness -/

/-- C2: after `toggleTask(id)` flips the task's flag to `v = !completed`, the
task itself and every descendant carries `completed = v`. -/
theorem C2_toggle_forces_descendants (s : AppState) (taskId : String)
    (task : Task) (hInv : Inv s) (ht : findTask s.tasks taskId = some task) :
    ∃ s', toggleTask s taskId = some s'
      ∧ ∀ x, IsDesc s.tasks taskId x →
          (findTask s'.tasks x).map Task.completed = some (!task.completed) := by
  obtain ⟨s', lanc, g, heq, hInv', hroot, hstr, hch, hforce, hframe⟩ :=
    toggleTask_spec s taskId task hInv ht
  refine ⟨s', heq, ?_⟩
  intro x hdx
  have hsome : (findTask s.tasks x).isSome :=
    IsDesc_findTask_isSome hInv.2.1 hdx (by rw [ht]; rfl)
  cases hfx : findTask s.tasks x with
  | none => rw [hfx] at hsome; simp at hsome
  | some tx =>
      rw [hforce x hdx tx hfx]
      rfl

/-- Witness for C2: toggling the root of the concrete three-task forest
forces the root and both leaves to `true`. -/
theorem C2_toggle_forces_descendants_witness :
    Inv ⟨[("r", ⟨"r", "R", "", false, ["a", "b"], none, 0⟩),
          ("a", ⟨"a", "A", "", false, [], some "r", 1⟩),
          ("b", ⟨"b", "B", "", true, [], some "r", 2⟩)], ["r"]⟩
      ∧ findTask [("r", ⟨"r", "R", "", false, ["a", "b"], none, 0⟩),
          ("a", ⟨"a", "A", "", false, [], some "r", 1⟩),
          ("b", ⟨"b", "B", "", true, [], some "r", 2⟩)] "r"
          = some ⟨"r", "R", "", false, ["a", "b"], none, 0⟩
      ∧ ∃ s', toggleTask ⟨[("r", ⟨"r", "R", "", false, ["a", "b"], none, 0⟩),
            ("a", ⟨"a", "A", "", false, [], some "r", 1⟩),
            ("b", ⟨"b", "B", "", true, [], some "r", 2⟩)], ["r"]⟩ "r" = some s'
          ∧ ∀ x, IsDesc [("r", ⟨"r", "R", "", false, ["a", "b"], none, 0⟩),
              ("a", ⟨"a", "A", "", false, [], some "r", 1⟩),
              ("b", ⟨"b", "B", "", true, [], some "r", 2⟩)] "r" x →
              (findTask s'.tasks x).map Task.completed
                = some (!(⟨"r", "R", "", false, ["a", "b"], none, 0⟩ : Task).completed) :=
  ⟨by decide, by decide,
   C2_toggle_forces_descendants
     ⟨[("r", ⟨"r", "R", "", false, ["a", "b"], none, 0⟩),
       ("a", ⟨"a", "A", "", false, [], some "r", 1⟩),
       ("b", ⟨"b", "B", "", true, [], some "r", 2⟩)], ["r"]⟩ "r"
     ⟨"r", "R", "", false, ["a", "b"], none, 0⟩ (by decide) (by decide)⟩

theorem exists_incomplete_of_not_all {m : TaskMap} {cs : List String}
    (h : childrenAllComplete m cs = false) :
    ∃ w ∈ cs, completedAt m w = false := by
  rw [childrenAllComplete_eq_all] at h
  induction cs with
  | nil => simp [List.all_nil] at h
  | cons c cs ih =>
      rw [List.all_cons] at h
      cases hc : completedAt m c with
      | false => exact ⟨c, List.mem_cons_self c cs, hc⟩
      | true =>
          rw [hc, Bool.true_and] at h
          obtain ⟨w, hw, hwc⟩ := ih h
          exact ⟨w, List.mem_cons_of_mem c hw, hwc⟩

/-- Completion-invariant restoration by the promotion loop of `deleteTask`,
relative to the pre-loop store `m1` (children already filtered): if `m1`
satisfies the invariant everywhere except possibly at `pid`, the walk is on a
chain avoiding `pid`... wait, the walk STARTS at `pid`; this lemma covers the
loop from its second node on, the caller handling the first step. -/
theorem promoteUp_completion (m1 : TaskMap) (pid : String) :
    ∀ (l : List String) (fuel : Nat) (m : TaskMap) (o : Option String) (g : Nat),
      WFKeys m1 → RefIntegrity m1 → Pointback m1 →
      sameStruct m1 m →
      chainList g m o = some l →
      pid ∉ l →
      l.length < fuel →
      (∀ (k : String) (tk : Task), findTask m1 k = some tk → k ≠ pid →
        tk.children ≠ [] → tk.completed = childrenAllComplete m1 tk.children) →
      (∀ x ∈ l, findTask m x = findTask m1 x) →
      (∀ k, findTask m k = findTask m1 k
        ∨ ∃ tk1, findTask m1 k = some tk1
            ∧ findTask m k = some { tk1 with completed := true }) →
      (∀ (k : String) (tk : Task), findTask m k = some tk → o ≠ some k →
        tk.children ≠ [] → tk.completed = childrenAllComplete m tk.children) →
      ∃ m', promoteUp fuel m o = some m' ∧ CompletionInv m' ∧ sameStruct m1 m' := by
  intro l
  induction l with
  | nil =>
      intro fuel m o g hwf1 _ _ hstr hch _ _ _ _ _ hHC
      cases o with
      | none =>
          refine ⟨m, by cases fuel <;> rfl, ?_, hstr⟩
          exact CompletionInv_of_find
            (fun k tk hk hne => hHC k tk hk (by simp) hne)
            (WFKeys_of_sameStruct hstr hwf1).1
      | some k =>
          cases g with
          | zero => exact absurd hch (by simp [chainList])
          | succ g => obtain ⟨_, _, _, _, h⟩ := chainList_some_cons hch; cases h
  | cons c l1 ih =>
      intro fuel m o g hwf1 hri1 hpb1 hstr hch hpidl hfuel hM1 huntouched hpromo hHC
      cases o with
      | none => rw [chainList_none] at hch; cases hch
      | some c0 =>
          cases g with
          | zero => exact absurd hch (by simp [chainList])
          | succ g =>
              obtain ⟨tc, l2, hf, hcp, heq⟩ := chainList_some_cons hch
              injection heq with hk12 hl12
              subst hk12
              subst hl12
              cases fuel with
              | zero => simp at hfuel
              | succ fuel =>
                  have hcpid : c ≠ pid := fun hcon =>
                    hpidl (hcon ▸ List.mem_cons_self c l1)
                  have hnd := chainList_nodup (g + 1) (some c) _ hch
                  have hcnotl1 : c ∉ l1 := (List.nodup_cons.mp hnd).1
                  have hri : RefIntegrity m := RefIntegrity_of_sameStruct hstr hri1
                  have hpb : Pointback m := Pointback_of_sameStruct hstr hpb1
                  have hkids : ∀ x ∈ tc.children, (findTask m x).isSome :=
                    (hri (c, tc) (findTask_some_mem hf)).1
                  have hacs := allComplete_isSome hkids
                  have hnotself : c ∉ tc.children := fun hcon =>
                    no_self_child hpb hf hcon hch
                  cases hav : allComplete m tc.children with
                  | none => rw [hav] at hacs; simp at hacs
                  | some b =>
                      have hcab := allComplete_eq_childrenAllComplete tc.children b hav
                      cases b with
                      | false =>
                          refine ⟨m, ?_, ?_, hstr⟩
                          · simp only [promoteUp, hf, hav]
                          · refine CompletionInv_of_find ?_
                              (WFKeys_of_sameStruct hstr hwf1).1
                            intro k tk hk hne
                            by_cases hkc : k = c
                            · subst hkc
                              rw [hf] at hk
                              cases hk
                              rw [hcab]
                              -- tk is untouched, so its m1 record is the same
                              have hm1c := huntouched k (List.mem_cons_self k l1)
                              rw [hf] at hm1c
                              obtain ⟨w, hw, hwc⟩ := exists_incomplete_of_not_all hcab
                              have hwc1 : completedAt m1 w = false := by
                                rcases hpromo w with hsame | ⟨tw1, hw1, hw2⟩
                                · unfold completedAt
                                  rw [← hsame]
                                  unfold completedAt at hwc
                                  exact hwc
                                · rw [completedAt_some hw2] at hwc
                                  simp at hwc
                              have hall1 : childrenAllComplete m1 tc.children = false :=
                                childrenAllComplete_false_of_mem hw hwc1
                              have := hM1 k tc hm1c.symm hcpid
                                (fun hcon => by rw [hcon] at hw; simp at hw)
                              rw [this, hall1]
                            · exact hHC k tk hk
                                (fun hcon => hkc (by injection hcon with hh; exact hh.symm))
                                hne
                      | true =>
                          have hstr2 : sameStruct m (setTask m c { tc with completed := true }) :=
                            sameStruct_setTask hf rfl
                          have hcp2 : chainList g (setTask m c { tc with completed := true })
                              tc.parentId = some l1 := by
                            rw [sameStruct_chainList hstr2]
                            exact hcp
                          have huntouched2 : ∀ x ∈ l1,
                              findTask (setTask m c { tc with completed := true }) x
                                = findTask m1 x := by
                            intro x hx
                            have hxc : x ≠ c := fun hcon => hcnotl1 (hcon ▸ hx)
                            rw [findTask_setTask_ne _ _ _ _ hxc]
                            exact huntouched x (List.mem_cons_of_mem c hx)
                          have hpromo2 : ∀ k,
                              findTask (setTask m c { tc with completed := true }) k
                                = findTask m1 k
                              ∨ ∃ tk1, findTask m1 k = some tk1
                                  ∧ findTask (setTask m c { tc with completed := true }) k
                                    = some { tk1 with completed := true } := by
                            intro k
                            by_cases hkc : k = c
                            · subst hkc
                              have hm1c := huntouched k (List.mem_cons_self k l1)
                              rw [hf] at hm1c
                              refine Or.inr ⟨tc, hm1c.symm, ?_⟩
                              rw [findTask_setTask_self]
                            · rw [findTask_setTask_ne _ _ _ _ hkc]
                              exact hpromo k
                          have hHC2 : ∀ (k : String) (tk : Task),
                              findTask (setTask m c { tc with completed := true }) k
                                = some tk →
                              tc.parentId ≠ some k → tk.children ≠ [] →
                              tk.completed = childrenAllComplete
                                (setTask m c { tc with completed := true }) tk.children := by
                            intro k tk hk hne hnonempty
                            have hcab2 : ∀ cs : List String, c ∉ cs →
                                childrenAllComplete (setTask m c { tc with completed := true }) cs
                                  = childrenAllComplete m cs := by
                              intro cs hcs
                              refine childrenAllComplete_congr ?_
                              intro x hx
                              rw [completedAt_setTask]
                              have hxc : ¬ x = c := fun hcon => hcs (hcon ▸ hx)
                              rw [if_neg hxc]
                            rw [findTask_setTask] at hk
                            by_cases hkc : k = c
                            · rw [if_pos hkc] at hk
                              cases hk
                              subst hkc
                              rw [hcab2 tc.children hnotself, hcab]
                            · rw [if_neg hkc] at hk
                              have hnoc : c ∉ tk.children := by
                                intro hcon
                                have := hpb (k, tk) (findTask_some_mem hk) c hcon
                                unfold parentIdOf at this
                                rw [hf] at this
                                simp only [Option.map_some', Option.some.injEq] at this
                                exact hne (by rw [this])
                              rw [hcab2 tk.children hnoc]
                              exact hHC k tk hk
                                (fun hcon => hkc (by injection hcon with hh; exact hh.symm))
                                hnonempty
                          obtain ⟨m', hm', hci', hstr'⟩ := ih fuel _ tc.parentId g
                            hwf1 hri1 hpb1 (sameStruct_trans hstr hstr2) hcp2
                            (fun hcon => hpidl (List.mem_cons_of_mem c hcon))
                            (by simpa using hfuel) hM1 huntouched2 hpromo2 hHC2
                          refine ⟨m', ?_, hci', hstr'⟩
                          simp only [promoteUp, hf, hav]
                          exact hm'

theorem keys_eraseTask (m : TaskMap) (k : String) :
    keys (eraseTask m k) = (keys m).filter (fun x => x ≠ k) := by
  induction m with
  | nil => rfl
  | cons p rest ih =>
      obtain ⟨k0, t0⟩ := p
      simp only [ne_eq, decide_not, keys] at ih
      by_cases h : k = k0
      · subst h
        simp [eraseTask, keys, ih, List.filter_cons, ne_eq, decide_not]
      · simp [eraseTask, keys, ih, List.filter_cons, h, Ne.symm h, ne_eq, decide_not]

theorem nodup_keys_eraseTask {m : TaskMap} (h : (keys m).Nodup) (k : String) :
    (keys (eraseTask m k)).Nodup := by
  rw [keys_eraseTask]
  exact h.filter _

theorem nodup_keys_foldl_erase {out : List String} :
    ∀ {m : TaskMap}, (keys m).Nodup →
      (keys (out.foldl (fun mm i => eraseTask mm i) m)).Nodup := by
  induction out with
  | nil => intro m h; exact h
  | cons i out ih =>
      intro m h
      rw [List.foldl_cons]
      exact ih (nodup_keys_eraseTask h i)

theorem mem_eraseTask_sub {m : TaskMap} {k : String} {p : String × Task}
    (h : p ∈ eraseTask m k) : p ∈ m := by
  induction m with
  | nil => simp [eraseTask] at h
  | cons q rest ih =>
      obtain ⟨k0, t0⟩ := q
      by_cases hk : k = k0
      · subst hk
        rw [eraseTask, if_pos rfl] at h
        exact List.mem_cons_of_mem _ (ih h)
      · rw [eraseTask, if_neg hk] at h
        rcases List.mem_cons.mp h with rfl | hrest
        · exact List.mem_cons_self _ _
        · exact List.mem_cons_of_mem _ (ih hrest)

theorem mem_foldl_erase_sub {out : List String} :
    ∀ {m : TaskMap} {p : String × Task},
      p ∈ out.foldl (fun mm i => eraseTask mm i) m → p ∈ m := by
  induction out with
  | nil => intro m p h; exact h
  | cons i out ih =>
      intro m p h
      rw [List.foldl_cons] at h
      exact mem_eraseTask_sub (ih h)

/-- Every element of a task's parent chain is an ancestor: the task lies in
that element's subtree. -/
theorem chain_mem_IsDesc {m : TaskMap} (hbr : BackRef m) :
    ∀ (g : Nat) (k : String) (l : List String),
      chainList g m (some k) = some l → ∀ a ∈ l, IsDesc m a k := by
  intro g
  induction g with
  | zero => intro k l h; exact absurd h (by simp [chainList])
  | succ g ih =>
      intro k l h a ha
      obtain ⟨t, l1, hf, hcp, rfl⟩ := chainList_some_cons h
      rcases List.mem_cons.mp ha with rfl | ha1
      · exact IsDesc.refl
      · cases hpid : t.parentId with
        | none =>
            rw [hpid, chainList_none] at hcp
            cases hcp
            simp at ha1
        | some q =>
            rw [hpid] at hcp
            cases g with
            | zero => exact absurd hcp (by simp [chainList])
            | succ g2 =>
                obtain ⟨tq, l2, hfq, _, rfl⟩ := chainList_some_cons hcp
                have hkq : IsDesc m a q := ih q (q :: l2) hcp a ha1
                have hmem := (hbr (k, t) (findTask_some_mem hf)).2.1
                rw [hpid, childMem_some k hfq] at hmem
                have hkin : k ∈ tq.children := by
                  simpa [List.contains_iff_exists_mem_beq] using hmem
                exact IsDesc.child hkq hfq hkin

/-- A chain survives into any store that agrees on the `parentId` of the
chain's own nodes. -/
theorem chainList_transfer_pointwise {m m' : TaskMap} :
    ∀ (g : Nat) (o : Option String) (l : List String),
      chainList g m o = some l →
      (∀ x ∈ l, parentIdOf m' x = parentIdOf m x) →
      chainList g m' o = some l := by
  intro g
  induction g with
  | zero =>
      intro o l h _
      cases o with
      | none => rw [chainList_none] at h ⊢; exact h
      | some k => exact absurd h (by simp [chainList])
  | succ g ih =>
      intro o l h hagree
      cases o with
      | none => rw [chainList_none] at h ⊢; exact h
      | some k =>
          obtain ⟨t, l1, hf, hcp, rfl⟩ := chainList_some_cons h
          have hk := hagree k (List.mem_cons_self k l1)
          unfold parentIdOf at hk
          rw [hf] at hk
          cases hfk : findTask m' k with
          | none => rw [hfk] at hk; simp at hk
          | some t' =>
              rw [hfk] at hk
              simp only [Option.map_some', Option.some.injEq] at hk
              have hcp' : chainList g m' t'.parentId = some l1 := by
                rw [hk]
                exact ih t.parentId l1 hcp
                  (fun x hx => hagree x (List.mem_cons_of_mem k hx))
              exact chainList_cons_of hfk hcp'

/-- The parent step of `deleteTask` (children filter plus promotion loop)
succeeds, restores the completion invariant, and alters only the parent's
`children` list and some `completed` flags. -/
theorem deleteParentStep_completion (s : AppState) (taskId : String) (t : Task)
    (hInv : Inv s) (ht : findTask s.tasks taskId = some t) :
    ∃ m2, deleteParentStep s.tasks taskId t = some m2
      ∧ CompletionInv m2
      ∧ Pointback m2
      ∧ (∀ x, parentIdOf m2 x = parentIdOf s.tasks x)
      ∧ keys m2 = keys s.tasks
      ∧ (∀ k tk2, findTask m2 k = some tk2 → ∃ tk0, findTask s.tasks k = some tk0
          ∧ tk2.id = tk0.id ∧ tk2.parentId = tk0.parentId
          ∧ ((t.parentId ≠ some k ∧ tk2.children = tk0.children)
              ∨ (t.parentId = some k
                  ∧ tk2.children
                      = tk0.children.filter (fun cid => cid != taskId)))) := by
  obtain ⟨hwf, hri, hbr, hac, hci, hrs⟩ := hInv
  cases hpid : t.parentId with
  | none =>
      refine ⟨s.tasks, by simp [deleteParentStep, hpid], hci,
        Pointback_of_BackRef hbr, fun x => rfl, rfl, ?_⟩
      intro k tk2 hk
      exact ⟨tk2, hk, rfl, rfl, Or.inl ⟨by simp, rfl⟩⟩
  | some pid =>
      have hpo := (hri (taskId, t) (findTask_some_mem ht)).2
      rw [parentOk_some hpid] at hpo
      cases hfp : findTask s.tasks pid with
      | none => rw [hfp] at hpo; simp at hpo
      | some parent =>
          have hid : parent.id = pid := id_of_WFKeys hwf hfp
          subst hid
          -- notation for the filtered record and store
          have hfind_m1 : ∀ x, findTask (setTask s.tasks parent.id
              { parent with
                children := parent.children.filter (fun cid => cid != taskId) }) x
              = if x = parent.id
                then some { parent with
                  children := parent.children.filter (fun cid => cid != taskId) }
                else findTask s.tasks x := fun x => findTask_setTask ..
          have hcompAt : ∀ x, completedAt (setTask s.tasks parent.id
              { parent with
                children := parent.children.filter (fun cid => cid != taskId) }) x
              = completedAt s.tasks x := by
            intro x
            rw [completedAt_setTask]
            by_cases hx : x = parent.id
            · subst hx
              rw [if_pos rfl, completedAt_some hfp]
            · rw [if_neg hx]
          have hpar_cong : ∀ x, parentIdOf (setTask s.tasks parent.id
              { parent with
                children := parent.children.filter (fun cid => cid != taskId) }) x
              = parentIdOf s.tasks x := by
            intro x
            rw [parentIdOf_setTask]
            by_cases hx : x = parent.id
            · subst hx
              rw [if_pos rfl]
              unfold parentIdOf
              rw [hfp]
              rfl
            · rw [if_neg hx]
          have hkeys1 : keys (setTask s.tasks parent.id
              { parent with
                children := parent.children.filter (fun cid => cid != taskId) })
              = keys s.tasks :=
            keys_setTask_of_mem _ _ _ (by rw [hfp]; rfl)
          have hm1len : (setTask s.tasks parent.id
              { parent with
                children := parent.children.filter (fun cid => cid != taskId) }).length
              = s.tasks.length :=
            length_setTask_of_mem _ _ _ (by rw [hfp]; rfl)
          have hwf1 : WFKeys (setTask s.tasks parent.id
              { parent with
                children := parent.children.filter (fun cid => cid != taskId) }) := by
            refine ⟨hkeys1 ▸ hwf.1, ?_⟩
            intro p hp
            rcases mem_setTask _ _ _ p hp with rfl | hpm
            · rfl
            · exact hwf.2 p hpm
          have hri1 : RefIntegrity (setTask s.tasks parent.id
              { parent with
                children := parent.children.filter (fun cid => cid != taskId) }) := by
            refine RefIntegrity_setTask_sub hri hfp ?_ rfl
            intro c hcc
            exact (List.mem_filter.mp hcc).1
          have hpb0 : Pointback s.tasks := Pointback_of_BackRef hbr
          have hpb1 : Pointback (setTask s.tasks parent.id
              { parent with
                children := parent.children.filter (fun cid => cid != taskId) }) := by
            intro p hp c hc
            rw [hpar_cong c]
            rcases mem_setTask _ _ _ p hp with rfl | hpm
            · exact hpb0 (parent.id, parent) (findTask_some_mem hfp) c
                (List.mem_filter.mp hc).1
            · exact hpb0 p hpm c hc
          have hM1 : ∀ (k : String) (tk : Task),
              findTask (setTask s.tasks parent.id
                { parent with
                  children := parent.children.filter (fun cid => cid != taskId) }) k
                = some tk →
              k ≠ parent.id → tk.children ≠ [] →
              tk.completed = childrenAllComplete (setTask s.tasks parent.id
                { parent with
                  children := parent.children.filter (fun cid => cid != taskId) })
                tk.children := by
            intro k tk hk hkp hne
            rw [hfind_m1 k, if_neg hkp] at hk
            have := hci (k, tk) (findTask_some_mem hk) hne
            rw [this]
            exact (childrenAllComplete_congr (fun c _ => hcompAt c)).symm
          have htin : taskId ∈ parent.children := by
            have hmem := (hbr (taskId, t) (findTask_some_mem ht)).2.1
            rw [hpid, childMem_some taskId hfp] at hmem
            simpa [List.contains_iff_exists_mem_beq] using hmem
          have hpchildne : parent.children ≠ [] := by
            intro hcon
            rw [hcon] at htin
            simp at htin
          -- the correspondence, shared by all sub-branches ending at m1
          have hcorr1 : ∀ k tk2, findTask (setTask s.tasks parent.id
              { parent with
                children := parent.children.filter (fun cid => cid != taskId) }) k
                = some tk2 →
              ∃ tk0, findTask s.tasks k = some tk0
                ∧ tk2.id = tk0.id ∧ tk2.parentId = tk0.parentId
                ∧ ((some parent.id ≠ some k ∧ tk2.children = tk0.children)
                    ∨ (some parent.id = some k
                        ∧ tk2.children
                            = tk0.children.filter (fun cid => cid != taskId))) := by
            intro k tk2 hk
            rw [hfind_m1 k] at hk
            by_cases hkp : k = parent.id
            · subst hkp
              rw [if_pos rfl] at hk
              cases hk
              exact ⟨parent, hfp, rfl, rfl, Or.inr ⟨rfl, rfl⟩⟩
            · rw [if_neg hkp] at hk
              exact ⟨tk2, hk, rfl, rfl, Or.inl
                ⟨fun hcon => hkp (by injection hcon with hh; exact hh.symm), rfl⟩⟩
          by_cases hempty :
              (parent.children.filter (fun cid => cid != taskId)).length > 0
          · have hkids1 : ∀ c ∈ parent.children.filter (fun cid => cid != taskId),
                (findTask (setTask s.tasks parent.id
                  { parent with
                    children := parent.children.filter (fun cid => cid != taskId) })
                  c).isSome := by
              intro c hcc
              have hc0 : c ∈ parent.children := (List.mem_filter.mp hcc).1
              have := (hri (parent.id, parent) (findTask_some_mem hfp)).1 c hc0
              rw [findTask_setTask]
              by_cases hx : c = parent.id <;> simp [hx, this]
            have hacs := allComplete_isSome hkids1
            cases hav : allComplete (setTask s.tasks parent.id
                { parent with
                  children := parent.children.filter (fun cid => cid != taskId) })
                (parent.children.filter (fun cid => cid != taskId)) with
            | none => rw [hav] at hacs; simp at hacs
            | some b =>
                have hcab := allComplete_eq_childrenAllComplete _ b hav
                cases b with
                | false =>
                    -- no promotion: m2 = m1, and the parent's flag is already
                    -- correct because some surviving child is incomplete
                    refine ⟨_, ?_, ?_, hpb1, hpar_cong, hkeys1, hcorr1⟩
                    · simp only [deleteParentStep, hpid, hfp]
                      rw [if_pos hempty, hav]
                    · refine CompletionInv_of_find ?_ hwf1.1
                      intro k tk hk hne
                      by_cases hkp : k = parent.id
                      · rw [hfind_m1 k, if_pos hkp] at hk
                        cases hk
                        subst hkp
                        show parent.completed = childrenAllComplete (setTask s.tasks parent.id { parent with children := parent.children.filter (fun cid => cid != taskId) }) (parent.children.filter (fun cid => cid != taskId))
                        obtain ⟨w, hw, hwc⟩ := exists_incomplete_of_not_all hcab
                        have hw0 : w ∈ parent.children := (List.mem_filter.mp hw).1
                        have hwc0 : completedAt s.tasks w = false := by
                          rw [← hcompAt w]
                          exact hwc
                        have hall0 : childrenAllComplete s.tasks parent.children
                            = false := childrenAllComplete_false_of_mem hw0 hwc0
                        have := hci (parent.id, parent) (findTask_some_mem hfp)
                          hpchildne
                        rw [hcab, this]
                        exact hall0
                      · exact hM1 k tk hk hkp hne
                | true =>
                    -- promotion runs; peel the first iteration, then use the
                    -- loop lemma
                    have hchainp : (chainList (s.tasks.length + 1) s.tasks
                        (some parent.id)).isSome :=
                      hac (parent.id, parent) (findTask_some_mem hfp)
                    cases hchp : chainList (s.tasks.length + 1) s.tasks
                        (some parent.id) with
                    | none => rw [hchp] at hchainp; simp at hchainp
                    | some Lpp =>
                        obtain ⟨parent2, lp, hfp2, hcpp, rfl⟩ :=
                          chainList_some_cons hchp
                        rw [hfp] at hfp2
                        cases hfp2
                        have hch1 : chainList (s.tasks.length + 1)
                            (setTask s.tasks parent.id
                              { parent with
                                children := parent.children.filter
                                  (fun cid => cid != taskId) })
                            (some parent.id) = some (parent.id :: lp) := by
                          rw [chainList_congr hpar_cong]
                          exact hchp
                        have hchA : chainList (s.tasks.length)
                            (setTask s.tasks parent.id
                              { parent with
                                children := parent.children.filter
                                  (fun cid => cid != taskId) })
                            parent.parentId = some lp := by
                          have := chainList_some_cons hch1
                          obtain ⟨pr2, lp2, hpr2, hcp2, heq2⟩ := this
                          rw [hfind_m1 parent.id, if_pos rfl] at hpr2
                          cases hpr2
                          injection heq2 with _ hl2
                          rw [← hl2] at hcp2
                          exact hcp2
                        have hnd1 := chainList_nodup (s.tasks.length + 1)
                          (some parent.id) _ hch1
                        have hpidlp : parent.id ∉ lp := (List.nodup_cons.mp hnd1).1
                        have hlplen : lp.length < s.tasks.length := by
                          have := chainList_length_le hch1
                          simp at this
                          omega
                        have hnotselfp :
                            parent.id ∉ parent.children.filter
                              (fun cid => cid != taskId) := by
                          intro hcon
                          exact no_self_child hpb1 (by rw [hfind_m1, if_pos rfl])
                            (by
                              show parent.id ∈ ({ parent with
                                children := parent.children.filter
                                  (fun cid => cid != taskId) } : Task).children
                              simpa using hcon) hch1
                        -- the store after the first promotion step
                        have hstrA : sameStruct
                            (setTask s.tasks parent.id
                              { parent with
                                children := parent.children.filter
                                  (fun cid => cid != taskId) })
                            (setTask (setTask s.tasks parent.id
                              { parent with
                                children := parent.children.filter
                                  (fun cid => cid != taskId) }) parent.id
                              { parent with
                                children := parent.children.filter
                                  (fun cid => cid != taskId),
                                completed := true }) := by
                          refine sameStruct_setTask (by rw [hfind_m1, if_pos rfl]) ?_
                          rfl
                        obtain ⟨m2, hprom, hci2, hstr2⟩ :=
                          promoteUp_completion
                            (setTask s.tasks parent.id
                              { parent with
                                children := parent.children.filter
                                  (fun cid => cid != taskId) })
                            parent.id lp (s.tasks.length)
                            (setTask (setTask s.tasks parent.id
                              { parent with
                                children := parent.children.filter
                                  (fun cid => cid != taskId) }) parent.id
                              { parent with
                                children := parent.children.filter
                                  (fun cid => cid != taskId),
                                completed := true })
                            parent.parentId (s.tasks.length)
                            hwf1 hri1 hpb1 hstrA
                            (by rw [sameStruct_chainList hstrA]; exact hchA)
                            hpidlp hlplen hM1
                            (by
                              intro x hx
                              have hxp : x ≠ parent.id := fun hcon =>
                                hpidlp (hcon ▸ hx)
                              rw [findTask_setTask_ne _ _ _ _ hxp])
                            (by
                              intro k
                              by_cases hkp : k = parent.id
                              · subst hkp
                                refine Or.inr ⟨{ parent with
                                  children := parent.children.filter
                                    (fun cid => cid != taskId) },
                                  by rw [hfind_m1, if_pos rfl], ?_⟩
                                rw [findTask_setTask_self]
                              · rw [findTask_setTask_ne _ _ _ _ hkp]
                                exact Or.inl rfl)
                            (by
                              intro k tk hk hne hnonempty
                              rw [findTask_setTask] at hk
                              by_cases hkp : k = parent.id
                              · rw [if_pos hkp] at hk
                                cases hk
                                subst hkp
                                show true = _
                                have : childrenAllComplete
                                    (setTask (setTask s.tasks parent.id
                                      { parent with
                                        children := parent.children.filter
                                          (fun cid => cid != taskId) }) parent.id
                                      { parent with
                                        children := parent.children.filter
                                          (fun cid => cid != taskId),
                                        completed := true })
                                    (parent.children.filter (fun cid => cid != taskId))
                                    = childrenAllComplete
                                      (setTask s.tasks parent.id
                                        { parent with
                                          children := parent.children.filter
                                            (fun cid => cid != taskId) })
                                      (parent.children.filter (fun cid => cid != taskId)) := by
                                  refine childrenAllComplete_congr ?_
                                  intro x hx
                                  rw [completedAt_setTask]
                                  have hxp : ¬ x = parent.id := fun hcon =>
                                    hnotselfp (hcon ▸ hx)
                                  rw [if_neg hxp]
                                rw [this, hcab]
                              · rw [if_neg hkp] at hk
                                have hnoc : parent.id ∉ tk.children := by
                                  intro hcon
                                  have := hpb1 (k, tk) (findTask_some_mem hk)
                                    parent.id hcon
                                  unfold parentIdOf at this
                                  rw [hfind_m1, if_pos rfl] at this
                                  simp only [Option.map_some', Option.some.injEq] at this
                                  exact hne (by
                                    show ({ parent with
                                      children := parent.children.filter
                                        (fun cid => cid != taskId) } : Task).parentId
                                      = some k
                                    rw [this])
                                have hcong : childrenAllComplete
                                    (setTask (setTask s.tasks parent.id
                                      { parent with
                                        children := parent.children.filter
                                          (fun cid => cid != taskId) }) parent.id
                                      { parent with
                                        children := parent.children.filter
                                          (fun cid => cid != taskId),
                                        completed := true })
                                    tk.children
                                    = childrenAllComplete
                                      (setTask s.tasks parent.id
                                        { parent with
                                          children := parent.children.filter
                                            (fun cid => cid != taskId) })
                                      tk.children := by
                                  refine childrenAllComplete_congr ?_
                                  intro x hx
                                  rw [completedAt_setTask]
                                  have hxp : ¬ x = parent.id := fun hcon =>
                                    hnoc (hcon ▸ hx)
                                  rw [if_neg hxp]
                                rw [hcong]
                                exact hM1 k tk hk hkp hnonempty)
                        refine ⟨m2, ?_, hci2, Pointback_of_sameStruct hstr2 hpb1, ?_, ?_, ?_⟩
                        · simp only [deleteParentStep, hpid, hfp]
                          rw [if_pos hempty, hav]
                          show promoteUp _ _ (some parent.id) = some m2
                          rw [hm1len]
                          have hunfold : promoteUp (s.tasks.length + 1)
                              (setTask s.tasks parent.id
                                { parent with
                                  children := parent.children.filter
                                    (fun cid => cid != taskId) })
                              (some parent.id)
                              = promoteUp (s.tasks.length)
                                (setTask (setTask s.tasks parent.id
                                  { parent with
                                    children := parent.children.filter
                                      (fun cid => cid != taskId) }) parent.id
                                  { parent with
                                    children := parent.children.filter
                                      (fun cid => cid != taskId),
                                    completed := true })
                                parent.parentId := by
                            simp only [promoteUp, findTask_setTask_self, hav]
                          rw [hunfold]
                          exact hprom
                        · intro x
                          rw [sameStruct_parentIdOf hstr2 x]
                          exact hpar_cong x
                        · rw [sameStruct_keys hstr2]
                          exact hkeys1
                        · intro k tk2 hk
                          obtain ⟨tkA, hkA, hstA⟩ :=
                            sameStruct_find_some (sameStruct_symm hstr2) hk
                          rw [findTask_setTask] at hkA
                          by_cases hkp : k = parent.id
                          · rw [if_pos hkp] at hkA
                            cases hkA
                            subst hkp
                            refine ⟨parent, hfp, ?_, ?_, Or.inr ⟨rfl, ?_⟩⟩
                            · rw [← stripC_id hstA]
                            · rw [← stripC_parentId hstA]
                            · rw [← stripC_children hstA]
                          · rw [if_neg hkp] at hkA
                            refine ⟨tkA, hkA, ?_, ?_, Or.inl
                              ⟨fun hcon => hkp
                                (by injection hcon with hh; exact hh.symm), ?_⟩⟩
                            · rw [← stripC_id hstA]
                            · rw [← stripC_parentId hstA]
                            · rw [← stripC_children hstA]
          · refine ⟨_, ?_, ?_, hpb1, hpar_cong, hkeys1, hcorr1⟩
            · simp only [deleteParentStep, hpid, hfp]
              rw [if_neg hempty]
            · refine CompletionInv_of_find ?_ hwf1.1
              intro k tk hk hne
              by_cases hkp : k = parent.id
              · rw [hfind_m1 k, if_pos hkp] at hk
                cases hk
                subst hkp
                exfalso
                have : (parent.children.filter (fun cid => cid != taskId)) = [] := by
                  cases hcc : parent.children.filter (fun cid => cid != taskId) with
                  | nil => rfl
                  | cons a b =>
                      exfalso
                      exact hempty (by rw [hcc]; simp)
                exact hne (by
                  show ({ parent with
                    children := parent.children.filter (fun cid => cid != taskId) }
                      : Task).children = []
                  simpa using this)
              · exact hM1 k tk hk hkp hne

/-- `deleteTask` on an existing task succeeds and the resulting state again
satisfies all §3 invariants. -/
theorem deleteTask_preserves_inv (s : AppState) (taskId : String) (t : Task)
    (hInv : Inv s) (ht : findTask s.tasks taskId = some t) :
    ∃ s', deleteTask s taskId = some s' ∧ Inv s' := by
  obtain ⟨out, m2, hcol, hstep, heq, hcomplete, hsound, _⟩ :=
    deleteTask_spec s taskId t hInv ht
  obtain ⟨m2', hstep', hci2, hpb2, hpar2, hkeys2, hcorr2⟩ :=
    deleteParentStep_completion s taskId t hInv ht
  rw [hstep] at hstep'
  cases hstep'
  obtain ⟨hwf, hri, hbr, hac, hci, hrs⟩ := hInv
  have hpb0 : Pointback s.tasks := Pointback_of_BackRef hbr
  have hfindf : ∀ k, findTask (out.foldl (fun mm i => eraseTask mm i) m2) k
      = if k ∈ out then none else findTask m2 k :=
    fun k => findTask_foldl_erase out m2 k
  have hsurv : ∀ k, k ∉ out →
      findTask (out.foldl (fun mm i => eraseTask mm i) m2) k
        = findTask m2 k := by
    intro k hk
    rw [hfindf k, if_neg hk]
  have htout : taskId ∈ out := hcomplete taskId IsDesc.refl
  have hndm2 : (keys m2).Nodup := by rw [hkeys2]; exact hwf.1
  have hndmf : (keys (out.foldl (fun mm i => eraseTask mm i) m2)).Nodup :=
    nodup_keys_foldl_erase hndm2
  -- each m2 record corresponds to an original record, its children a subset
  -- of the original's, without duplicates, and never listing the deleted id
  have hrec : ∀ k tk2, findTask m2 k = some tk2 →
      ∃ tk0, findTask s.tasks k = some tk0
        ∧ tk2.id = tk0.id ∧ tk2.parentId = tk0.parentId
        ∧ (∀ c ∈ tk2.children, c ∈ tk0.children)
        ∧ tk2.children.Nodup
        ∧ taskId ∉ tk2.children := by
    intro k tk2 hk
    obtain ⟨tk0, hk0, hide, hpe, hcd⟩ := hcorr2 k tk2 hk
    have hnd0 : tk0.children.Nodup := (hbr (k, tk0) (findTask_some_mem hk0)).2.2
    rcases hcd with ⟨hne, hceq⟩ | ⟨hpk, hceq⟩
    · refine ⟨tk0, hk0, hide, hpe, fun c hc => hceq ▸ hc, hceq ▸ hnd0, ?_⟩
      intro hctin
      rw [hceq] at hctin
      have := hpb0 (k, tk0) (findTask_some_mem hk0) taskId hctin
      unfold parentIdOf at this
      rw [ht] at this
      simp only [Option.map_some', Option.some.injEq] at this
      exact hne (by rw [this])
    · refine ⟨tk0, hk0, hide, hpe, ?_, hceq ▸ (hnd0.filter _), ?_⟩
      · intro c hc
        rw [hceq] at hc
        exact (List.mem_filter.mp hc).1
      · intro hctin
        rw [hceq] at hctin
        have := (List.mem_filter.mp hctin).2
        simp at this
  -- children of survivors survive
  have hclose : ∀ k tk2, findTask m2 k = some tk2 → k ∉ out →
      ∀ c ∈ tk2.children, c ∉ out := by
    intro k tk2 hk hkout c hc hcout
    obtain ⟨tk0, hk0, _, _, hsub, _, hnotin⟩ := hrec k tk2 hk
    cases hsound c hcout with
    | refl => exact hnotin hc
    | child hp hf hcm =>
        have := Pointback_unique_parent hpb0 hf hk0 hcm (hsub c hc)
        exact hkout (hcomplete k (this ▸ hp))
  have hmf_rec : ∀ p ∈ (out.foldl (fun mm i => eraseTask mm i) m2),
      findTask m2 p.1 = some p.2 ∧ p.1 ∉ out := by
    intro p hp
    have hpm2 : p ∈ m2 := mem_foldl_erase_sub hp
    have hfind2 : findTask m2 p.1 = some p.2 :=
      findTask_eq_of_mem_nodup hndm2 hpm2
    refine ⟨hfind2, ?_⟩
    intro hpo
    have := findTask_eq_of_mem_nodup hndmf hp
    rw [hfindf p.1, if_pos hpo] at this
    cases this
  refine ⟨⟨out.foldl (fun mm i => eraseTask mm i) m2,
    s.rootTaskIds.filter (fun i => i != taskId)⟩, heq, ?_, ?_, ?_, ?_, ?_, ?_⟩
  · -- key well-formedness
    refine ⟨hndmf, ?_⟩
    intro p hp
    obtain ⟨hfind2, hpout⟩ := hmf_rec p hp
    obtain ⟨tk0, hk0, hide, _, _, _, _⟩ := hrec p.1 p.2 hfind2
    rw [hide]
    exact id_of_WFKeys hwf hk0
  · -- referential integrity
    intro p hp
    obtain ⟨hfind2, hpout⟩ := hmf_rec p hp
    obtain ⟨tk0, hk0, _, hpe, hsub, _, _⟩ := hrec p.1 p.2 hfind2
    constructor
    · intro c hc
      have hcout : c ∉ out := hclose p.1 p.2 hfind2 hpout c hc
      rw [hsurv c hcout]
      have hc0 := (hri (p.1, tk0) (findTask_some_mem hk0)).1 c (hsub c hc)
      have hckeys : c ∈ keys s.tasks := (mem_keys_iff_findTask _ _).mpr hc0
      rw [← hkeys2] at hckeys
      exact (mem_keys_iff_findTask _ _).mp hckeys
    · cases hq : p.2.parentId with
      | none => exact parentOk_none hq
      | some q =>
          rw [parentOk_some hq]
          have hq0 : tk0.parentId = some q := by rw [← hpe, hq]
          have hpo := (hri (p.1, tk0) (findTask_some_mem hk0)).2
          rw [parentOk_some hq0] at hpo
          cases hfq : findTask s.tasks q with
          | none => rw [hfq] at hpo; simp at hpo
          | some tq0 =>
              have hmem := (hbr (p.1, tk0) (findTask_some_mem hk0)).2.1
              rw [hq0, childMem_some p.1 hfq] at hmem
              have hpin : p.1 ∈ tq0.children := by
                simpa [List.contains_iff_exists_mem_beq] using hmem
              have hqout : q ∉ out := fun hqo => hpout (hcomplete p.1
                (IsDesc.child (hsound q hqo) hfq hpin))
              rw [hsurv q hqout]
              have hqkeys : q ∈ keys s.tasks :=
                (mem_keys_iff_findTask _ _).mpr (by rw [hfq]; rfl)
              rw [← hkeys2] at hqkeys
              exact (mem_keys_iff_findTask _ _).mp hqkeys
  · -- back-reference consistency
    intro p hp
    obtain ⟨hfind2, hpout⟩ := hmf_rec p hp
    obtain ⟨tk0, hk0, _, hpe, hsub, hnd2, _⟩ := hrec p.1 p.2 hfind2
    refine ⟨?_, ?_, hnd2⟩
    · intro c hc
      have hcout : c ∉ out := hclose p.1 p.2 hfind2 hpout c hc
      have hthis := hpb2 (p.1, p.2) (mem_foldl_erase_sub hp) c hc
      unfold parentIdOf at hthis ⊢
      rw [hsurv c hcout]
      exact hthis
    · cases hq : p.2.parentId with
      | none =>
          show childMem _ none p.1 = true
          rfl
      | some q =>
          have hq0 : tk0.parentId = some q := by rw [← hpe, hq]
          have hpo := (hri (p.1, tk0) (findTask_some_mem hk0)).2
          rw [parentOk_some hq0] at hpo
          cases hfq : findTask s.tasks q with
          | none => rw [hfq] at hpo; simp at hpo
          | some tq0 =>
              have hmem := (hbr (p.1, tk0) (findTask_some_mem hk0)).2.1
              rw [hq0, childMem_some p.1 hfq] at hmem
              have hpin : p.1 ∈ tq0.children := by
                simpa [List.contains_iff_exists_mem_beq] using hmem
              have hqout : q ∉ out := fun hqo => hpout (hcomplete p.1
                (IsDesc.child (hsound q hqo) hfq hpin))
              have hqkeys : q ∈ keys m2 := by
                rw [hkeys2]
                exact (mem_keys_iff_findTask _ _).mpr (by rw [hfq]; rfl)
              have hq2s := (mem_keys_iff_findTask m2 q).mp hqkeys
              cases hfq2 : findTask m2 q with
              | none => rw [hfq2] at hq2s; simp at hq2s
              | some tq2 =>
                  have hfqf : findTask
                      (out.foldl (fun mm i => eraseTask mm i) m2) q
                      = some tq2 := by
                    rw [hsurv q hqout]
                    exact hfq2
                  rw [childMem_some p.1 hfqf]
                  obtain ⟨tq0b, hfq0b, _, _, hcdq⟩ := hcorr2 q tq2 hfq2
                  rw [hfq] at hfq0b
                  cases hfq0b
                  have hp1t : p.1 ≠ taskId := fun hcon => hpout (hcon ▸ htout)
                  have hpin2 : p.1 ∈ tq2.children := by
                    rcases hcdq with ⟨_, hceq⟩ | ⟨_, hceq⟩
                    · rw [hceq]
                      exact hpin
                    · rw [hceq]
                      exact List.mem_filter.mpr ⟨hpin, by simp [hp1t]⟩
                  simp only [List.contains_iff_exists_mem_beq]
                  exact ⟨p.1, hpin2, by simp⟩
  · -- acyclicity
    intro p hp
    obtain ⟨hfind2, hpout⟩ := hmf_rec p hp
    obtain ⟨tk0, hk0, _, _, _, _, _⟩ := hrec p.1 p.2 hfind2
    have hch0 := hac (p.1, tk0) (findTask_some_mem hk0)
    cases hch : chainList (s.tasks.length + 1) s.tasks (some p.1) with
    | none => rw [hch] at hch0; simp at hch0
    | some l =>
        have hlsurv : ∀ a ∈ l, a ∉ out := by
          intro a ha hao
          exact hpout (hcomplete p.1
            (IsDesc_trans (hsound a hao) (chain_mem_IsDesc hbr _ _ _ hch a ha)))
        have htrans : chainList (s.tasks.length + 1)
            (out.foldl (fun mm i => eraseTask mm i) m2) (some p.1)
            = some l := by
          refine chainList_transfer_pointwise _ _ _ hch ?_
          intro x hx
          have h1 : parentIdOf (out.foldl (fun mm i => eraseTask mm i) m2) x
              = parentIdOf m2 x := by
            unfold parentIdOf
            rw [hsurv x (hlsurv x hx)]
          rw [h1, hpar2 x]
        have hmin := chainList_min_fuel _ _ _ htrans
        have hlle : l.length
            ≤ (out.foldl (fun mm i => eraseTask mm i) m2).length :=
          chainList_length_le htrans
        have hfull := chainList_fuel_ge l.length
          ((out.foldl (fun mm i => eraseTask mm i) m2).length + 1) _ _
          (by omega) hmin
        rw [hfull]
        rfl
  · -- completion invariant
    intro p hp hne
    obtain ⟨hfind2, hpout⟩ := hmf_rec p hp
    have hthis := hci2 (p.1, p.2) (mem_foldl_erase_sub hp) hne
    rw [hthis]
    refine childrenAllComplete_congr ?_
    intro c hc
    unfold completedAt
    rw [hsurv c (hclose p.1 p.2 hfind2 hpout c hc)]
  · -- root-set consistency
    refine ⟨hrs.1.filter _, ?_, ?_⟩
    · intro r hr
      have hrmem := (List.mem_filter.mp hr).1
      have hrneq : r ≠ taskId := by
        have := (List.mem_filter.mp hr).2
        simpa using this
      have hroot := hrs.2.1 r hrmem
      have hrout : r ∉ out := by
        intro hro
        cases hsound r hro with
        | refl => exact hrneq rfl
        | child hp2 hf2 hcm2 =>
            have := hpb0 (_, _) (findTask_some_mem hf2) r hcm2
            rw [hroot] at this
            simp at this
      have h1 : parentIdOf (out.foldl (fun mm i => eraseTask mm i) m2) r
          = parentIdOf m2 r := by
        unfold parentIdOf
        rw [hsurv r hrout]
      rw [h1, hpar2 r, hroot]
    · intro p hp hpnone
      obtain ⟨hfind2, hpout⟩ := hmf_rec p hp
      obtain ⟨tk0, hk0, _, hpe, _, _, _⟩ := hrec p.1 p.2 hfind2
      have h0 : tk0.parentId = none := by rw [← hpe]; exact hpnone
      have hmem := hrs.2.2 (p.1, tk0) (findTask_some_mem hk0) h0
      refine List.mem_filter.mpr ⟨hmem, ?_⟩
      have hne : p.1 ≠ taskId := fun hcon => hpout (hcon ▸ htout)
      simpa using hne

/-- Completion-invariant restoration by the upward pass of `addTask`: if the
invariant holds everywhere except possibly at the walk's current task, and the
current task always has an incomplete child, the incomplete-propagation loop
ends in a store satisfying the full completion invariant. -/
theorem bubbleFalse_completion :
    ∀ (l : List String) (fuel : Nat) (m : TaskMap) (o : Option String) (g : Nat),
      WFKeys m → RefIntegrity m → BackRef m →
      chainList g m o = some l → l.length < fuel →
      (∀ (k : String) (tk : Task), findTask m k = some tk → o ≠ some k →
        tk.children ≠ [] → tk.completed = childrenAllComplete m tk.children) →
      (∀ c, o = some c → ∀ tc, findTask m c = some tc →
        childrenAllComplete m tc.children = false) →
      ∃ m', bubbleFalse fuel m o = some m' ∧ CompletionInv m' ∧ sameStruct m m' := by
  intro l
  induction l with
  | nil =>
      intro fuel m o g hwf _ _ hch _ hHC _
      cases o with
      | none =>
          refine ⟨m, by cases fuel <;> rfl, ?_, sameStruct_refl m⟩
          exact CompletionInv_of_find
            (fun k tk hk hne => hHC k tk hk (by simp) hne) hwf.1
      | some k =>
          cases g with
          | zero => exact absurd hch (by simp [chainList])
          | succ g => obtain ⟨_, _, _, _, h⟩ := chainList_some_cons hch; cases h
  | cons c l1 ih =>
      intro fuel m o g hwf hri hbr hch hfuel hHC hHW
      cases o with
      | none => rw [chainList_none] at hch; cases hch
      | some c0 =>
          cases g with
          | zero => exact absurd hch (by simp [chainList])
          | succ g =>
              obtain ⟨tc, l2, hf, hcp, heq⟩ := chainList_some_cons hch
              injection heq with hk12 hl12
              subst hk12
              subst hl12
              cases fuel with
              | zero => simp at hfuel
              | succ fuel =>
                  have hpb : Pointback m := Pointback_of_BackRef hbr
                  have hnotself : c ∉ tc.children := fun hcon =>
                    no_self_child hpb hf hcon hch
                  have hfalse := hHW c rfl tc hf
                  by_cases ht : tc.completed
                  · -- the flag is cleared and the walk moves up
                    have hstr : sameStruct m
                        (setTask m c { tc with completed := false }) :=
                      sameStruct_setTask hf rfl
                    have hcab2 : ∀ cs : List String, c ∉ cs →
                        childrenAllComplete
                            (setTask m c { tc with completed := false }) cs
                          = childrenAllComplete m cs := by
                      intro cs hcs
                      refine childrenAllComplete_congr ?_
                      intro x hx
                      rw [completedAt_setTask]
                      have hxc : ¬ x = c := fun hcon => hcs (hcon ▸ hx)
                      rw [if_neg hxc]
                    have hHC2 : ∀ (k : String) (tk : Task),
                        findTask (setTask m c { tc with completed := false }) k
                          = some tk →
                        tc.parentId ≠ some k → tk.children ≠ [] →
                        tk.completed = childrenAllComplete
                          (setTask m c { tc with completed := false })
                          tk.children := by
                      intro k tk hk hne hnonempty
                      rw [findTask_setTask] at hk
                      by_cases hkc : k = c
                      · rw [if_pos hkc] at hk
                        cases hk
                        rw [hcab2 tc.children hnotself, hfalse]
                      · rw [if_neg hkc] at hk
                        have hnoc : c ∉ tk.children := by
                          intro hcon
                          have := hpb (k, tk) (findTask_some_mem hk) c hcon
                          unfold parentIdOf at this
                          rw [hf] at this
                          simp only [Option.map_some', Option.some.injEq] at this
                          exact hne (by rw [this])
                        rw [hcab2 tk.children hnoc]
                        exact hHC k tk hk
                          (fun hcon => hkc (by injection hcon with hh; exact hh.symm))
                          hnonempty
                    have hHW2 : ∀ c', tc.parentId = some c' →
                        ∀ tc', findTask (setTask m c { tc with completed := false })
                            c' = some tc' →
                        childrenAllComplete
                            (setTask m c { tc with completed := false })
                            tc'.children = false := by
                      intro c' hpc tc' htc'
                      have hmem := (hbr (c, tc) (findTask_some_mem hf)).2.1
                      rw [hpc] at hmem
                      have hcc' : findTask m c' = some tc' := by
                        rw [findTask_setTask] at htc'
                        by_cases hcc : c' = c
                        · exfalso
                          subst hcc
                          exact no_self_parent hf hpc hch
                        · rw [if_neg hcc] at htc'
                          exact htc'
                      rw [childMem_some c hcc'] at hmem
                      have hcin : c ∈ tc'.children := by
                        simpa [List.contains_iff_exists_mem_beq] using hmem
                      refine childrenAllComplete_false_of_mem hcin ?_
                      rw [completedAt_setTask, if_pos rfl]
                    obtain ⟨m', hm', hci', hstr'⟩ := ih fuel _ tc.parentId g
                      (WFKeys_of_sameStruct hstr hwf)
                      (RefIntegrity_of_sameStruct hstr hri)
                      (BackRef_of_sameStruct hstr hbr)
                      (by rw [sameStruct_chainList hstr]; exact hcp)
                      (by simpa using hfuel) hHC2 hHW2
                    refine ⟨m', ?_, hci', sameStruct_trans hstr hstr'⟩
                    simp only [bubbleFalse, hf, if_pos ht]
                    exact hm'
                  · -- the walk stops: the current flag is already `false`
                    refine ⟨m, ?_, ?_, sameStruct_refl m⟩
                    · simp only [bubbleFalse, hf, if_neg ht]
                    · refine CompletionInv_of_find ?_ hwf.1
                      intro k tk hk hne
                      by_cases hkc : k = c
                      · subst hkc
                        rw [hf] at hk
                        cases hk
                        rw [hfalse]
                        simpa using ht
                      · exact hHC k tk hk
                          (fun hcon => hkc (by injection hcon with hh; exact hh.symm))
                          hne

/-- Node-by-node description of the `addTask` upward loop: on a chain whose
records agree with a reference store `m0` satisfying the completion invariant,
the loop clears exactly the previously-complete prefix of the chain and leaves
every other record untouched. -/
theorem bubbleFalse_walk (m0 : TaskMap) (hci0 : CompletionInv m0)
    (hbr0 : BackRef m0) :
    ∀ (l : List String) (fuel : Nat) (m : TaskMap) (o : Option String) (g : Nat),
      chainList g m o = some l → l.length < fuel →
      (∀ x ∈ l, findTask m x = findTask m0 x) →
      ∃ m', bubbleFalse fuel m o = some m'
        ∧ (∀ x, x ∉ l → findTask m' x = findTask m x)
        ∧ (∀ a ∈ l, ∀ ta, findTask m0 a = some ta →
            findTask m' a
              = some (if ta.completed then { ta with completed := false }
                  else ta)) := by
  intro l
  induction l with
  | nil =>
      intro fuel m o g hch hfuel hagree
      cases o with
      | none =>
          refine ⟨m, by cases fuel <;> rfl, fun x _ => rfl, ?_⟩
          intro a ha
          simp at ha
      | some k =>
          cases g with
          | zero => exact absurd hch (by simp [chainList])
          | succ g => obtain ⟨_, _, _, _, h⟩ := chainList_some_cons hch; cases h
  | cons c l2 ih =>
      intro fuel m o g hch hfuel hagree
      cases o with
      | none => rw [chainList_none] at hch; cases hch
      | some c0 =>
          cases g with
          | zero => exact absurd hch (by simp [chainList])
          | succ g =>
              obtain ⟨tc, l3, hf, hcp, heq⟩ := chainList_some_cons hch
              injection heq with hk12 hl12
              subst hk12
              subst hl12
              cases fuel with
              | zero => simp at hfuel
              | succ fuel =>
                  have hnd := chainList_nodup (g+1) (some c) _ hch
                  have hcl2 : c ∉ l2 := (List.nodup_cons.mp hnd).1
                  have hf0 : findTask m0 c = some tc := by
                    rw [← hagree c (List.mem_cons_self c l2)]
                    exact hf
                  by_cases ht : tc.completed
                  · -- previously complete: cleared, walk continues
                    have hstr : sameStruct m
                        (setTask m c { tc with completed := false }) :=
                      sameStruct_setTask hf rfl
                    have hcp2 : chainList g
                        (setTask m c { tc with completed := false })
                        tc.parentId = some l2 := by
                      rw [sameStruct_chainList hstr]
                      exact hcp
                    have hagree2 : ∀ x ∈ l2,
                        findTask (setTask m c { tc with completed := false }) x
                          = findTask m0 x := by
                      intro x hx
                      have hxc : x ≠ c := fun hcon => hcl2 (hcon ▸ hx)
                      rw [findTask_setTask_ne _ _ _ _ hxc]
                      exact hagree x (List.mem_cons_of_mem c hx)
                    obtain ⟨m', hm', hframe, hnodes⟩ := ih fuel _ tc.parentId g
                      hcp2 (by simpa using hfuel) hagree2
                    refine ⟨m', ?_, ?_, ?_⟩
                    · simp only [bubbleFalse, hf, if_pos ht]
                      exact hm'
                    · intro x hx
                      have hxl2 : x ∉ l2 := fun hcon =>
                        hx (List.mem_cons_of_mem c hcon)
                      have hxc : x ≠ c := fun hcon =>
                        hx (hcon ▸ List.mem_cons_self c l2)
                      rw [hframe x hxl2, findTask_setTask_ne _ _ _ _ hxc]
                    · intro a ha ta hta
                      rcases List.mem_cons.mp ha with rfl | ha2
                      · rw [hf0] at hta
                        injection hta with hta2
                        subst hta2
                        rw [hframe a hcl2, findTask_setTask_self, if_pos ht]
                      · exact hnodes a ha2 ta hta
                  · -- already incomplete: the walk stops, nothing changes
                    have htf : tc.completed = false := by simpa using ht
                    have hcp0 : chainList g m0 tc.parentId = some l2 := by
                      refine chainList_transfer_pointwise _ _ _ hcp ?_
                      intro x hx
                      unfold parentIdOf
                      rw [hagree x (List.mem_cons_of_mem c hx)]
                    have hallf := chain_false_upward hci0 hbr0 l2 g c tc hf0 htf hcp0
                    refine ⟨m, ?_, fun x _ => rfl, ?_⟩
                    · simp only [bubbleFalse, hf, if_neg ht]
                    · intro a ha ta hta
                      rcases List.mem_cons.mp ha with rfl | ha2
                      · rw [hf0] at hta
                        injection hta with hta2
                        subst hta2
                        rw [if_neg ht]
                        exact hf
                      · have htaf : ta.completed = false := by
                          rw [← completedAt_some hta]
                          exact hallf a ha2
                        rw [if_neg (by simp [htaf])]
                        rw [hagree a (List.mem_cons_of_mem c ha2)]
                        exact hta

/-- Pointwise description of the structurally updated store of `addTask`. -/
theorem findTask_addTaskMap1_eq (m : TaskMap) (parentId : String) (parent : Task)
    (title newId : String) (now : Nat) :
    ∀ x, findTask (addTaskMap1 m parentId parent title newId now) x
      = if x = parentId
        then some { parent with children := parent.children ++ [newId], completed := false }
        else if x = newId then some (newLeaf parentId title newId now)
        else findTask m x := by
  intro x
  unfold addTaskMap1
  rw [findTask_setTask, findTask_setTask]

/-- Master specification of `addTask` on an existing parent with a fresh id:
the call succeeds, preserves every §3 invariant and the root list, appends the
new incomplete leaf to the end of the parent's children (clearing the parent's
flag), clears exactly the previously-complete ancestors on the parent's chain,
and leaves every other record untouched. -/
theorem addTask_spec (s : AppState) (parentId title newId : String) (now : Nat)
    (parent : Task) (hInv : Inv s)
    (hp : findTask s.tasks parentId = some parent)
    (hfresh : findTask s.tasks newId = none) :
    ∃ s' lanc g,
      addTask s parentId title newId now = some s'
      ∧ Inv s'
      ∧ s'.rootTaskIds = s.rootTaskIds
      ∧ chainList g s.tasks parent.parentId = some lanc
      ∧ findTask s'.tasks newId = some (newLeaf parentId title newId now)
      ∧ findTask s'.tasks parentId
          = some { parent with children := parent.children ++ [newId], completed := false }
      ∧ (∀ a ∈ lanc, ∀ ta, findTask s.tasks a = some ta →
          findTask s'.tasks a
            = some (if ta.completed then { ta with completed := false } else ta))
      ∧ (∀ x, x ∉ lanc → x ≠ parentId → x ≠ newId →
          findTask s'.tasks x = findTask s.tasks x) := by
  obtain ⟨hwf, hri, hbr, hac, hci, hrs⟩ := hInv
  have hpb : Pointback s.tasks := Pointback_of_BackRef hbr
  have hnp : parentId ≠ newId := by
    intro hcon
    rw [hcon, hfresh] at hp
    cases hp
  have hpid_id : parent.id = parentId := id_of_WFKeys hwf hp
  have hnewmem : newId ∉ keys s.tasks := by
    intro hcon
    have h1 := (mem_keys_iff_findTask _ _).mp hcon
    rw [hfresh] at h1
    cases h1
  have hchainp := hac (parentId, parent) (findTask_some_mem hp)
  cases hchp : chainList (s.tasks.length + 1) s.tasks (some parentId) with
  | none =>
      rw [hchp] at hchainp
      simp at hchainp
  | some L =>
      obtain ⟨parent2, lanc, hp2, hcpl, rfl⟩ := chainList_some_cons hchp
      rw [hp] at hp2
      cases hp2
      have hndL := chainList_nodup _ _ _ hchp
      have hpL : parentId ∉ lanc := (List.nodup_cons.mp hndL).1
      have hLkeys : ∀ a ∈ lanc, a ∈ keys s.tasks := fun a ha =>
        chainList_mem_keys _ _ _ hchp a (List.mem_cons_of_mem _ ha)
      have hLnew : newId ∉ lanc := fun hcon => hnewmem (hLkeys newId hcon)
      have hLlen : lanc.length < s.tasks.length := by
        have h1 := chainList_length_le hchp
        simp only [List.length_cons] at h1
        omega
      have hfind1 := findTask_addTaskMap1_eq s.tasks parentId parent title newId now
      have hfpr1 : findTask (addTaskMap1 s.tasks parentId parent title newId now)
          parentId
          = some { parent with children := parent.children ++ [newId], completed := false } := by
        rw [hfind1 parentId, if_pos rfl]
      have hfnew1 : findTask (addTaskMap1 s.tasks parentId parent title newId now)
          newId = some (newLeaf parentId title newId now) := by
        rw [hfind1 newId, if_neg (Ne.symm hnp), if_pos rfl]
      have hkeys1 : keys (addTaskMap1 s.tasks parentId parent title newId now)
          = keys s.tasks ++ [newId] := by
        unfold addTaskMap1
        rw [keys_setTask_of_mem _ _ _
          (by rw [findTask_setTask_ne _ _ _ _ hnp, hp]; rfl),
          keys_setTask_of_not_mem _ _ _ hfresh]
      have hlen1 : (addTaskMap1 s.tasks parentId parent title newId now).length
          = s.tasks.length + 1 := by
        have h1 : (keys (addTaskMap1 s.tasks parentId parent title newId now)).length
            = (keys s.tasks ++ [newId]).length := by rw [hkeys1]
        simpa [keys] using h1
      have hsome1 : ∀ x, (findTask s.tasks x).isSome →
          (findTask (addTaskMap1 s.tasks parentId parent title newId now) x).isSome := by
        intro x hx
        rw [hfind1 x]
        by_cases h1 : x = parentId
        · rw [if_pos h1]; rfl
        · rw [if_neg h1]
          by_cases h2 : x = newId
          · rw [if_pos h2]; rfl
          · rw [if_neg h2]; exact hx
      have hpar1 : ∀ x, x ≠ newId →
          parentIdOf (addTaskMap1 s.tasks parentId parent title newId now) x
            = parentIdOf s.tasks x := by
        intro x hx
        unfold parentIdOf
        rw [hfind1 x]
        by_cases h1 : x = parentId
        · rw [if_pos h1, h1, hp]
          rfl
        · rw [if_neg h1, if_neg hx]
      have hcomp1 : ∀ x, x ≠ newId → x ≠ parentId →
          completedAt (addTaskMap1 s.tasks parentId parent title newId now) x
            = completedAt s.tasks x := by
        intro x h2 h1
        unfold completedAt
        rw [hfind1 x, if_neg h1, if_neg h2]
      have hnsc : parentId ∉ parent.children := fun hcon =>
        no_self_child hpb hp hcon hchp
      have hchildkeys : ∀ c ∈ parent.children, c ∈ keys s.tasks := fun c hc =>
        (mem_keys_iff_findTask _ _).mpr
          ((hri (parentId, parent) (findTask_some_mem hp)).1 c hc)
      have hncnew : newId ∉ parent.children := fun hcon =>
        hnewmem (hchildkeys newId hcon)
      have hnd1 : (keys (addTaskMap1 s.tasks parentId parent title newId now)).Nodup := by
        rw [hkeys1]
        refine List.Nodup.append hwf.1 (List.nodup_singleton newId) ?_
        intro a ha hb
        simp at hb
        subst hb
        exact hnewmem ha
      have hwf1 : WFKeys (addTaskMap1 s.tasks parentId parent title newId now) := by
        refine ⟨hnd1, ?_⟩
        intro p hpm
        obtain ⟨k, tk⟩ := p
        have hfp1 := findTask_eq_of_mem_nodup hnd1 hpm
        rw [hfind1 k] at hfp1
        by_cases h1 : k = parentId
        · subst h1
          rw [if_pos rfl] at hfp1
          injection hfp1 with h2
          rw [← h2]
          show parent.id = k
          exact hpid_id
        · rw [if_neg h1] at hfp1
          by_cases h2 : k = newId
          · subst h2
            rw [if_pos rfl] at hfp1
            injection hfp1 with h3
            rw [← h3]
            rfl
          · rw [if_neg h2] at hfp1
            exact hwf.2 (k, tk) (findTask_some_mem hfp1)
      have hri1 : RefIntegrity (addTaskMap1 s.tasks parentId parent title newId now) := by
        intro p hpm
        obtain ⟨k, tk⟩ := p
        have hfp1 := findTask_eq_of_mem_nodup hnd1 hpm
        rw [hfind1 k] at hfp1
        by_cases h1 : k = parentId
        · subst h1
          rw [if_pos rfl] at hfp1
          injection hfp1 with h2
          constructor
          · intro c hc
            rw [← h2] at hc
            have hc' : c ∈ parent.children ++ [newId] := hc
            rcases List.mem_append.mp hc' with hold | hnew
            · exact hsome1 c
                ((hri (k, parent) (findTask_some_mem hp)).1 c hold)
            · simp at hnew
              subst hnew
              rw [hfnew1]
              rfl
          · rw [← h2]
            show parentOk _ parent = true
            have h3 := (hri (k, parent) (findTask_some_mem hp)).2
            cases hq : parent.parentId with
            | none => exact parentOk_none hq
            | some q =>
                rw [parentOk_some hq]
                rw [parentOk_some hq] at h3
                exact hsome1 q h3
        · rw [if_neg h1] at hfp1
          by_cases h2 : k = newId
          · subst h2
            rw [if_pos rfl] at hfp1
            injection hfp1 with h3
            constructor
            · intro c hc
              rw [← h3] at hc
              simp [newLeaf] at hc
            · rw [← h3]
              rw [parentOk_some (show (newLeaf parentId title k now).parentId
                  = some parentId from rfl)]
              rw [hfpr1]
              rfl
          · rw [if_neg h2] at hfp1
            have hmem0 := findTask_some_mem hfp1
            constructor
            · intro c hc
              exact hsome1 c ((hri (k, tk) hmem0).1 c hc)
            · have h3 := (hri (k, tk) hmem0).2
              cases hq : tk.parentId with
              | none => exact parentOk_none hq
              | some q =>
                  rw [parentOk_some hq]
                  rw [parentOk_some hq] at h3
                  exact hsome1 q h3
      have hbr1 : BackRef (addTaskMap1 s.tasks parentId parent title newId now) := by
        intro p hpm
        obtain ⟨k, tk⟩ := p
        have hfp1 := findTask_eq_of_mem_nodup hnd1 hpm
        rw [hfind1 k] at hfp1
        by_cases h1 : k = parentId
        · subst h1
          rw [if_pos rfl] at hfp1
          injection hfp1 with h2
          refine ⟨?_, ?_, ?_⟩
          · intro c hc
            rw [← h2] at hc
            have hc' : c ∈ parent.children ++ [newId] := hc
            rcases List.mem_append.mp hc' with hold | hnew
            · have hcnn : c ≠ newId := fun hcon => hncnew (hcon ▸ hold)
              rw [hpar1 c hcnn]
              exact hpb (k, parent) (findTask_some_mem hp) c hold
            · simp at hnew
              subst hnew
              unfold parentIdOf
              rw [hfnew1]
              rfl
          · rw [← h2]
            show childMem _ parent.parentId k = true
            cases hq : parent.parentId with
            | none => rfl
            | some q =>
                have hqs := (hri (k, parent) (findTask_some_mem hp)).2
                rw [parentOk_some hq] at hqs
                cases hfq : findTask s.tasks q with
                | none => rw [hfq] at hqs; simp at hqs
                | some tq =>
                    have hqkeys : q ∈ keys s.tasks :=
                      (mem_keys_iff_findTask _ _).mpr (by rw [hfq]; rfl)
                    have hqnew : q ≠ newId := fun hcon => hnewmem (hcon ▸ hqkeys)
                    have hqpar : q ≠ k := fun hcon =>
                      no_self_parent hp (by rw [hq, hcon]) hchp
                    have hfq1 : findTask
                        (addTaskMap1 s.tasks k parent title newId now) q
                        = some tq := by
                      rw [hfind1 q, if_neg hqpar, if_neg hqnew]
                      exact hfq
                    rw [childMem_some k hfq1]
                    have hmemq := (hbr (k, parent) (findTask_some_mem hp)).2.1
                    rw [hq, childMem_some k hfq] at hmemq
                    exact hmemq
          · rw [← h2]
            show (parent.children ++ [newId]).Nodup
            refine List.Nodup.append
              (hbr (k, parent) (findTask_some_mem hp)).2.2
              (List.nodup_singleton _) ?_
            intro a ha hb
            simp at hb
            subst hb
            exact hncnew ha
        · rw [if_neg h1] at hfp1
          by_cases h2 : k = newId
          · subst h2
            rw [if_pos rfl] at hfp1
            injection hfp1 with h3
            refine ⟨?_, ?_, ?_⟩
            · intro c hc
              rw [← h3] at hc
              simp [newLeaf] at hc
            · rw [← h3]
              show childMem _ (some parentId) k = true
              rw [childMem_some k hfpr1]
              simp only [List.contains_iff_exists_mem_beq]
              exact ⟨k, by simp, by simp⟩
            · rw [← h3]
              show ([] : List String).Nodup
              exact List.nodup_nil
          · rw [if_neg h2] at hfp1
            have hmem0 := findTask_some_mem hfp1
            have hbro := hbr (k, tk) hmem0
            refine ⟨?_, ?_, hbro.2.2⟩
            · intro c hc
              have hckeys : c ∈ keys s.tasks := (mem_keys_iff_findTask _ _).mpr
                ((hri (k, tk) hmem0).1 c hc)
              have hcnew : c ≠ newId := fun hcon => hnewmem (hcon ▸ hckeys)
              rw [hpar1 c hcnew]
              exact hpb (k, tk) hmem0 c hc
            · cases hq : tk.parentId with
              | none => rfl
              | some q =>
                  have hqs := (hri (k, tk) hmem0).2
                  rw [parentOk_some hq] at hqs
                  cases hfq : findTask s.tasks q with
                  | none => rw [hfq] at hqs; simp at hqs
                  | some tq =>
                      have hqkeys : q ∈ keys s.tasks :=
                        (mem_keys_iff_findTask _ _).mpr (by rw [hfq]; rfl)
                      have hqnew : q ≠ newId := fun hcon => hnewmem (hcon ▸ hqkeys)
                      have hmemq := hbro.2.1
                      rw [hq, childMem_some k hfq] at hmemq
                      by_cases hqp : q = parentId
                      · subst hqp
                        rw [childMem_some k hfpr1]
                        have htqp : parent = tq := by
                          rw [hp] at hfq
                          exact Option.some.inj hfq
                        subst htqp
                        show (parent.children ++ [newId]).contains k = true
                        simp only [List.contains_iff_exists_mem_beq] at hmemq ⊢
                        obtain ⟨a, ha, hab⟩ := hmemq
                        exact ⟨a, List.mem_append_left _ ha, hab⟩
                      · have hfq1 : findTask
                            (addTaskMap1 s.tasks parentId parent title newId now) q
                            = some tq := by
                          rw [hfind1 q, if_neg hqp, if_neg hqnew]
                          exact hfq
                        rw [childMem_some k hfq1]
                        exact hmemq
      have htrans1 : ∀ (x : String) (l : List String),
          chainList (s.tasks.length + 1) s.tasks (some x) = some l →
          chainList (s.tasks.length + 1)
            (addTaskMap1 s.tasks parentId parent title newId now) (some x)
            = some l := by
        intro x l hch
        refine chainList_transfer_pointwise _ _ _ hch ?_
        intro a ha
        have hak : a ∈ keys s.tasks := chainList_mem_keys _ _ _ hch a ha
        exact hpar1 a (fun hcon => hnewmem (hcon ▸ hak))
      have hcgp1 : chainList s.tasks.length
          (addTaskMap1 s.tasks parentId parent title newId now) parent.parentId
          = some lanc := by
        refine chainList_transfer_pointwise _ _ _ hcpl ?_
        intro a ha
        exact hpar1 a (fun hcon => hnewmem (hcon ▸ hLkeys a ha))
      have hac1 : Acyclic (addTaskMap1 s.tasks parentId parent title newId now) := by
        intro p hpm
        obtain ⟨k, tk⟩ := p
        have hfp1 := findTask_eq_of_mem_nodup hnd1 hpm
        rw [hfind1 k] at hfp1
        show (chainList
          ((addTaskMap1 s.tasks parentId parent title newId now).length + 1)
          (addTaskMap1 s.tasks parentId parent title newId now) (some k)).isSome
        rw [hlen1]
        by_cases h2 : k = newId
        · subst h2
          have hstep : chainList (s.tasks.length + 1 + 1)
              (addTaskMap1 s.tasks parentId parent title k now) (some k)
              = some (k :: parentId :: lanc) := by
            simp only [chainList, hfnew1, hfpr1, newLeaf]
            rw [hcgp1]
            rfl
          rw [hstep]
          rfl
        · by_cases h1 : k = parentId
          · subst h1
            have h3 := chainList_fuel_ge (s.tasks.length + 1)
              (s.tasks.length + 1 + 1) _ _ (by omega) (htrans1 k _ hchp)
            rw [h3]
            rfl
          · rw [if_neg h1, if_neg h2] at hfp1
            have hch0 := hac (k, tk) (findTask_some_mem hfp1)
            cases hchk : chainList (s.tasks.length + 1) s.tasks (some k) with
            | none => rw [hchk] at hch0; simp at hch0
            | some lk =>
                have h3 := chainList_fuel_ge (s.tasks.length + 1)
                  (s.tasks.length + 1 + 1) _ _ (by omega) (htrans1 k _ hchk)
                rw [h3]
                rfl
      have hrs1 : RootSet
          ⟨addTaskMap1 s.tasks parentId parent title newId now, s.rootTaskIds⟩ := by
        refine ⟨hrs.1, ?_, ?_⟩
        · intro r hr
          have hr0 := hrs.2.1 r hr
          have hrsome : (findTask s.tasks r).isSome := by
            unfold parentIdOf at hr0
            cases hfr : findTask s.tasks r
            · rw [hfr] at hr0; cases hr0
            · rfl
          have hrnew : r ≠ newId := fun hcon =>
            hnewmem (hcon ▸ (mem_keys_iff_findTask _ _).mpr hrsome)
          show parentIdOf _ r = some none
          rw [hpar1 r hrnew]
          exact hr0
        · intro p hpm hparnone
          obtain ⟨k, tk⟩ := p
          have hfp1 := findTask_eq_of_mem_nodup hnd1 hpm
          rw [hfind1 k] at hfp1
          by_cases h1 : k = parentId
          · subst h1
            rw [if_pos rfl] at hfp1
            injection hfp1 with h2
            have hpn : parent.parentId = none := by
              rw [← h2] at hparnone
              exact hparnone
            exact hrs.2.2 (k, parent) (findTask_some_mem hp) hpn
          · rw [if_neg h1] at hfp1
            by_cases h2 : k = newId
            · subst h2
              rw [if_pos rfl] at hfp1
              injection hfp1 with h3
              exfalso
              rw [← h3] at hparnone
              simp [newLeaf] at hparnone
            · rw [if_neg h2] at hfp1
              exact hrs.2.2 (k, tk) (findTask_some_mem hfp1) hparnone
      have hHC1 : ∀ (k : String) (tk : Task),
          findTask (addTaskMap1 s.tasks parentId parent title newId now) k
            = some tk →
          parent.parentId ≠ some k → tk.children ≠ [] →
          tk.completed = childrenAllComplete
            (addTaskMap1 s.tasks parentId parent title newId now) tk.children := by
        intro k tk hk hne hnonempty
        rw [hfind1 k] at hk
        by_cases h1 : k = parentId
        · subst h1
          rw [if_pos rfl] at hk
          injection hk with h2
          subst h2
          show false = _
          have hnewfalse : completedAt
              (addTaskMap1 s.tasks k parent title newId now) newId = false := by
            unfold completedAt
            rw [hfnew1]
            rfl
          exact (childrenAllComplete_false_of_mem
            (show newId ∈ parent.children ++ [newId] by simp) hnewfalse).symm
        · rw [if_neg h1] at hk
          by_cases h2 : k = newId
          · subst h2
            rw [if_pos rfl] at hk
            injection hk with h3
            subst h3
            exact absurd rfl hnonempty
          · rw [if_neg h2] at hk
            have hconstraint := hci (k, tk) (findTask_some_mem hk) hnonempty
            rw [hconstraint]
            refine (childrenAllComplete_congr ?_).symm
            intro c hc
            have hckeys : c ∈ keys s.tasks := (mem_keys_iff_findTask _ _).mpr
              ((hri (k, tk) (findTask_some_mem hk)).1 c hc)
            have hcnew : c ≠ newId := fun hcon => hnewmem (hcon ▸ hckeys)
            have hcpar : c ≠ parentId := by
              intro hcon
              have hpbc := hpb (k, tk) (findTask_some_mem hk) c hc
              rw [hcon] at hpbc
              unfold parentIdOf at hpbc
              rw [hp] at hpbc
              simp only [Option.map_some', Option.some.injEq] at hpbc
              exact hne (by rw [hpbc])
            exact hcomp1 c hcnew hcpar
      have hHW1 : ∀ c, parent.parentId = some c → ∀ tc,
          findTask (addTaskMap1 s.tasks parentId parent title newId now) c
            = some tc →
          childrenAllComplete
            (addTaskMap1 s.tasks parentId parent title newId now) tc.children
            = false := by
        intro c hqc tc htc
        have hqs := (hri (parentId, parent) (findTask_some_mem hp)).2
        rw [parentOk_some hqc] at hqs
        cases hfq : findTask s.tasks c with
        | none => rw [hfq] at hqs; simp at hqs
        | some tq =>
            have hqkeys : c ∈ keys s.tasks :=
              (mem_keys_iff_findTask _ _).mpr (by rw [hfq]; rfl)
            have hqnew : c ≠ newId := fun hcon => hnewmem (hcon ▸ hqkeys)
            have hqpar : c ≠ parentId := fun hcon =>
              no_self_parent hp (by rw [hqc, hcon]) hchp
            have htc' : tq = tc := by
              rw [hfind1 c, if_neg hqpar, if_neg hqnew, hfq] at htc
              exact Option.some.inj htc
            subst htc'
            have hmemq := (hbr (parentId, parent) (findTask_some_mem hp)).2.1
            rw [hqc, childMem_some parentId hfq] at hmemq
            have hpin : parentId ∈ tq.children := by
              simpa [List.contains_iff_exists_mem_beq] using hmemq
            refine childrenAllComplete_false_of_mem hpin ?_
            unfold completedAt
            rw [hfpr1]
      obtain ⟨m2, hbf, hci2, hstr2⟩ := bubbleFalse_completion lanc
        ((addTaskMap1 s.tasks parentId parent title newId now).length + 1)
        (addTaskMap1 s.tasks parentId parent title newId now) parent.parentId
        s.tasks.length hwf1 hri1 hbr1 hcgp1 (by rw [hlen1]; omega) hHC1 hHW1
      obtain ⟨m2w, hbfw, hframe, hnodes⟩ := bubbleFalse_walk s.tasks hci hbr lanc
        ((addTaskMap1 s.tasks parentId parent title newId now).length + 1)
        (addTaskMap1 s.tasks parentId parent title newId now) parent.parentId
        s.tasks.length hcgp1 (by rw [hlen1]; omega)
        (by
          intro x hx
          have hx1 : x ≠ parentId := by
            intro hcon
            rw [hcon] at hx
            exact hpL hx
          have hx2 : x ≠ newId := by
            intro hcon
            rw [hcon] at hx
            exact hLnew hx
          rw [hfind1 x, if_neg hx1, if_neg hx2])
      rw [hbf] at hbfw
      injection hbfw with hm2w
      subst hm2w
      have heq : addTask s parentId title newId now
          = some { s with tasks := m2 } := by
        rw [addTask_eq_of_found s parentId title newId now parent hp, addTaskAux]
        rw [hbf]
        rfl
      refine ⟨{ s with tasks := m2 }, lanc, s.tasks.length, heq, ?_, rfl, hcpl,
        ?_, ?_, ?_, ?_⟩
      · exact ⟨WFKeys_of_sameStruct hstr2 hwf1,
          RefIntegrity_of_sameStruct hstr2 hri1,
          BackRef_of_sameStruct hstr2 hbr1,
          Acyclic_of_sameStruct hstr2 hac1,
          hci2,
          RootSet_of_sameStruct
            (s := ⟨addTaskMap1 s.tasks parentId parent title newId now,
              s.rootTaskIds⟩) hstr2 hrs1⟩
      · rw [show ({ s with tasks := m2 } : AppState).tasks = m2 from rfl]
        rw [hframe newId hLnew]
        exact hfnew1
      · rw [show ({ s with tasks := m2 } : AppState).tasks = m2 from rfl]
        rw [hframe parentId hpL]
        exact hfpr1
      · intro a ha ta hta
        exact hnodes a ha ta hta
      · intro x hx hxp hxn
        rw [show ({ s with tasks := m2 } : AppState).tasks = m2 from rfl]
        rw [hframe x hx, hfind1 x, if_neg hxp, if_neg hxn]

/-- A store with the same keys whose records agree with the original on
`id`, `children`, `parentId` and `completed` (only display fields may differ)
satisfies all §3 invariants whenever the original state does. -/
theorem Inv_of_pointwise (s : AppState) (m' : TaskMap)
    (hkeys : keys m' = keys s.tasks)
    (hcorr : ∀ k tk', findTask m' k = some tk' →
      ∃ tk, findTask s.tasks k = some tk ∧ tk'.id = tk.id
        ∧ tk'.children = tk.children ∧ tk'.parentId = tk.parentId
        ∧ tk'.completed = tk.completed)
    (hInv : Inv s) : Inv { s with tasks := m' } := by
  obtain ⟨hwf, hri, hbr, hac, hci, hrs⟩ := hInv
  have hpb : Pointback s.tasks := Pointback_of_BackRef hbr
  have hnd' : (keys m').Nodup := by rw [hkeys]; exact hwf.1
  have hsome : ∀ x, (findTask m' x).isSome = (findTask s.tasks x).isSome := by
    intro x
    cases h1 : (findTask m' x).isSome <;> cases h2 : (findTask s.tasks x).isSome
    · rfl
    · exfalso
      have := (mem_keys_iff_findTask s.tasks x).mpr (by rw [h2])
      rw [← hkeys] at this
      have h3 := (mem_keys_iff_findTask m' x).mp this
      rw [h1] at h3
      cases h3
    · exfalso
      have := (mem_keys_iff_findTask m' x).mpr (by rw [h1])
      rw [hkeys] at this
      have h3 := (mem_keys_iff_findTask s.tasks x).mp this
      rw [h2] at h3
      cases h3
    · rfl
  have hparx : ∀ x, parentIdOf m' x = parentIdOf s.tasks x := by
    intro x
    unfold parentIdOf
    cases hfx : findTask m' x with
    | none =>
        have h1 := hsome x
        rw [hfx] at h1
        cases hfy : findTask s.tasks x with
        | none => rfl
        | some ty => rw [hfy] at h1; cases h1
    | some tx' =>
        obtain ⟨tx, hfy, _, _, hpe, _⟩ := hcorr x tx' hfx
        rw [hfy]
        simp only [Option.map_some', Option.some.injEq]
        exact hpe
  have hcompx : ∀ x, completedAt m' x = completedAt s.tasks x := by
    intro x
    unfold completedAt
    cases hfx : findTask m' x with
    | none =>
        have h1 := hsome x
        rw [hfx] at h1
        cases hfy : findTask s.tasks x with
        | none => rfl
        | some ty => rw [hfy] at h1; cases h1
    | some tx' =>
        obtain ⟨tx, hfy, _, _, _, hce⟩ := hcorr x tx' hfx
        rw [hfy]
        exact hce
  refine ⟨⟨hnd', ?_⟩, ?_, ?_, ?_, ?_, ?_, ?_, ?_⟩
  · -- id fields
    intro p hp
    obtain ⟨tk, hfy, hide, _, _, _⟩ := hcorr p.1 p.2 (findTask_eq_of_mem_nodup hnd' hp)
    rw [hide]
    exact id_of_WFKeys hwf hfy
  · -- referential integrity
    intro p hp
    obtain ⟨tk, hfy, _, hche, hpe, _⟩ :=
      hcorr p.1 p.2 (findTask_eq_of_mem_nodup hnd' hp)
    constructor
    · intro c hc
      rw [hche] at hc
      rw [hsome c]
      exact (hri (p.1, tk) (findTask_some_mem hfy)).1 c hc
    · cases hq : p.2.parentId with
      | none => exact parentOk_none hq
      | some q =>
          rw [parentOk_some hq]
          have h1 := (hri (p.1, tk) (findTask_some_mem hfy)).2
          rw [parentOk_some (by rw [← hpe]; exact hq)] at h1
          rw [hsome q]
          exact h1
  · -- back-references
    intro p hp
    obtain ⟨tk, hfy, _, hche, hpe, _⟩ :=
      hcorr p.1 p.2 (findTask_eq_of_mem_nodup hnd' hp)
    refine ⟨?_, ?_, ?_⟩
    · intro c hc
      rw [hche] at hc
      rw [hparx c]
      exact hpb (p.1, tk) (findTask_some_mem hfy) c hc
    · cases hq : p.2.parentId with
      | none => rfl
      | some q =>
          have hq0 : tk.parentId = some q := by rw [← hpe]; exact hq
          have h1 := (hri (p.1, tk) (findTask_some_mem hfy)).2
          rw [parentOk_some hq0] at h1
          cases hfq : findTask s.tasks q with
          | none => rw [hfq] at h1; simp at h1
          | some tq =>
              have h2 := hsome q
              rw [hfq] at h2
              cases hfq' : findTask m' q with
              | none => rw [hfq'] at h2; cases h2
              | some tq' =>
                  obtain ⟨tq0, hfq0, _, hcheq, _, _⟩ := hcorr q tq' hfq'
                  rw [hfq0] at hfq
                  cases hfq
                  rw [childMem_some p.1 hfq']
                  rw [hcheq]
                  have hmem := (hbr (p.1, tk) (findTask_some_mem hfy)).2.1
                  rw [hq0, childMem_some p.1 hfq0] at hmem
                  exact hmem
    · rw [hche]
      exact (hbr (p.1, tk) (findTask_some_mem hfy)).2.2
  · -- acyclicity
    exact Acyclic_of_parent_congr hparx hkeys hac
  · -- completion invariant
    intro p hp hne
    obtain ⟨tk, hfy, _, hche, _, hce⟩ :=
      hcorr p.1 p.2 (findTask_eq_of_mem_nodup hnd' hp)
    rw [hce, hche]
    rw [hci (p.1, tk) (findTask_some_mem hfy) (by rw [← hche]; exact hne)]
    exact (childrenAllComplete_congr (fun c _ => hcompx c)).symm
  · -- root nodup
    exact hrs.1
  · -- roots have no parent
    intro r hr
    rw [hparx r]
    exact hrs.2.1 r hr
  · -- rootless tasks are listed
    intro p hp hpn
    obtain ⟨tk, hfy, _, _, hpe, _⟩ :=
      hcorr p.1 p.2 (findTask_eq_of_mem_nodup hnd' hp)
    refine hrs.2.2 (p.1, tk) (findTask_some_mem hfy) ?_
    rw [← hpe]
    exact hpn

/-- `updateTask` on an existing id succeeds and preserves all §3 invariants
and the root list. -/
theorem updateTask_preserves_inv (s : AppState) (id : String) (u : TaskUpdate)
    (t : Task) (hInv : Inv s) (ht : findTask s.tasks id = some t) :
    ∃ s', updateTask s id u = some s' ∧ Inv s'
      ∧ s'.rootTaskIds = s.rootTaskIds := by
  refine ⟨{ s with tasks := setTask s.tasks id (applyUpdate t u) }, ?_, ?_, rfl⟩
  · unfold updateTask
    rw [ht]
  · refine Inv_of_pointwise s _ ?_ ?_ hInv
    · exact keys_setTask_of_mem _ _ _ (by rw [ht]; rfl)
    · intro k tk' hk
      rw [findTask_setTask] at hk
      by_cases h1 : k = id
      · rw [if_pos h1] at hk
        cases hk
        subst h1
        exact ⟨t, ht, rfl, rfl, rfl, rfl⟩
      · rw [if_neg h1] at hk
        exact ⟨tk', hk, rfl, rfl, rfl, rfl⟩

/-! ## Operation sequences (for the invariant-preservation claim) -/

/-- One engine operation with its arguments (`create` carries the generated
id and timestamp explicitly). -/
inductive Op where
  | create (parentId title newId : String) (now : Nat)
  | toggle (taskId : String)
  | editFields (id : String) (u : TaskUpdate)
  | delete (taskId : String)
deriving DecidableEq, Repr

/-- Apply one operation to a state. -/
def applyOp (s : AppState) : Op → Option AppState
  | .create parentId title newId now => addTask s parentId title newId now
  | .toggle taskId => toggleTask s taskId
  | .editFields id u => updateTask s id u
  | .delete taskId => deleteTask s taskId

/-- The §4.1 argument checks: every referenced id exists (and the generated
id is fresh), and any supplied title is non-empty after trimming. -/
def validOp (s : AppState) : Op → Prop
  | .create parentId title newId _ =>
      (findTask s.tasks parentId).isSome ∧ findTask s.tasks newId = none
        ∧ title.trim ≠ ""
  | .toggle taskId => (findTask s.tasks taskId).isSome
  | .editFields id u =>
      (findTask s.tasks id).isSome ∧ (∀ t, u.title = some t → t.trim ≠ "")
  | .delete taskId => (findTask s.tasks taskId).isSome

/-- Every operation of the sequence passes its argument checks in the state
it is applied to. -/
def ValidOps : AppState → List Op → Prop
  | _, [] => True
  | s, op :: ops => validOp s op ∧ (match applyOp s op with
      | none => True
      | some s' => ValidOps s' ops)

/-- Run a sequence of operations from a state. -/
def runOps (s : AppState) : List Op → Option AppState
  | [] => some s
  | op :: ops => (applyOp s op).bind (fun s' => runOps s' ops)

/-- Single-step invariant preservation: a valid operation on an invariant
state succeeds and yields an invariant state. -/
theorem applyOp_preserves_inv (s : AppState) (op : Op) (hInv : Inv s)
    (hv : validOp s op) : ∃ s', applyOp s op = some s' ∧ Inv s' := by
  cases op with
  | create parentId title newId now =>
      obtain ⟨hex, hfresh, _⟩ := hv
      cases hp : findTask s.tasks parentId with
      | none => rw [hp] at hex; simp at hex
      | some parent =>
          obtain ⟨s', _, _, heq, hInv', _⟩ :=
            addTask_spec s parentId title newId now parent hInv hp hfresh
          exact ⟨s', heq, hInv'⟩
  | toggle taskId =>
      cases hp : findTask s.tasks taskId with
      | none =>
          simp only [validOp] at hv
          rw [hp] at hv
          simp at hv
      | some task =>
          obtain ⟨s', _, _, heq, hInv', _⟩ :=
            toggleTask_spec s taskId task hInv hp
          exact ⟨s', heq, hInv'⟩
  | editFields id u =>
      obtain ⟨hex, _⟩ := hv
      cases hp : findTask s.tasks id with
      | none => rw [hp] at hex; simp at hex
      | some t =>
          obtain ⟨s', heq, hInv', _⟩ := updateTask_preserves_inv s id u t hInv hp
          exact ⟨s', heq, hInv'⟩
  | delete taskId =>
      cases hp : findTask s.tasks taskId with
      | none =>
          simp only [validOp] at hv
          rw [hp] at hv
          simp at hv
      | some t =>
          obtain ⟨s', heq, hInv'⟩ := deleteTask_preserves_inv s taskId t hInv hp
          exact ⟨s', heq, hInv'⟩

/-- **C1.** For every sequence of the four operations (`create`,
`toggleCompletion`, `editFields`, `delete`) whose arguments pass the
id-existence and title-validity checks in the state they are applied to,
starting from a state satisfying all five §3 invariants, the run succeeds
and every invariant still holds afterwards — in particular the completion
invariant: every task with a non-empty children list is completed exactly
when all its children are.  Applied to each prefix of the sequence, this
gives the invariants after each operation. -/
theorem C1_valid_ops_preserve_invariants :
    ∀ (ops : List Op) (s : AppState), Inv s → ValidOps s ops →
      ∃ s', runOps s ops = some s' ∧ Inv s' ∧ CompletionInv s'.tasks := by
  intro ops
  induction ops with
  | nil =>
      intro s hInv _
      exact ⟨s, rfl, hInv, hInv.2.2.2.2.1⟩
  | cons op ops ih =>
      intro s hInv hv
      obtain ⟨hv1, hv2⟩ := hv
      obtain ⟨s1, heq1, hInv1⟩ := applyOp_preserves_inv s op hInv hv1
      rw [heq1] at hv2
      obtain ⟨s', heq', hInv', hci'⟩ := ih s1 hInv1 hv2
      refine ⟨s', ?_, hInv', hci'⟩
      show (applyOp s op).bind (fun s2 => runOps s2 ops) = some s'
      rw [heq1]
      exact heq'

/-- Witness for C1: a three-operation valid sequence (toggle a leaf, edit a
description, delete a leaf) on the concrete three-task forest. -/
theorem C1_valid_ops_preserve_invariants_witness :
    Inv ⟨[("r", ⟨"r", "R", "", false, ["a", "b"], none, 0⟩),
          ("a", ⟨"a", "A", "", false, [], some "r", 1⟩),
          ("b", ⟨"b", "B", "", true, [], some "r", 2⟩)], ["r"]⟩
      ∧ ValidOps ⟨[("r", ⟨"r", "R", "", false, ["a", "b"], none, 0⟩),
          ("a", ⟨"a", "A", "", false, [], some "r", 1⟩),
          ("b", ⟨"b", "B", "", true, [], some "r", 2⟩)], ["r"]⟩
          [Op.toggle "a", Op.editFields "r" ⟨none, some "d"⟩, Op.delete "b"]
      ∧ ∃ s', runOps ⟨[("r", ⟨"r", "R", "", false, ["a", "b"], none, 0⟩),
            ("a", ⟨"a", "A", "", false, [], some "r", 1⟩),
            ("b", ⟨"b", "B", "", true, [], some "r", 2⟩)], ["r"]⟩
            [Op.toggle "a", Op.editFields "r" ⟨none, some "d"⟩, Op.delete "b"]
            = some s'
          ∧ Inv s' ∧ CompletionInv s'.tasks := by
  have hv : ValidOps ⟨[("r", ⟨"r", "R", "", false, ["a", "b"], none, 0⟩),
      ("a", ⟨"a", "A", "", false, [], some "r", 1⟩),
      ("b", ⟨"b", "B", "", true, [], some "r", 2⟩)], ["r"]⟩
      [Op.toggle "a", Op.editFields "r" ⟨none, some "d"⟩, Op.delete "b"] := by
    refine ⟨?_, ?_⟩
    · simp only [validOp]
      decide
    · refine ⟨?_, ?_⟩
      · simp only [validOp]
        refine ⟨by decide, ?_⟩
        intro t h
        cases h
      · refine ⟨?_, ?_⟩
        · simp only [validOp]
          decide
        · exact trivial
  exact ⟨by decide, hv,
    C1_valid_ops_preserve_invariants
      [Op.toggle "a", Op.editFields "r" ⟨none, some "d"⟩, Op.delete "b"]
      ⟨[("r", ⟨"r", "R", "", false, ["a", "b"], none, 0⟩),
        ("a", ⟨"a", "A", "", false, [], some "r", 1⟩),
        ("b", ⟨"b", "B", "", true, [], some "r", 2⟩)], ["r"]⟩
      (by decide) hv⟩

/-- **C3.** For every existing parent id (and any title — the engine imposes
no title check, so in particular every valid title), `create` appends exactly
one new leaf with `completed = false` and empty description to the end of the
parent's `children`, sets the leaf's `parentId`, clears the parent's flag,
and on the parent's ancestor chain turns every previously-complete task
incomplete while leaving every previously-incomplete ancestor's record
exactly unchanged. -/
theorem C3_create_appends_leaf_uncompletes_ancestors (s : AppState)
    (parentId title newId : String) (now : Nat) (parent : Task)
    (hInv : Inv s) (hp : findTask s.tasks parentId = some parent)
    (hfresh : findTask s.tasks newId = none) :
    ∃ s' lanc g,
      addTask s parentId title newId now = some s'
      ∧ findTask s'.tasks newId
          = some ⟨newId, title, "", false, [], some parentId, now⟩
      ∧ findTask s'.tasks parentId
          = some { parent with children := parent.children ++ [newId], completed := false }
      ∧ chainList g s.tasks parent.parentId = some lanc
      ∧ (∀ a ∈ lanc, ∀ ta, findTask s.tasks a = some ta →
          (ta.completed = true →
            findTask s'.tasks a = some { ta with completed := false })
          ∧ (ta.completed = false → findTask s'.tasks a = some ta)) := by
  obtain ⟨s', lanc, g, heq, _, _, hch, hleaf, hpar, hanc, _⟩ :=
    addTask_spec s parentId title newId now parent hInv hp hfresh
  refine ⟨s', lanc, g, heq, hleaf, hpar, hch, ?_⟩
  intro a ha ta hta
  have h := hanc a ha ta hta
  constructor
  · intro hc
    rw [h, if_pos hc]
  · intro hc
    rw [h, if_neg (by simp [hc])]

/-- Witness for C3: a fully-complete two-level tree; creating a new leaf
under the middle task clears it and its previously-complete root, leaving
structure and the complete leaves' flags visible in the conclusion. -/
theorem C3_create_appends_leaf_uncompletes_ancestors_witness :
    Inv ⟨[("g", ⟨"g", "G", "", true, ["r"], none, 0⟩),
          ("r", ⟨"r", "R", "", true, ["a", "b"], some "g", 1⟩),
          ("a", ⟨"a", "A", "", true, [], some "r", 2⟩),
          ("b", ⟨"b", "B", "", true, [], some "r", 3⟩)], ["g"]⟩
      ∧ findTask [("g", ⟨"g", "G", "", true, ["r"], none, 0⟩),
          ("r", ⟨"r", "R", "", true, ["a", "b"], some "g", 1⟩),
          ("a", ⟨"a", "A", "", true, [], some "r", 2⟩),
          ("b", ⟨"b", "B", "", true, [], some "r", 3⟩)] "r"
          = some ⟨"r", "R", "", true, ["a", "b"], some "g", 1⟩
      ∧ findTask [("g", ⟨"g", "G", "", true, ["r"], none, 0⟩),
          ("r", ⟨"r", "R", "", true, ["a", "b"], some "g", 1⟩),
          ("a", ⟨"a", "A", "", true, [], some "r", 2⟩),
          ("b", ⟨"b", "B", "", true, [], some "r", 3⟩)] "c" = none
      ∧ ∃ s' lanc g,
          addTask ⟨[("g", ⟨"g", "G", "", true, ["r"], none, 0⟩),
            ("r", ⟨"r", "R", "", true, ["a", "b"], some "g", 1⟩),
            ("a", ⟨"a", "A", "", true, [], some "r", 2⟩),
            ("b", ⟨"b", "B", "", true, [], some "r", 3⟩)], ["g"]⟩ "r" "C" "c" 9
            = some s'
          ∧ findTask s'.tasks "c" = some ⟨"c", "C", "", false, [], some "r", 9⟩
          ∧ findTask s'.tasks "r"
              = some { (⟨"r", "R", "", true, ["a", "b"], some "g", 1⟩ : Task) with
                  children := ["a", "b"] ++ ["c"], completed := false }
          ∧ chainList g [("g", ⟨"g", "G", "", true, ["r"], none, 0⟩),
              ("r", ⟨"r", "R", "", true, ["a", "b"], some "g", 1⟩),
              ("a", ⟨"a", "A", "", true, [], some "r", 2⟩),
              ("b", ⟨"b", "B", "", true, [], some "r", 3⟩)]
              (⟨"r", "R", "", true, ["a", "b"], some "g", 1⟩ : Task).parentId
              = some lanc
          ∧ (∀ a ∈ lanc, ∀ ta,
              findTask [("g", ⟨"g", "G", "", true, ["r"], none, 0⟩),
                ("r", ⟨"r", "R", "", true, ["a", "b"], some "g", 1⟩),
                ("a", ⟨"a", "A", "", true, [], some "r", 2⟩),
                ("b", ⟨"b", "B", "", true, [], some "r", 3⟩)] a = some ta →
              (ta.completed = true →
                findTask s'.tasks a = some { ta with completed := false })
              ∧ (ta.completed = false → findTask s'.tasks a = some ta)) :=
  ⟨by decide, by decide, by decide,
   C3_create_appends_leaf_uncompletes_ancestors
     ⟨[("g", ⟨"g", "G", "", true, ["r"], none, 0⟩),
       ("r", ⟨"r", "R", "", true, ["a", "b"], some "g", 1⟩),
       ("a", ⟨"a", "A", "", true, [], some "r", 2⟩),
       ("b", ⟨"b", "B", "", true, [], some "r", 3⟩)], ["g"]⟩ "r" "C" "c" 9
     ⟨"r", "R", "", true, ["a", "b"], some "g", 1⟩
     (by decide) (by decide) (by decide)⟩

/-- Flag-level description of the parent step of `deleteTask`: every
surviving record keeps its `completed` flag or has it promoted to `true`,
and when the parent is left childless the step is exactly the children
filter (no promotion runs, the stale flag is kept). -/
theorem deleteParentStep_flags (s : AppState) (taskId : String) (t : Task)
    (hInv : Inv s) (ht : findTask s.tasks taskId = some t) :
    ∃ m2, deleteParentStep s.tasks taskId t = some m2
      ∧ (∀ k tk2 tk0, findTask m2 k = some tk2 → findTask s.tasks k = some tk0 →
          tk2.completed = tk0.completed ∨ tk2.completed = true)
      ∧ (∀ pid parent, t.parentId = some pid →
          findTask s.tasks pid = some parent →
          ¬((parent.children.filter (fun cid => cid != taskId)).length > 0) →
          m2 = setTask s.tasks pid
            { parent with
              children := parent.children.filter (fun cid => cid != taskId) }) := by
  obtain ⟨hwf, hri, hbr, hac, hci, hrs⟩ := hInv
  cases hpid : t.parentId with
  | none =>
      refine ⟨s.tasks, by simp [deleteParentStep, hpid], ?_, ?_⟩
      · intro k tk2 tk0 h2 h0
        rw [h2] at h0
        injection h0 with h0'
        exact Or.inl (by rw [h0'])
      · intro pid parent hcon
        cases hcon
  | some pid =>
      have hpo := (hri (taskId, t) (findTask_some_mem ht)).2
      rw [parentOk_some hpid] at hpo
      cases hfp : findTask s.tasks pid with
      | none => rw [hfp] at hpo; simp at hpo
      | some parent =>
          have hid : parent.id = pid := id_of_WFKeys hwf hfp
          subst hid
          have hfind_m1 : ∀ x, findTask (setTask s.tasks parent.id
              { parent with
                children := parent.children.filter (fun cid => cid != taskId) }) x
              = if x = parent.id
                then some { parent with
                  children := parent.children.filter (fun cid => cid != taskId) }
                else findTask s.tasks x := fun x => findTask_setTask ..
          have hF1 : ∀ k tk2 tk0,
              findTask (setTask s.tasks parent.id
                { parent with
                  children := parent.children.filter (fun cid => cid != taskId) }) k
                = some tk2 →
              findTask s.tasks k = some tk0 →
              tk2.completed = tk0.completed ∨ tk2.completed = true := by
            intro k tk2 tk0 h2 h0
            rw [hfind_m1 k] at h2
            by_cases hk : k = parent.id
            · rw [if_pos hk] at h2
              injection h2 with h2'
              rw [hk, hfp] at h0
              injection h0 with h0'
              left
              rw [← h2', ← h0']
            · rw [if_neg hk] at h2
              rw [h2] at h0
              injection h0 with h0'
              left
              rw [h0']
          have hGcontra : ∀ (m2c : TaskMap),
              ((parent.children.filter (fun cid => cid != taskId)).length > 0) →
              (∀ pid' parent', some parent.id = some pid' →
                findTask s.tasks pid' = some parent' →
                ¬((parent'.children.filter (fun cid => cid != taskId)).length > 0) →
                m2c = setTask s.tasks pid'
                  { parent' with
                    children := parent'.children.filter (fun cid => cid != taskId) }) := by
            intro m2c hempty pid' parent' hps hfp' hlen
            exfalso
            injection hps with hps'
            rw [← hps'] at hfp'
            rw [hfp] at hfp'
            injection hfp' with he
            rw [← he] at hlen
            exact hlen hempty
          by_cases hempty :
              (parent.children.filter (fun cid => cid != taskId)).length > 0
          · have hkids1 : ∀ c ∈ parent.children.filter (fun cid => cid != taskId),
                (findTask (setTask s.tasks parent.id
                  { parent with
                    children := parent.children.filter (fun cid => cid != taskId) })
                  c).isSome := by
              intro c hcc
              have hc0 : c ∈ parent.children := (List.mem_filter.mp hcc).1
              have hcs := (hri (parent.id, parent) (findTask_some_mem hfp)).1 c hc0
              rw [findTask_setTask]
              by_cases hx : c = parent.id <;> simp [hx, hcs]
            have hacs := allComplete_isSome hkids1
            cases hav : allComplete (setTask s.tasks parent.id
                { parent with
                  children := parent.children.filter (fun cid => cid != taskId) })
                (parent.children.filter (fun cid => cid != taskId)) with
            | none => rw [hav] at hacs; simp at hacs
            | some b =>
                cases b with
                | false =>
                    refine ⟨_, ?_, hF1, hGcontra _ hempty⟩
                    simp only [deleteParentStep, hpid, hfp]
                    rw [if_pos hempty, hav]
                | true =>
                    have hri1 : RefIntegrity (setTask s.tasks parent.id
                        { parent with
                          children := parent.children.filter
                            (fun cid => cid != taskId) }) := by
                      refine RefIntegrity_setTask_sub hri hfp ?_ rfl
                      intro c hcc
                      exact (List.mem_filter.mp hcc).1
                    have hpar_cong : ∀ x, parentIdOf (setTask s.tasks parent.id
                        { parent with
                          children := parent.children.filter
                            (fun cid => cid != taskId) }) x
                        = parentIdOf s.tasks x := by
                      intro x
                      rw [parentIdOf_setTask]
                      by_cases hx : x = parent.id
                      · subst hx
                        rw [if_pos rfl]
                        unfold parentIdOf
                        rw [hfp]
                        rfl
                      · rw [if_neg hx]
                    have hm1len : (setTask s.tasks parent.id
                        { parent with
                          children := parent.children.filter
                            (fun cid => cid != taskId) }).length
                        = s.tasks.length :=
                      length_setTask_of_mem _ _ _ (by rw [hfp]; rfl)
                    have hchainp := hac (parent.id, parent) (findTask_some_mem hfp)
                    cases hchp : chainList (s.tasks.length + 1) s.tasks
                        (some parent.id) with
                    | none => rw [hchp] at hchainp; simp at hchainp
                    | some L =>
                        have hchm1 : chainList (s.tasks.length + 1)
                            (setTask s.tasks parent.id
                              { parent with
                                children := parent.children.filter
                                  (fun cid => cid != taskId) })
                            (some parent.id) = some L := by
                          rw [chainList_congr hpar_cong]
                          exact hchp
                        have hLlen : L.length ≤ s.tasks.length :=
                          chainList_length_le hchp
                        obtain ⟨m2, hprom, _⟩ := promoteUp_spec L
                          ((setTask s.tasks parent.id
                            { parent with
                              children := parent.children.filter
                                (fun cid => cid != taskId) }).length + 1)
                          (setTask s.tasks parent.id
                            { parent with
                              children := parent.children.filter
                                (fun cid => cid != taskId) })
                          (some parent.id) (s.tasks.length + 1) hri1 hchm1
                          (by rw [hm1len]; omega)
                        refine ⟨m2, ?_, ?_, hGcontra _ hempty⟩
                        · simp only [deleteParentStep, hpid, hfp]
                          rw [if_pos hempty, hav]
                          exact hprom
                        · intro k tk2 tk0 h2 h0
                          obtain ⟨tk1, hfm1, hor⟩ :=
                            promoteUp_only_promotes _ _ _ _ hprom k tk2 h2
                          rcases hor with rfl | rfl
                          · exact hF1 k tk2 tk0 hfm1 h0
                          · exact Or.inr rfl
          · refine ⟨_, ?_, hF1, ?_⟩
            · simp only [deleteParentStep, hpid, hfp]
              rw [if_neg hempty]
            · intro pid' parent' hps hfp' hlen
              injection hps with hps'
              rw [← hps'] at hfp'
              rw [hfp] at hfp'
              injection hfp' with he
              rw [← he, ← hps']

/-- **C5.** The upward recompute of `delete` only ever promotes: no
surviving task's `completed` flag changes from `true` to `false`; the
resulting state satisfies the completion invariant, so the former parent
and, transitively, every further ancestor whose (remaining) children are
non-empty and all complete is marked complete; in particular if the parent's
remaining children are non-empty and all complete the parent ends complete,
and a parent left childless keeps its previous `completed` value. -/
theorem C5_delete_only_promotes (s : AppState) (taskId : String) (t : Task)
    (hInv : Inv s) (ht : findTask s.tasks taskId = some t) :
    ∃ s', deleteTask s taskId = some s'
      ∧ (∀ x tx tx', findTask s.tasks x = some tx →
          findTask s'.tasks x = some tx' →
          tx.completed = true → tx'.completed = true)
      ∧ CompletionInv s'.tasks
      ∧ (∀ pid parent, t.parentId = some pid →
          findTask s.tasks pid = some parent →
          parent.children.filter (fun cid => cid != taskId) = [] →
          ∃ p', findTask s'.tasks pid = some p'
            ∧ p'.completed = parent.completed ∧ p'.children = [])
      ∧ (∀ pid parent, t.parentId = some pid →
          findTask s.tasks pid = some parent →
          parent.children.filter (fun cid => cid != taskId) ≠ [] →
          childrenAllComplete s'.tasks
            (parent.children.filter (fun cid => cid != taskId)) = true →
          ∃ p', findTask s'.tasks pid = some p' ∧ p'.completed = true) := by
  obtain ⟨out, m2, hcol, hstep, hdel, hcomplete, hsound, _⟩ :=
    deleteTask_spec s taskId t hInv ht
  obtain ⟨m2f, hstepf, hflags, hchildless⟩ :=
    deleteParentStep_flags s taskId t hInv ht
  rw [hstep] at hstepf
  injection hstepf with hm2f
  subst hm2f
  obtain ⟨m2c, hstepc, _, _, hpar2, hkeys2, hcorr2⟩ :=
    deleteParentStep_completion s taskId t hInv ht
  rw [hstep] at hstepc
  injection hstepc with hm2c
  subst hm2c
  obtain ⟨s'p, hdelp, hInv'⟩ := deleteTask_preserves_inv s taskId t hInv ht
  rw [hdel] at hdelp
  injection hdelp with hs'p
  subst hs'p
  obtain ⟨hwf, hri, hbr, hac, hci, hrs⟩ := hInv
  have hchain := hac (taskId, t) (findTask_some_mem ht)
  cases hcht : chainList (s.tasks.length + 1) s.tasks (some taskId) with
  | none => rw [hcht] at hchain; simp at hchain
  | some Lt =>
      have hfindf : ∀ k, findTask (out.foldl (fun mm i => eraseTask mm i) m2) k
          = if k ∈ out then none else findTask m2 k :=
        fun k => findTask_foldl_erase out m2 k
      refine ⟨_, hdel, ?_, ?_, ?_, ?_⟩
      · -- never demote
        intro x tx tx' hx hx' hc
        replace hx' : findTask (out.foldl (fun mm i => eraseTask mm i) m2) x
            = some tx' := hx'
        rw [hfindf x] at hx'
        by_cases hxo : x ∈ out
        · rw [if_pos hxo] at hx'
          cases hx'
        · rw [if_neg hxo] at hx'
          rcases hflags x tx' tx hx' hx with he | htrue
          · rw [he]
            exact hc
          · exact htrue
      · exact hInv'.2.2.2.2.1
      · -- childless parent keeps its stale flag
        intro pid parent hps hfp hnil
        have hGm2 := hchildless pid parent hps hfp (by rw [hnil]; simp)
        have hpout : pid ∉ out := fun hcon =>
          parent_not_desc hbr ht hps hcht (hsound pid hcon)
        refine ⟨{ parent with
          children := parent.children.filter (fun cid => cid != taskId) },
          ?_, rfl, hnil⟩
        show findTask (out.foldl (fun mm i => eraseTask mm i) m2) pid = some _
        rw [hfindf pid, if_neg hpout, hGm2, findTask_setTask_self]
      · -- promotion when the remaining children are non-empty and complete
        intro pid parent hps hfp hne hall
        have hpout : pid ∉ out := fun hcon =>
          parent_not_desc hbr ht hps hcht (hsound pid hcon)
        have hpkeys : pid ∈ keys m2 := by
          rw [hkeys2]
          exact (mem_keys_iff_findTask _ _).mpr (by rw [hfp]; rfl)
        have hpsome := (mem_keys_iff_findTask m2 pid).mp hpkeys
        cases hfp2 : findTask m2 pid with
        | none => rw [hfp2] at hpsome; simp at hpsome
        | some p2 =>
            obtain ⟨tk0, hk0, _, _, hcd⟩ := hcorr2 pid p2 hfp2
            rw [hfp] at hk0
            injection hk0 with hk0'
            subst hk0'
            have hch2 : p2.children
                = parent.children.filter (fun cid => cid != taskId) := by
              rcases hcd with ⟨hneq, _⟩ | ⟨_, hceq⟩
              · exact absurd hps hneq
              · exact hceq
            have hfinal : findTask (out.foldl (fun mm i => eraseTask mm i) m2)
                pid = some p2 := by
              rw [hfindf pid, if_neg hpout]
              exact hfp2
            refine ⟨p2, hfinal, ?_⟩
            have hc2 := hInv'.2.2.2.2.1 (pid, p2) (findTask_some_mem hfinal)
              (by rw [hch2]; exact hne)
            rw [hc2, hch2]
            exact hall

/-- Witness for C5: deleting the incomplete leaf `"a"` of the concrete
three-task forest leaves the complete leaf `"b"` as the root's only child,
and the conclusion exhibits the promotion facts for that call. -/
theorem C5_delete_only_promotes_witness :
    Inv ⟨[("r", ⟨"r", "R", "", false, ["a", "b"], none, 0⟩),
          ("a", ⟨"a", "A", "", false, [], some "r", 1⟩),
          ("b", ⟨"b", "B", "", true, [], some "r", 2⟩)], ["r"]⟩
      ∧ findTask [("r", ⟨"r", "R", "", false, ["a", "b"], none, 0⟩),
          ("a", ⟨"a", "A", "", false, [], some "r", 1⟩),
          ("b", ⟨"b", "B", "", true, [], some "r", 2⟩)] "a"
          = some ⟨"a", "A", "", false, [], some "r", 1⟩
      ∧ ∃ s', deleteTask ⟨[("r", ⟨"r", "R", "", false, ["a", "b"], none, 0⟩),
            ("a", ⟨"a", "A", "", false, [], some "r", 1⟩),
            ("b", ⟨"b", "B", "", true, [], some "r", 2⟩)], ["r"]⟩ "a" = some s'
          ∧ (∀ x tx tx',
              findTask [("r", ⟨"r", "R", "", false, ["a", "b"], none, 0⟩),
                ("a", ⟨"a", "A", "", false, [], some "r", 1⟩),
                ("b", ⟨"b", "B", "", true, [], some "r", 2⟩)] x = some tx →
              findTask s'.tasks x = some tx' →
              tx.completed = true → tx'.completed = true)
          ∧ CompletionInv s'.tasks
          ∧ (∀ pid parent,
              (⟨"a", "A", "", false, [], some "r", 1⟩ : Task).parentId = some pid →
              findTask [("r", ⟨"r", "R", "", false, ["a", "b"], none, 0⟩),
                ("a", ⟨"a", "A", "", false, [], some "r", 1⟩),
                ("b", ⟨"b", "B", "", true, [], some "r", 2⟩)] pid = some parent →
              parent.children.filter (fun cid => cid != "a") = [] →
              ∃ p', findTask s'.tasks pid = some p'
                ∧ p'.completed = parent.completed ∧ p'.children = [])
          ∧ (∀ pid parent,
              (⟨"a", "A", "", false, [], some "r", 1⟩ : Task).parentId = some pid →
              findTask [("r", ⟨"r", "R", "", false, ["a", "b"], none, 0⟩),
                ("a", ⟨"a", "A", "", false, [], some "r", 1⟩),
                ("b", ⟨"b", "B", "", true, [], some "r", 2⟩)] pid = some parent →
              parent.children.filter (fun cid => cid != "a") ≠ [] →
              childrenAllComplete s'.tasks
                (parent.children.filter (fun cid => cid != "a")) = true →
              ∃ p', findTask s'.tasks pid = some p' ∧ p'.completed = true) :=
  ⟨by decide, by decide,
   C5_delete_only_promotes
     ⟨[("r", ⟨"r", "R", "", false, ["a", "b"], none, 0⟩),
       ("a", ⟨"a", "A", "", false, [], some "r", 1⟩),
       ("b", ⟨"b", "B", "", true, [], some "r", 2⟩)], ["r"]⟩ "a"
     ⟨"a", "A", "", false, [], some "r", 1⟩ (by decide) (by decide)⟩

/-- Two tasks equal up to `completed` with equal flags are equal. -/
theorem stripC_ext {a b : Task} (hs : stripC a = stripC b)
    (hc : a.completed = b.completed) : a = b := by
  obtain ⟨ia, ta, da, ca, cha, pa, cra⟩ := a
  obtain ⟨ib, tb, db, cb, chb, pb, crb⟩ := b
  simp only [stripC, Task.mk.injEq] at hs hc ⊢
  obtain ⟨h1, h2, h3, _, h4, h5, h6⟩ := hs
  exact ⟨h1, h2, h3, hc, h4, h5, h6⟩

/-- Two stores that agree up to `completed` flags and whose records carry
equal flags key by key are equal. -/
theorem eq_of_sameStruct_of_completedAt :
    ∀ (m m' : TaskMap), sameStruct m m' → (keys m).Nodup →
      (∀ k t t', findTask m k = some t → findTask m' k = some t' →
        t.completed = t'.completed) →
      m = m' := by
  intro m
  induction m with
  | nil =>
      intro m' hstr _ _
      have h1 : strip m' = [] := hstr.symm
      unfold strip at h1
      exact (List.map_eq_nil.mp h1).symm
  | cons p rest ih =>
      intro m' hstr hnd hflag
      obtain ⟨k, t⟩ := p
      cases m' with
      | nil =>
          exfalso
          have h1 : strip ((k, t) :: rest) = strip [] := hstr
          simp [strip] at h1
      | cons q rest' =>
          obtain ⟨k', t'⟩ := q
          have h1 : (k, stripC t) :: strip rest = (k', stripC t') :: strip rest' := hstr
          injection h1 with hhead htail
          injection hhead with hk hst
          subst hk
          have hnd1 : (keys rest).Nodup := (List.nodup_cons.mp hnd).2
          have hknr : k ∉ keys rest := (List.nodup_cons.mp hnd).1
          have hteq : t = t' := by
            refine stripC_ext hst ?_
            refine hflag k t t' ?_ ?_
            · rw [findTask_cons, if_pos rfl]
            · rw [findTask_cons, if_pos rfl]
          subst hteq
          have hrest : rest = rest' := by
            refine ih rest' htail hnd1 ?_
            intro k2 t2 t2' hf2 hf2'
            have hk2 : k2 ≠ k := by
              intro hcon
              subst hcon
              exact hknr ((mem_keys_iff_findTask _ _).mpr (by rw [hf2]; rfl))
            refine hflag k2 t2 t2' ?_ ?_
            · rw [findTask_cons, if_neg hk2]
              exact hf2
            · rw [findTask_cons, if_neg hk2]
              exact hf2'
          rw [hrest]

/-- In two invariant states equal up to `completed` flags whose leaf flags
agree, all flags agree: the completion invariant determines every internal
flag from the leaves. -/
theorem completed_determined (s s' : AppState) (hInv : Inv s) (hInv' : Inv s')
    (hstr : sameStruct s.tasks s'.tasks)
    (hleaf : ∀ k t t', findTask s.tasks k = some t →
      findTask s'.tasks k = some t' → t.children = [] →
      t.completed = t'.completed) :
    ∀ k t t', findTask s.tasks k = some t → findTask s'.tasks k = some t' →
      t.completed = t'.completed := by
  obtain ⟨hwf, hri, hbr, hac, hci, hrs⟩ := hInv
  have hci' := hInv'.2.2.2.2.1
  have hpb : Pointback s.tasks := Pointback_of_BackRef hbr
  have main : ∀ (n : Nat) (k : String) (t t' : Task) (lk : List String),
      findTask s.tasks k = some t → findTask s'.tasks k = some t' →
      chainList (s.tasks.length + 1) s.tasks (some k) = some lk →
      s.tasks.length + 1 - lk.length = n →
      t.completed = t'.completed := by
    intro n
    induction n using Nat.strong_induction_on with
    | _ n ih =>
        intro k t t' lk hf hf' hch hn
        by_cases hch0 : t.children = []
        · exact hleaf k t t' hf hf' hch0
        · obtain ⟨u, hu, hstu⟩ := sameStruct_find_some hstr hf
          rw [hf'] at hu
          injection hu with hu'
          subst hu'
          have hche : t'.children = t.children := stripC_children hstu
          have e1 := hci (k, t) (findTask_some_mem hf) hch0
          have e2 := hci' (k, t') (findTask_some_mem hf') (by rw [hche]; exact hch0)
          rw [e1, e2, hche]
          refine childrenAllComplete_congr ?_
          intro c hcx
          have hcs := (hri (k, t) (findTask_some_mem hf)).1 c hcx
          cases hfc : findTask s.tasks c with
          | none => rw [hfc] at hcs; simp at hcs
          | some tc =>
              obtain ⟨tc', hfc', _⟩ := sameStruct_find_some hstr hfc
              have hpc := hpb (k, t) (findTask_some_mem hf) c hcx
              unfold parentIdOf at hpc
              rw [hfc] at hpc
              simp only [Option.map_some', Option.some.injEq] at hpc
              have hlk : lk.length ≤ s.tasks.length := chainList_length_le hch
              have hchk : chainList s.tasks.length s.tasks (some k) = some lk :=
                chainList_fuel_ge lk.length s.tasks.length _ _ hlk
                  (chainList_min_fuel _ _ _ hch)
              have hchc : chainList (s.tasks.length + 1) s.tasks (some c)
                  = some (c :: lk) := by
                simp only [chainList, hfc, hpc, hchk]
                rfl
              rw [completedAt_some hfc, completedAt_some hfc']
              have harith : s.tasks.length + 1 - (c :: lk).length < n := by
                simp only [List.length_cons]
                omega
              exact ih _ harith c tc tc' (c :: lk) hfc hfc' hchc rfl
  intro k t t' hf hf'
  have hchain := hac (k, t) (findTask_some_mem hf)
  cases hch : chainList (s.tasks.length + 1) s.tasks (some k) with
  | none => rw [hch] at hchain; simp at hchain
  | some lk => exact main (s.tasks.length + 1 - lk.length) k t t' lk hf hf' hch rfl

/-- **C6 (amended).** Toggling twice is the identity when (and, by the
counterexample, only under extra conditions such as) the toggled task's
subtree is uniform: if every task in `taskId`'s subtree carries the same
`completed` value as the task itself, then two successive
`toggleCompletion(taskId)` calls return the exact original state. -/
theorem C6_toggle_twice_identity_on_uniform_subtree (s : AppState)
    (taskId : String) (task : Task) (hInv : Inv s)
    (ht : findTask s.tasks taskId = some task)
    (huni : ∀ x tx, IsDesc s.tasks taskId x → findTask s.tasks x = some tx →
      tx.completed = task.completed) :
    ∃ s1 s2, toggleTask s taskId = some s1 ∧ toggleTask s1 taskId = some s2
      ∧ s2 = s := by
  obtain ⟨s1, lanc1, g1, heq1, hInv1, hroots1, hstr1, hch1, hforce1, hframe1⟩ :=
    toggleTask_spec s taskId task hInv ht
  have hft1 : findTask s1.tasks taskId
      = some { task with completed := !task.completed } :=
    hforce1 taskId IsDesc.refl task ht
  obtain ⟨s2, lanc2, g2, heq2, hInv2, hroots2, hstr2, hch2, hforce2, hframe2⟩ :=
    toggleTask_spec s1 taskId { task with completed := !task.completed }
      hInv1 hft1
  refine ⟨s1, s2, heq1, heq2, ?_⟩
  have hstr02 : sameStruct s.tasks s2.tasks := sameStruct_trans hstr1 hstr2
  have hdesc_back : ∀ x, IsDesc s.tasks taskId x → ∀ tx,
      findTask s.tasks x = some tx → findTask s2.tasks x = some tx := by
    intro x hdx tx hfx
    have hdx1 : IsDesc s1.tasks taskId x := IsDesc_of_sameStruct hstr1 hdx
    have h1 := hforce1 x hdx tx hfx
    have h2 := hforce2 x hdx1 _ h1
    rw [h2]
    have hc : tx.completed = task.completed := huni x tx hdx hfx
    show some { tx with completed := !!task.completed } = some tx
    rw [Bool.not_not, ← hc]
  have hroots : s2.rootTaskIds = s.rootTaskIds := by rw [hroots2, hroots1]
  -- the chains of the two passes coincide, and no leaf lies on them
  have hch1std := chainList_std_fuel hch1
  have hfull : chainList (s.tasks.length + 1 + 1) s.tasks (some taskId)
      = some (taskId :: lanc1) := by
    simp only [chainList, ht, hch1std]
    rfl
  have hndfull := chainList_nodup _ _ _ hfull
  have hanc1 : ∀ a ∈ lanc1, IsDesc s.tasks a taskId := fun a ha =>
    chain_mem_IsDesc (hInv.2.2.1) _ _ _ hfull a (List.mem_cons_of_mem _ ha)
  have hlanc2 : lanc2 = lanc1 := by
    have h1 : chainList g2 s.tasks task.parentId = some lanc2 := by
      rw [← sameStruct_chainList hstr1]
      exact hch2
    exact chainList_unique g2 g1 _ _ _ h1 hch1
  have hleaf : ∀ k t t', findTask s.tasks k = some t →
      findTask s2.tasks k = some t' → t.children = [] →
      t.completed = t'.completed := by
    intro k t t' hf hf2 hchild
    by_cases hdk : IsDesc s.tasks taskId k
    · have hb := hdesc_back k hdk t hf
      rw [hb] at hf2
      injection hf2 with h
      rw [h]
    · have hknot1 : k ∉ lanc1 := by
        intro hcon
        have hdkt := hanc1 k hcon
        have hkt : k ≠ taskId := by
          intro hcon2
          exact hdk (hcon2 ▸ IsDesc.refl)
        rcases IsDesc_first_step hdkt with h | ⟨t0, c0, hf0, hc0, _⟩
        · exact hkt (by rw [h] at hdk; exact absurd IsDesc.refl hdk) |>.elim
        · rw [hf] at hf0
          injection hf0 with hf0'
          rw [← hf0', hchild] at hc0
          simp at hc0
      have hdk1 : ¬ IsDesc s1.tasks taskId k := fun hcon =>
        hdk (IsDesc_of_sameStruct (sameStruct_symm hstr1) hcon)
      have hknot2 : k ∉ lanc2 := by rw [hlanc2]; exact hknot1
      have hs1 := hframe1 k hdk hknot1
      have hs2 := hframe2 k hdk1 hknot2
      rw [hs2, hs1] at hf2
      rw [hf] at hf2
      injection hf2 with h
      rw [h]
  have hflag := completed_determined s s2 hInv hInv2 hstr02 hleaf
  have htasks : s.tasks = s2.tasks :=
    eq_of_sameStruct_of_completedAt s.tasks s2.tasks hstr02 hInv.1.1 hflag
  have hs2eta : s2 = { tasks := s2.tasks, rootTaskIds := s2.rootTaskIds } := rfl
  rw [hs2eta, ← htasks, hroots]

/-- Counterexample to C6 as stated: on the concrete forest whose root is
incomplete with one incomplete and one complete leaf, toggling the root twice
does not restore the original state (the complete leaf `"b"` ends up
incomplete, forced by the second downward pass). -/
theorem C6_counterexample :
    (toggleTask ⟨[("r", ⟨"r", "R", "", false, ["a", "b"], none, 0⟩),
        ("a", ⟨"a", "A", "", false, [], some "r", 1⟩),
        ("b", ⟨"b", "B", "", true, [], some "r", 2⟩)], ["r"]⟩ "r").bind
      (fun s1 => toggleTask s1 "r")
      ≠ some ⟨[("r", ⟨"r", "R", "", false, ["a", "b"], none, 0⟩),
          ("a", ⟨"a", "A", "", false, [], some "r", 1⟩),
          ("b", ⟨"b", "B", "", true, [], some "r", 2⟩)], ["r"]⟩
      ∧ (toggleTask ⟨[("r", ⟨"r", "R", "", false, ["a", "b"], none, 0⟩),
          ("a", ⟨"a", "A", "", false, [], some "r", 1⟩),
          ("b", ⟨"b", "B", "", true, [], some "r", 2⟩)], ["r"]⟩ "r").bind
        (fun s1 => (toggleTask s1 "r").bind
          (fun s2 => (findTask s2.tasks "b").map Task.completed))
        = some false := by
  refine ⟨by decide, by decide⟩

/-- Witness for the amended C6: on the concrete forest whose root and both
leaves are all incomplete (a uniform subtree), toggling the root twice is
the identity. -/
theorem C6_toggle_twice_identity_on_uniform_subtree_witness :
    Inv ⟨[("r", ⟨"r", "R", "", false, ["a", "b"], none, 0⟩),
          ("a", ⟨"a", "A", "", false, [], some "r", 1⟩),
          ("b", ⟨"b", "B", "", false, [], some "r", 2⟩)], ["r"]⟩
      ∧ findTask [("r", ⟨"r", "R", "", false, ["a", "b"], none, 0⟩),
          ("a", ⟨"a", "A", "", false, [], some "r", 1⟩),
          ("b", ⟨"b", "B", "", false, [], some "r", 2⟩)] "r"
          = some ⟨"r", "R", "", false, ["a", "b"], none, 0⟩
      ∧ (∀ x tx, IsDesc [("r", ⟨"r", "R", "", false, ["a", "b"], none, 0⟩),
            ("a", ⟨"a", "A", "", false, [], some "r", 1⟩),
            ("b", ⟨"b", "B", "", false, [], some "r", 2⟩)] "r" x →
          findTask [("r", ⟨"r", "R", "", false, ["a", "b"], none, 0⟩),
            ("a", ⟨"a", "A", "", false, [], some "r", 1⟩),
            ("b", ⟨"b", "B", "", false, [], some "r", 2⟩)] x = some tx →
          tx.completed = false)
      ∧ ∃ s1 s2,
          toggleTask ⟨[("r", ⟨"r", "R", "", false, ["a", "b"], none, 0⟩),
            ("a", ⟨"a", "A", "", false, [], some "r", 1⟩),
            ("b", ⟨"b", "B", "", false, [], some "r", 2⟩)], ["r"]⟩ "r" = some s1
          ∧ toggleTask s1 "r" = some s2
          ∧ s2 = ⟨[("r", ⟨"r", "R", "", false, ["a", "b"], none, 0⟩),
              ("a", ⟨"a", "A", "", false, [], some "r", 1⟩),
              ("b", ⟨"b", "B", "", false, [], some "r", 2⟩)], ["r"]⟩ := by
  have huni : ∀ x tx, IsDesc [("r", ⟨"r", "R", "", false, ["a", "b"], none, 0⟩),
        ("a", ⟨"a", "A", "", false, [], some "r", 1⟩),
        ("b", ⟨"b", "B", "", false, [], some "r", 2⟩)] "r" x →
      findTask [("r", ⟨"r", "R", "", false, ["a", "b"], none, 0⟩),
        ("a", ⟨"a", "A", "", false, [], some "r", 1⟩),
        ("b", ⟨"b", "B", "", false, [], some "r", 2⟩)] x = some tx →
      tx.completed = false := by
    intro x tx hdx hfx
    obtain ⟨out, hout, hcomp⟩ := collect_spec 4
      [("r", ⟨"r", "R", "", false, ["a", "b"], none, 0⟩),
       ("a", ⟨"a", "A", "", false, [], some "r", 1⟩),
       ("b", ⟨"b", "B", "", false, [], some "r", 2⟩)] "r" [] ["r"] 4
      (by decide) (by decide) (by decide)
    have hx := hcomp x hdx
    rw [show collect 4 [("r", ⟨"r", "R", "", false, ["a", "b"], none, 0⟩),
        ("a", ⟨"a", "A", "", false, [], some "r", 1⟩),
        ("b", ⟨"b", "B", "", false, [], some "r", 2⟩)] "r" []
        = some ["r", "a", "b"] from by decide] at hout
    injection hout with hout'
    rw [← hout'] at hx
    simp only [List.mem_cons, List.not_mem_nil, or_false] at hx
    rcases hx with rfl | rfl | rfl
    · rw [show findTask [("r", ⟨"r", "R", "", false, ["a", "b"], none, 0⟩),
          ("a", ⟨"a", "A", "", false, [], some "r", 1⟩),
          ("b", ⟨"b", "B", "", false, [], some "r", 2⟩)] "r"
          = some ⟨"r", "R", "", false, ["a", "b"], none, 0⟩ from by decide] at hfx
      injection hfx with h
      rw [← h]
    · rw [show findTask [("r", ⟨"r", "R", "", false, ["a", "b"], none, 0⟩),
          ("a", ⟨"a", "A", "", false, [], some "r", 1⟩),
          ("b", ⟨"b", "B", "", false, [], some "r", 2⟩)] "a"
          = some ⟨"a", "A", "", false, [], some "r", 1⟩ from by decide] at hfx
      injection hfx with h
      rw [← h]
    · rw [show findTask [("r", ⟨"r", "R", "", false, ["a", "b"], none, 0⟩),
          ("a", ⟨"a", "A", "", false, [], some "r", 1⟩),
          ("b", ⟨"b", "B", "", false, [], some "r", 2⟩)] "b"
          = some ⟨"b", "B", "", false, [], some "r", 2⟩ from by decide] at hfx
      injection hfx with h
      rw [← h]
  refine ⟨by decide, by decide, huni, ?_⟩
  exact C6_toggle_twice_identity_on_uniform_subtree
    ⟨[("r", ⟨"r", "R", "", false, ["a", "b"], none, 0⟩),
      ("a", ⟨"a", "A", "", false, [], some "r", 1⟩),
      ("b", ⟨"b", "B", "", false, [], some "r", 2⟩)], ["r"]⟩ "r"
    ⟨"r", "R", "", false, ["a", "b"], none, 0⟩ (by decide) (by decide) huni

end FractalTask
